import Mathlib

/-!
# File explorer tree (`src/file_explorer.c`)

A shallow embedding of the tree store of the file explorer: the `Node`
structure with its three raw links (`parent`, `firstChild`, `nextSibling`),
the heap the nodes live in, and the operations `createNode`, `addChild`,
`findChild`, `createFolder`, `createFile`, `removeFromParent`,
`deleteNodeRecursive`, `deleteNode`, `moveNode`, `searchDFS`, `searchBFS`,
`getFullPath` and `changeDirectory`.

Conventions of the embedding.

* A C string is the list of its bytes before the terminating NUL.
* A pointer is `Option Nat`: `none` is `NULL`, `some a` is address `a`.
* The heap is a list of cells; address `a` is position `a`.  A cell is
  `some node` while allocated and `none` once freed.  `malloc` always
  succeeds and returns the next unused address.
* Every function that dereferences a pointer returns `Option`: `none`
  stands for a run without a defined result (a dereference of an invalid
  pointer, or a loop that does not end).  Loops carry a fuel counter that
  starts above the number of heap cells, so that a loop which exhausts it has
  visited some cell twice.
* A `void` function that prints one status line returns that line as a `Msg`;
  the searches return the list of the lines they print.
* A text written by `snprintf` into a buffer of `MAX_PATH_LENGTH` bytes is cut
  to `MAX_PATH_LENGTH - 1` bytes.
* The array `queue` of `searchBFS` is the list of its written slots; a write
  past its last slot has no defined result.
-/

namespace FileExplorer

/-- Value of `MAX_NAME_LENGTH`. -/
def MAX_NAME_LENGTH : Nat := 50

/-- Value of `MAX_PATH_LENGTH`. -/
def MAX_PATH_LENGTH : Nat := 500

/-- A pointer to a node: `none` is `NULL`. -/
abbrev Ptr := Option Nat

/-- The C `struct Node`. -/
structure Node where
  name : List Nat
  isFile : Bool
  parent : Ptr
  firstChild : Ptr
  nextSibling : Ptr
deriving DecidableEq, Repr

/-- The heap: cell `a` is `some node` while allocated, `none` once freed. -/
abbrev Heap := List (Option Node)

/-- The globals `root` and `currentDir` together with the heap. -/
structure FS where
  heap : Heap
  root : Ptr
  currentDir : Ptr
deriving DecidableEq, Repr

/-- The status line an operation prints. -/
inductive Msg where
  | ok
  | invalidArgument
  | notADirectory
  | nameCollision
  | notFound
  | cannotDeleteRoot
  | cannotDeleteCurrent
  | cannotDeleteAncestorOfCurrent
  | cannotMoveRoot
  | destinationNotDirectory
  | cyclicMove
  | alreadyAtRoot
deriving DecidableEq, Repr

/-- Read of `*p`. -/
def load (h : Heap) (a : Nat) : Option Node := (h.get? a).join

/-- Write of a whole cell. -/
def store (h : Heap) (a : Nat) (n : Node) : Heap := h.set a (some n)

/-- The call `free(p)`. -/
def release (h : Heap) (a : Nat) : Heap := h.set a none

/-- A field assignment `p->field = value`, given as the change of the cell. -/
def assign (h : Heap) (a : Nat) (f : Node → Node) : Option Heap :=
  match load h a with
  | none => none
  | some n => some (store h a (f n))

/-- Sign of `strcmp(a, b)`. -/
def strcmp : List Nat → List Nat → Int
  | [], [] => 0
  | [], _ :: _ => -1
  | _ :: _, [] => 1
  | a :: as, b :: bs => if a < b then -1 else if b < a then 1 else strcmp as bs

/-- Whether `needle` is an initial segment of `hay`. -/
def startsWith : List Nat → List Nat → Bool
  | _, [] => true
  | [], _ :: _ => false
  | a :: as, b :: bs => a == b && startsWith as bs

/-- Whether `strstr(hay, needle)` is not `NULL`. -/
def strstr : List Nat → List Nat → Bool
  | [], needle => startsWith [] needle
  | a :: as, needle => startsWith (a :: as) needle || strstr as needle

/-- The function `createNode`: the new address and the heap holding the new cell. -/
def createNode (h : Heap) (name : List Nat) (isFile : Bool) : Nat × Heap :=
  (h.length, h ++ [some ⟨name.take (MAX_NAME_LENGTH - 1), isFile, none, none, none⟩])

/-- The condition under which `addChild` splices `child` in before `current`. -/
def insertsBefore (child current : Node) : Bool :=
  (!child.isFile && current.isFile) ||
    (child.isFile == current.isFile && decide (strcmp child.name current.name < 0))

/-- The `while (current != NULL)` loop of `addChild` and the statement after it. -/
def addChildLoop : Nat → Heap → Nat → Nat → Ptr → Ptr → Option Heap
  | 0, _, _, _, _, _ => none
  | _ + 1, h, _, child, none, previous =>
    match previous with
    | none => none
    | some pv => assign h pv (fun x => { x with nextSibling := some child })
  | fuel + 1, h, parent, child, some cur, previous =>
    match load h child, load h cur with
    | some cn, some curn =>
      if insertsBefore cn curn then
        match previous with
        | none =>
          match load h parent with
          | none => none
          | some pn =>
            match assign h child (fun x => { x with nextSibling := pn.firstChild }) with
            | none => none
            | some h1 => assign h1 parent (fun x => { x with firstChild := some child })
        | some pv =>
          match assign h pv (fun x => { x with nextSibling := some child }) with
          | none => none
          | some h1 => assign h1 child (fun x => { x with nextSibling := some cur })
      else addChildLoop fuel h parent child curn.nextSibling (some cur)
    | _, _ => none

/-- The function `addChild`. -/
def addChild (h : Heap) (parent child : Ptr) : Option Heap :=
  match parent, child with
  | some p, some c =>
    match assign h c (fun x => { x with parent := some p }) with
    | none => none
    | some h1 =>
      match load h1 p with
      | none => none
      | some pn =>
        match pn.firstChild with
        | none => assign h1 p (fun x => { x with firstChild := some c })
        | some f => addChildLoop (h1.length + 1) h1 p c (some f) none
  | _, _ => some h

/-- The loop of `findChild`. -/
def findChildLoop : Nat → Heap → Ptr → List Nat → Option Ptr
  | 0, _, _, _ => none
  | _ + 1, _, none, _ => some none
  | fuel + 1, h, some c, name =>
    match load h c with
    | none => none
    | some n =>
      if strcmp n.name name = 0 then some (some c)
      else findChildLoop fuel h n.nextSibling name

/-- The function `findChild`. -/
def findChild (h : Heap) (parent : Ptr) (name : List Nat) : Option Ptr :=
  match parent with
  | none => some none
  | some p =>
    match load h p with
    | none => none
    | some pn => findChildLoop (h.length + 1) h pn.firstChild name

/-- The body shared by `createFolder` (`isFile = false`) and `createFile`
(`isFile = true`), which differ in that flag and in the text they print. -/
def create (isFile : Bool) (s : FS) (parent : Ptr) (name : List Nat) : Option (Msg × FS) :=
  match parent with
  | none => some (Msg.invalidArgument, s)
  | some p =>
    match load s.heap p with
    | none => none
    | some pn =>
      if pn.isFile then some (Msg.notADirectory, s)
      else
        match findChild s.heap parent name with
        | none => none
        | some (some _) => some (Msg.nameCollision, s)
        | some none =>
          let (c, h1) := createNode s.heap name isFile
          match addChild h1 parent (some c) with
          | none => none
          | some h2 => some (Msg.ok, { s with heap := h2 })

/-- The function `createFolder`. -/
def createFolder (s : FS) (parent : Ptr) (name : List Nat) : Option (Msg × FS) :=
  create false s parent name

/-- The function `createFile`. -/
def createFile (s : FS) (parent : Ptr) (name : List Nat) : Option (Msg × FS) :=
  create true s parent name

/-- The loop of `removeFromParent`; the result is the final value of `current`. -/
def removeLoop : Nat → Heap → Ptr → Nat → Option Ptr
  | 0, _, _, _ => none
  | _ + 1, _, none, _ => some none
  | fuel + 1, h, some cur, node =>
    match load h cur with
    | none => none
    | some cn =>
      if cn.nextSibling = some node then some (some cur)
      else removeLoop fuel h cn.nextSibling node

/-- The function `removeFromParent`. -/
def removeFromParent (h : Heap) (node : Ptr) : Option Heap :=
  match node with
  | none => some h
  | some nd =>
    match load h nd with
    | none => none
    | some n =>
      match n.parent with
      | none => some h
      | some p =>
        match load h p with
        | none => none
        | some pn =>
          if pn.firstChild = some nd then
            assign h p (fun x => { x with firstChild := n.nextSibling })
          else
            match removeLoop (h.length + 1) h pn.firstChild nd with
            | none => none
            | some none => some h
            | some (some c) => assign h c (fun x => { x with nextSibling := n.nextSibling })

mutual
/-- The function `deleteNodeRecursive`. -/
def deleteNodeRecursive : Nat → Heap → Ptr → Option Heap
  | 0, _, _ => none
  | _ + 1, h, none => some h
  | fuel + 1, h, some p =>
    match load h p with
    | none => none
    | some n =>
      match deleteChildren fuel h n.firstChild with
      | none => none
      | some h1 =>
        match load h1 p with
        | none => none
        | some _ => some (release h1 p)
/-- The `while (child != NULL)` loop of `deleteNodeRecursive`. -/
def deleteChildren : Nat → Heap → Ptr → Option Heap
  | 0, _, _ => none
  | _ + 1, h, none => some h
  | fuel + 1, h, some c =>
    match load h c with
    | none => none
    | some cn =>
      match deleteNodeRecursive fuel h (some c) with
      | none => none
      | some h1 => deleteChildren fuel h1 cn.nextSibling
end

/-- The loop `while (temp != NULL) { if (temp == node) ...; temp = temp->parent; }`
of `deleteNode` and `moveNode`: whether `node` is met on the way up. -/
def ancestorLoop : Nat → Heap → Ptr → Nat → Option Bool
  | 0, _, _, _ => none
  | _ + 1, _, none, _ => some false
  | fuel + 1, h, some t, node =>
    if t = node then some true
    else
      match load h t with
      | none => none
      | some tn => ancestorLoop fuel h tn.parent node

/-- The function `deleteNode`. -/
def deleteNode (s : FS) (node : Ptr) : Option (Msg × FS) :=
  match node with
  | none => some (Msg.invalidArgument, s)
  | some nd =>
    if node = s.root then some (Msg.cannotDeleteRoot, s)
    else if node = s.currentDir then some (Msg.cannotDeleteCurrent, s)
    else
      match ancestorLoop (s.heap.length + 1) s.heap s.currentDir nd with
      | none => none
      | some true => some (Msg.cannotDeleteAncestorOfCurrent, s)
      | some false =>
        match removeFromParent s.heap node with
        | none => none
        | some h1 =>
          match load h1 nd with
          | none => none
          | some _ =>
            match deleteNodeRecursive (2 * h1.length + 2) h1 node with
            | none => none
            | some h2 => some (Msg.ok, { s with heap := h2 })

/-- The function `moveNode`. -/
def moveNode (s : FS) (src dest : Ptr) : Option (Msg × FS) :=
  match src, dest with
  | some sp, some dp =>
    if src = s.root then some (Msg.cannotMoveRoot, s)
    else
      match load s.heap dp with
      | none => none
      | some dn =>
        if dn.isFile then some (Msg.destinationNotDirectory, s)
        else
          match load s.heap sp with
          | none => none
          | some sn =>
            match (if sn.isFile then some false
                   else ancestorLoop (s.heap.length + 1) s.heap dest sp) with
            | none => none
            | some true => some (Msg.cyclicMove, s)
            | some false =>
              match findChild s.heap dest sn.name with
              | none => none
              | some (some _) => some (Msg.nameCollision, s)
              | some none =>
                match removeFromParent s.heap src with
                | none => none
                | some h1 =>
                  match assign h1 sp (fun x => { x with nextSibling := none }) with
                  | none => none
                  | some h2 =>
                    match addChild h2 dest src with
                    | none => none
                    | some h3 => some (Msg.ok, { s with heap := h3 })
  | _, _ => some (Msg.invalidArgument, s)

mutual
/-- The function `searchDFS`; the result lists the printed lines, each as the
`isFile` flag that selects the icon and the path text. -/
def searchDFS : Nat → Heap → Ptr → List Nat → List Nat → Option (List (Bool × List Nat))
  | 0, _, _, _, _ => none
  | _ + 1, _, none, _, _ => some []
  | fuel + 1, h, some p, name, currentPath =>
    match load h p with
    | none => none
    | some n =>
      let fullPath := (currentPath ++ 47 :: n.name).take (MAX_PATH_LENGTH - 1)
      let hit := if strstr n.name name then [(n.isFile, fullPath)] else []
      if n.isFile then some hit
      else
        match searchChildren fuel h n.firstChild name fullPath with
        | none => none
        | some r => some (hit ++ r)
/-- The `while (child != NULL)` loop of `searchDFS`. -/
def searchChildren : Nat → Heap → Ptr → List Nat → List Nat → Option (List (Bool × List Nat))
  | 0, _, _, _, _ => none
  | _ + 1, _, none, _, _ => some []
  | fuel + 1, h, some c, name, fullPath =>
    match load h c with
    | none => none
    | some cn =>
      match searchDFS fuel h (some c) name fullPath with
      | none => none
      | some r1 =>
        match searchChildren fuel h cn.nextSibling name fullPath with
        | none => none
        | some r2 => some (r1 ++ r2)
end

/-- The loop of `getFullPath`, `temp` being the text built so far. -/
def getFullPathLoop : Nat → Heap → Ptr → List Nat → Option (List Nat)
  | 0, _, _, _ => none
  | _ + 1, _, none, temp => some temp
  | fuel + 1, h, some c, temp =>
    match load h c with
    | none => none
    | some n => getFullPathLoop fuel h n.parent ((47 :: n.name ++ temp).take (MAX_PATH_LENGTH - 1))

/-- The function `getFullPath`; `some none` is the `NULL` result. -/
def getFullPath (h : Heap) (node : Ptr) : Option (Option (List Nat)) :=
  match node with
  | none => some none
  | some _ => (getFullPathLoop (h.length + 1) h node []).map some

/-- The function `changeDirectory`, called on `&currentDir`; the bytes `46 46`
are `".."` and `47` is `"/"`.  The successful branches print the new path
through `printCurrentPath`, hence the calls of `getFullPath`. -/
def changeDirectory (s : FS) (name : List Nat) : Option (Msg × FS) :=
  match s.currentDir with
  | none => some (Msg.invalidArgument, s)
  | some c =>
    if strcmp name [46, 46] = 0 then
      match load s.heap c with
      | none => none
      | some cn =>
        match cn.parent with
        | some p =>
          match getFullPath s.heap (some p) with
          | none => none
          | some _ => some (Msg.ok, { s with currentDir := some p })
        | none => some (Msg.alreadyAtRoot, s)
    else if strcmp name [47] = 0 then
      match getFullPath s.heap s.root with
      | none => none
      | some _ => some (Msg.ok, { s with currentDir := s.root })
    else
      match findChild s.heap s.currentDir name with
      | none => none
      | some none => some (Msg.notFound, s)
      | some (some ch) =>
        match load s.heap ch with
        | none => none
        | some chn =>
          if chn.isFile then some (Msg.notADirectory, s)
          else
            match getFullPath s.heap (some ch) with
            | none => none
            | some _ => some (Msg.ok, { s with currentDir := some ch })

/-- The state `main` sets up: `root = createNode("root", 0)` and
`currentDir = root`. -/
def initFS : FS :=
  let (r, h) := createNode [] [114, 111, 111, 116] false
  { heap := h, root := some r, currentDir := some r }

/-- The shape of a linked structure: an empty link, or a node with the shapes
hanging from its `firstChild` and its `nextSibling` links. -/
inductive LT where
  | nil
  | node (addr : Nat) (name : List Nat) (isFile : Bool) (fc ns : LT)
deriving DecidableEq, Repr

namespace LT

/-- The pointer that leads to a shape. -/
def ptr : LT → Ptr
  | nil => none
  | node a _ _ _ _ => some a

/-- All addresses of a shape, in the order of a depth-first walk. -/
def addrs : LT → List Nat
  | nil => []
  | node a _ _ fc ns => a :: (fc.addrs ++ ns.addrs)

/-- The nodes of the sibling chain a shape starts with. -/
def spine : LT → List Nat
  | nil => []
  | node a _ _ _ ns => a :: ns.spine

/-- The entries (`isFile`, `name`) along the sibling chain. -/
def kids : LT → List (Bool × List Nat)
  | nil => []
  | node _ nm f _ ns => (f, nm) :: ns.kids

/-- The part of a shape that starts at address `p` (`nil` if there is none). -/
def sub (p : Nat) : LT → LT
  | nil => nil
  | node a nm f fc ns =>
    if a = p then node a nm f fc ns
    else if p ∈ fc.addrs then fc.sub p else ns.sub p

/-- The parent link of the node at address `p`. -/
def parOf (p : Nat) : Ptr → LT → Ptr
  | _, nil => none
  | par, node a _ _ fc ns =>
    if a = p then par
    else if p ∈ fc.addrs then fc.parOf p (some a) else ns.parOf p par

/-- The shape hanging from the `firstChild` link of the top node. -/
def children : LT → LT
  | nil => nil
  | node _ _ _ fc _ => fc

/-- The chain of addresses from `x` up to the top sibling chain. -/
def path (x : Nat) : LT → List Nat
  | nil => []
  | node a _ _ fc ns =>
    if a = x then [a]
    else if x ∈ fc.addrs then fc.path x ++ [a] else ns.path x

/-- Replace the children of the node at `p` by `g` of them. -/
def atNode (p : Nat) (g : LT → LT) : LT → LT
  | nil => nil
  | node a nm f fc ns =>
    if a = p then node a nm f (g fc) ns
    else node a nm f (fc.atNode p g) (ns.atNode p g)

/-- Sorted insertion of a node into a sibling chain, as `addChild` does it. -/
def insertSib (c : Nat) (nm : List Nat) (f : Bool) (k : LT) : LT → LT
  | nil => node c nm f k nil
  | node b nmb fb fcb nsb =>
    if insertsBefore ⟨nm, f, none, none, none⟩ ⟨nmb, fb, none, none, none⟩ then
      node c nm f k (node b nmb fb fcb nsb)
    else node b nmb fb fcb (insertSib c nm f k nsb)

/-- Removal of the node at `q` (with its children) from a sibling chain. -/
def removeSib (q : Nat) : LT → LT
  | nil => nil
  | node b nmb fb fcb nsb =>
    if b = q then nsb else node b nmb fb fcb (removeSib q nsb)

/-- The first node of a sibling chain whose name is `name`. -/
def lookup (name : List Nat) : LT → Ptr
  | nil => none
  | node b nmb _ _ nsb => if strcmp nmb name = 0 then some b else lookup name nsb

/-- A property of every node of a shape. -/
def Forall (P : Nat → List Nat → Bool → LT → LT → Prop) : LT → Prop
  | nil => True
  | node a nm f fc ns => P a nm f fc ns ∧ Forall P fc ∧ Forall P ns

end LT

/-- The heap holds the shape `t` below the parent link `par`: every node of
`t` is an allocated cell with the name, kind and links the shape gives. -/
def Rep (h : Heap) : Ptr → LT → Prop
  | _, LT.nil => True
  | par, LT.node a nm f fc ns =>
    load h a = some ⟨nm, f, par, fc.ptr, ns.ptr⟩ ∧ Rep h (some a) fc ∧ Rep h par ns

/-- The order `addChild` keeps: folders before files, names ascending within a kind. -/
def entryLe (x y : Bool × List Nat) : Prop :=
  (x.1 = true → y.1 = true) ∧ (x.1 = y.1 → strcmp x.2 y.2 ≤ 0)

instance (x y : Bool × List Nat) : Decidable (entryLe x y) := by
  unfold entryLe; infer_instance


/-- The cell holding the link that leads to the rest of a sibling chain: the
parent while `previous` is `NULL`, the previous sibling afterwards. -/
def linkCell (parent : Nat) (previous : Ptr) : Nat :=
  match previous with
  | none => parent
  | some pv => pv

/-- The link of that cell: `firstChild` of the parent, `nextSibling` of a sibling. -/
def getLink (previous : Ptr) (n : Node) : Ptr :=
  match previous with
  | none => n.firstChild
  | some _ => n.nextSibling

/-- The cell with that link set to `v`. -/
def setLink (previous : Ptr) (n : Node) (v : Ptr) : Node :=
  match previous with
  | none => { n with firstChild := v }
  | some _ => { n with nextSibling := v }


/-- Every cell allocated in `h` is still allocated in `h'`, with the same name
and kind (its links may differ). -/
def SameEntries (h h' : Heap) : Prop :=
  ∀ a n, load h a = some n → ∃ n', load h' a = some n' ∧ n'.name = n.name ∧ n'.isFile = n.isFile


/-- At a node: it is not behind any of its later siblings in the order of `addChild`. -/
def sortedAt : Nat → List Nat → Bool → LT → LT → Prop :=
  fun _ nm f _ ns => ∀ e ∈ ns.kids, entryLe (f, nm) e

/-- At a node: a file has no children. -/
def leafAt : Nat → List Nat → Bool → LT → LT → Prop :=
  fun _ _ f fc _ => f = true → fc = LT.nil

/-- At a node: no later sibling carries the same name. -/
def uniqueAt : Nat → List Nat → Bool → LT → LT → Prop :=
  fun _ nm _ _ ns => ∀ e ∈ ns.kids, e.2 ≠ nm

/-- The heap of `s` holds exactly the tree `t`, whose top node is `root`; every
file is a leaf, every sibling chain is in the order of `addChild`, and
`currentDir` is an allocated folder. -/
structure Inv (s : FS) (t : LT) : Prop where
  root : ∃ r nm fc, s.root = some r ∧ t = LT.node r nm false fc LT.nil
  rep : Rep s.heap none t
  nodup : t.addrs.Nodup
  dead : ∀ a, a ∉ t.addrs → load s.heap a = none
  leaf : t.Forall leafAt
  sorted : t.Forall sortedAt
  cur : ∃ c cn, s.currentDir = some c ∧ load s.heap c = some cn ∧ cn.isFile = false

/-- One call of an operation that returns. -/
inductive Step : FS → FS → Prop where
  | createFolder {s s' : FS} {m : Msg} (parent : Ptr) (name : List Nat) :
      createFolder s parent name = some (m, s') → Step s s'
  | createFile {s s' : FS} {m : Msg} (parent : Ptr) (name : List Nat) :
      createFile s parent name = some (m, s') → Step s s'
  | deleteNode {s s' : FS} {m : Msg} (node : Ptr) :
      deleteNode s node = some (m, s') → Step s s'
  | moveNode {s s' : FS} {m : Msg} (src dest : Ptr) :
      moveNode s src dest = some (m, s') → Step s s'
  | changeDirectory {s s' : FS} {m : Msg} (name : List Nat) :
      changeDirectory s name = some (m, s') → Step s s'

/-- The states the program can be in: the initial one and those reached from
it by calls of `createFolder`, `createFile`, `deleteNode`, `moveNode` and
`changeDirectory`, with any arguments for which the call returns. -/
inductive Reachable : FS → Prop where
  | init : Reachable initFS
  | step {s s' : FS} : Reachable s → Step s s' → Reachable s'


/-- The parent link of `x` leads to `y`. -/
def ParentOf (h : Heap) (x y : Nat) : Prop :=
  ∃ n, load h x = some n ∧ n.parent = some y

/-- The entry `q` is `x` itself or is met when the parent links are followed
upward from `x`: `x` lies in the subtree of `q`. -/
def AtOrAbove (h : Heap) (q x : Nat) : Prop :=
  Relation.ReflTransGen (ParentOf h) x q

/-- The entry `q` is a proper ancestor of `x`. -/
def Ancestor (h : Heap) (q x : Nat) : Prop :=
  Relation.TransGen (ParentOf h) x q

/-- A `firstChild` or `nextSibling` link leads from `a` to `b`. -/
def Links (h : Heap) (a b : Nat) : Prop :=
  ∃ n, load h a = some n ∧ (n.firstChild = some b ∨ n.nextSibling = some b)

/-- The entry `x` is reached from the pointer `r` through child and sibling links. -/
def ReachableFrom (h : Heap) (r : Ptr) (x : Nat) : Prop :=
  ∃ r0, r = some r0 ∧ Relation.ReflTransGen (Links h) r0 x


/-- Every cell allocated in `h` is still allocated in `h'`, with the same
name, kind and parent link. -/
def SameParents (h h' : Heap) : Prop :=
  ∀ a n, load h a = some n →
    ∃ n', load h' a = some n' ∧ n'.name = n.name ∧ n'.isFile = n.isFile ∧ n'.parent = n.parent


/-- Every cell allocated in `h` is still allocated in `h'`, and the old and new
contents of the cell at `a` stand in the relation `P a`. -/
def Keeps (h h' : Heap) (P : Nat → Node → Node → Prop) : Prop :=
  ∀ a n, load h a = some n → ∃ n', load h' a = some n' ∧ P a n n'

/-- What the loop of `addChild` leaves as it is: names, kinds and parent links
everywhere, `firstChild` links everywhere but at the parent `p`. -/
def keepsLoop (p : Nat) : Nat → Node → Node → Prop :=
  fun a n n' => n'.name = n.name ∧ n'.isFile = n.isFile ∧ n'.parent = n.parent ∧
    (a ≠ p → n'.firstChild = n.firstChild)

/-- What `addChild(d, c)` leaves as it is, and the parent link it sets. -/
def keepsAdd (d c : Nat) : Nat → Node → Node → Prop :=
  fun a n n' => n'.name = n.name ∧ n'.isFile = n.isFile ∧ (a ≠ c → n'.parent = n.parent) ∧
    (a = c → n'.parent = some d) ∧ (a ≠ d → n'.firstChild = n.firstChild)


/-- What `moveNode(q, d)` leaves as it is when `q` was a child of `p`, and the
parent link it sets. -/
def keepsMove (p d q : Nat) : Nat → Node → Node → Prop :=
  fun a n n' => n'.name = n.name ∧ n'.isFile = n.isFile ∧ (a ≠ q → n'.parent = n.parent) ∧
    (a = q → n'.parent = some d) ∧ (a ≠ d → a ≠ p → n'.firstChild = n.firstChild)


/-- The walk along a sibling chain, as in `countChildren` and `displayTree`,
collecting each visited child: its address and its cell. -/
def siblingsFrom : Nat → Heap → Ptr → Option (List (Nat × Node))
  | 0, _, _ => none
  | _ + 1, _, none => some []
  | fuel + 1, h, some c =>
    match load h c with
    | none => none
    | some n =>
      match siblingsFrom fuel h n.nextSibling with
      | none => none
      | some l => some ((c, n) :: l)

/-- The child sequence of `parent`, in stored order. -/
def childList (h : Heap) (parent : Ptr) : Option (List (Nat × Node)) :=
  match parent with
  | none => some []
  | some p =>
    match load h p with
    | none => none
    | some pn => siblingsFrom (h.length + 1) h pn.firstChild

/-- Kind and name of a listed child. -/
def entryOf (x : Nat × Node) : Bool × List Nat := (x.2.isFile, x.2.name)


/-- The nodes of a sibling chain, each with its entry (`isFile`, `name`). -/
def LT.pairs : LT → List (Nat × (Bool × List Nat))
  | LT.nil => []
  | LT.node a nm f _ ns => (a, (f, nm)) :: ns.pairs

/-- The call `searchDFS(root, name, "")` of `handleSearch`. -/
def handleSearch (s : FS) (name : List Nat) : Option (List (Bool × List Nat)) :=
  searchDFS (2 * s.heap.length + 2) s.heap s.root name []

/-- The bytes of `"root"`. -/
def nameRoot : List Nat := [114, 111, 111, 116]

/-- The bytes of `"docs"`. -/
def nameDocs : List Nat := [100, 111, 99, 115]

/-- The bytes of `"a.txt"`. -/
def nameA : List Nat := [97, 46, 116, 120, 116]

/-- The bytes of `"b.txt"`. -/
def nameB : List Nat := [98, 46, 116, 120, 116]

/-- The bytes of `"readme.md"`. -/
def nameReadme : List Nat := [114, 101, 97, 100, 109, 101, 46, 109, 100]

/-- The bytes of `"sub"`. -/
def nameSub : List Nat := [115, 117, 98]

/-- A name of 50 bytes: fifty times `'a'`. -/
def nameLong : List Nat := List.replicate 50 97

/-- The state after `createFolder(root, "docs")`. -/
def stDocs : FS :=
  { heap := [some ⟨nameRoot, false, none, some 1, none⟩,
             some ⟨nameDocs, false, some 0, none, none⟩],
    root := some 0, currentDir := some 0 }

/-- The state after `createFile(docs, "a.txt")` on `stDocs`. -/
def stDocsA : FS :=
  { heap := [some ⟨nameRoot, false, none, some 1, none⟩,
             some ⟨nameDocs, false, some 0, some 2, none⟩,
             some ⟨nameA, true, some 1, none, none⟩],
    root := some 0, currentDir := some 0 }

/-- The state after `createFile(docs, "b.txt")` on `stDocsA`. -/
def stDocsAB : FS :=
  { heap := [some ⟨nameRoot, false, none, some 1, none⟩,
             some ⟨nameDocs, false, some 0, some 2, none⟩,
             some ⟨nameA, true, some 1, none, some 3⟩,
             some ⟨nameB, true, some 1, none, none⟩],
    root := some 0, currentDir := some 0 }

/-- The tree of the scenario: root holds the folder `"docs"` (with the files
`"a.txt"` and `"b.txt"`) and the file `"readme.md"`; the state after
`createFile(root, "readme.md")` on `stDocsAB`. -/
def stScenario : FS :=
  { heap := [some ⟨nameRoot, false, none, some 1, none⟩,
             some ⟨nameDocs, false, some 0, some 2, some 4⟩,
             some ⟨nameA, true, some 1, none, some 3⟩,
             some ⟨nameB, true, some 1, none, none⟩,
             some ⟨nameReadme, true, some 0, none, none⟩],
    root := some 0, currentDir := some 0 }

/-- The state after `createFolder(docs, "sub")` on `stDocs`, and then
`changeDirectory("docs")` and `changeDirectory("sub")`. -/
def stDeep : FS :=
  { heap := [some ⟨nameRoot, false, none, some 1, none⟩,
             some ⟨nameDocs, false, some 0, some 2, none⟩,
             some ⟨nameSub, false, some 1, none, none⟩],
    root := some 0, currentDir := some 2 }

/-- The state `stDeep` with the current directory still at root. -/
def stDocsSub : FS := { stDeep with currentDir := some 0 }

/-- The state `stDeep` with the current directory at `"docs"`. -/
def stInDocs : FS := { stDeep with currentDir := some 1 }

/-- The state after one `createFolder(root, nameLong)`. -/
def stLong1 : FS :=
  { heap := [some ⟨nameRoot, false, none, some 1, none⟩,
             some ⟨List.replicate 49 97, false, some 0, none, none⟩],
    root := some 0, currentDir := some 0 }

/-- The state after a second `createFolder(root, nameLong)`. -/
def stLong2 : FS :=
  { heap := [some ⟨nameRoot, false, none, some 1, none⟩,
             some ⟨List.replicate 49 97, false, some 0, none, some 2⟩,
             some ⟨List.replicate 49 97, false, some 0, none, none⟩],
    root := some 0, currentDir := some 0 }

/-- The state after `deleteNode` of the first child of the root of `stLong2`. -/
def stLongDel : FS :=
  { heap := [some ⟨nameRoot, false, none, some 2, none⟩,
             none,
             some ⟨List.replicate 49 97, false, some 0, none, none⟩],
    root := some 0, currentDir := some 0 }


/-- The bytes of `"/docs/a.txt"`. -/
def pathDocsA : List Nat := 47 :: nameDocs ++ 47 :: nameA

/-- The bytes of `"/root/docs/a.txt"`. -/
def pathRootDocsA : List Nat := 47 :: nameRoot ++ 47 :: nameDocs ++ 47 :: nameA

/-- The bytes of `"/root/readme.md"`. -/
def pathRootReadme : List Nat := 47 :: nameRoot ++ 47 :: nameReadme

/-- The number of slots of the array `queue` of `searchBFS` (`Node *queue[1000]`). -/
def QUEUE_SLOTS : Nat := 1000

/-- The loop `while (child != NULL) { queue[rear++] = child; ... }` of
`searchBFS`.  The queue is the list of the slots written so far, so that
`rear` is its length; a write past the last slot of the array has no defined
result. -/
def enqueueLoop : Nat → Heap → Ptr → List Nat → Option (List Nat)
  | 0, _, _, _ => none
  | _ + 1, _, none, queue => some queue
  | fuel + 1, h, some c, queue =>
    if queue.length < QUEUE_SLOTS then
      match load h c with
      | none => none
      | some cn => enqueueLoop fuel h cn.nextSibling (queue ++ [c])
    else none

/-- The loop `while (front < rear)` of `searchBFS`: the printed lines (each
the `isFile` flag that selects the icon, and the path text), and the queue and
the index `front` when the loop ends. -/
def bfsLoop : Nat → Heap → List Nat → Nat → List Nat →
    Option (List (Bool × List Nat) × List Nat × Nat)
  | 0, _, _, _, _ => none
  | fuel + 1, h, queue, front, name =>
    if front < queue.length then
      match queue.get? front with
      | none => none
      | some cur =>
        match load h cur with
        | none => none
        | some n =>
          match (if strstr n.name name then
                   match getFullPath h (some cur) with
                   | some (some fullPath) => some [(n.isFile, fullPath)]
                   | _ => none
                 else some []) with
          | none => none
          | some hit =>
            match (if n.isFile then some queue
                   else enqueueLoop (h.length + 1) h n.firstChild queue) with
            | none => none
            | some queue1 =>
              (bfsLoop fuel h queue1 (front + 1) name).map
                (fun x => (hit ++ x.1, x.2.1, x.2.2))
    else some ([], queue, front)

/-- The run of `searchBFS`: the printed lines, the final queue and the final
`front`.  Every turn of the outer loop advances `front`, which stays below
`rear`, and `rear` cannot pass the number of slots without an undefined write,
so that `QUEUE_SLOTS + 1` turns of fuel are never used up. -/
def searchBFSRun (h : Heap) (rootNode : Ptr) (name : List Nat) :
    Option (List (Bool × List Nat) × List Nat × Nat) :=
  match rootNode with
  | none => some ([], [], 0)
  | some r => bfsLoop (QUEUE_SLOTS + 1) h [r] 0 name

/-- The function `searchBFS`: the printed lines. -/
def searchBFS (h : Heap) (rootNode : Ptr) (name : List Nat) :
    Option (List (Bool × List Nat)) :=
  (searchBFSRun h rootNode name).map (fun x => x.1)

/-- The text `"/" name` for every name of a list, joined. -/
def joinPath (names : List (List Nat)) : List Nat :=
  names.flatMap (fun nm => 47 :: nm)

/-- The walk of `getFullPath` along the parent links, collecting the names
instead of joining them; the name met last (the topmost) comes first. -/
def namesLoop : Nat → Heap → Ptr → List (List Nat) → Option (List (List Nat))
  | 0, _, _, _ => none
  | _ + 1, _, none, acc => some acc
  | fuel + 1, h, some c, acc =>
    match load h c with
    | none => none
    | some n => namesLoop fuel h n.parent (n.name :: acc)

/-- The names on the chain from the topmost ancestor of `e` down to `e`. -/
def chainNames (h : Heap) (e : Nat) : Option (List (List Nat)) :=
  namesLoop (h.length + 1) h (some e) []

/-- Successive calls of `findChild`, one for every name of a list. -/
def resolve (h : Heap) : Ptr → List (List Nat) → Option Ptr
  | p, [] => some p
  | p, nm :: rest =>
    match findChild h p nm with
    | none => none
    | some c => resolve h c rest

/-- Whether the name of the entry at `a` contains `name`: the test
`strstr(node->name, name) != NULL` of both searches. -/
def matchesAt (h : Heap) (name : List Nat) (a : Nat) : Bool :=
  match load h a with
  | some n => strstr n.name name
  | none => false

/-- The `isFile` flag of the entry at `a`. -/
def kindAt (h : Heap) (a : Nat) : Bool :=
  match load h a with
  | some n => n.isFile
  | none => false

/-- The addresses of the allocated cells. -/
def entries (h : Heap) : List Nat :=
  (List.range h.length).filter (fun a => (load h a).isSome)

/-- The lines `searchDFS` prints for the nodes of a shape, `pre` being the
path text handed to the calls for the top sibling chain. -/
def LT.dfs (name : List Nat) : List Nat → LT → List (Bool × List Nat)
  | _, LT.nil => []
  | pre, LT.node _ nm f fc ns =>
    (if strstr nm name then [(f, (pre ++ 47 :: nm).take (MAX_PATH_LENGTH - 1))] else []) ++
      LT.dfs name ((pre ++ 47 :: nm).take (MAX_PATH_LENGTH - 1)) fc ++ LT.dfs name pre ns

/-- The names on the chain from the top sibling chain of a shape down to `x`. -/
def LT.names (x : Nat) : LT → List (List Nat)
  | LT.nil => []
  | LT.node a nm _ fc ns =>
    if a = x then [nm] else if x ∈ fc.addrs then nm :: fc.names x else ns.names x

/-- The order in which a queue visits the nodes: the head of the queue is
visited and its children join the queue at the rear. -/
def LT.bfs (t : LT) : Nat → List Nat → List Nat
  | 0, _ => []
  | _ + 1, [] => []
  | n + 1, a :: P => a :: LT.bfs t n (P ++ (t.sub a).children.spine)

/-- The nodes at and below the node at `a`. -/
def LT.block (t : LT) (a : Nat) : List Nat := a :: (t.sub a).children.addrs

/-- The number of nodes at and below the nodes of a list. -/
def LT.weight (t : LT) (P : List Nat) : Nat := (P.flatMap t.block).length

/-- The nodes of a shape in the order in which a queue started with the top
sibling chain visits them. -/
def LT.levelOrder (t : LT) : List Nat := t.bfs t.addrs.length t.spine

/-- The bytes of `"a"`. -/
def nameOneA : List Nat := [97]

/-- The state after `n` calls of `createFolder` with the name `"a"`, the
first on root and each later one on the folder made by the call before it:
a chain of `n + 1` nested folders, at the addresses `0` to `n`. -/
def chainFS : Nat → FS
  | 0 => initFS
  | n + 1 =>
    match createFolder (chainFS n) (some n) nameOneA with
    | some (_, s) => s
    | none => chainFS n

/-- The addresses of the children of `p`, in stored order. -/
def kidsOf (h : Heap) (p : Nat) : List Nat :=
  match childList h (some p) with
  | some l => l.map (fun x => x.1)
  | none => []

/-- The depth of an entry: the number of parent links between it and the
topmost entry above it. -/
def depthOf (h : Heap) (e : Nat) : Option Nat :=
  (chainNames h e).map (fun l => l.length - 1)

/-- The nodes of a list, their children, the children of these, and so on:
the levels below the list. -/
def LT.levels (t : LT) : Nat → List Nat → List (List Nat)
  | 0, _ => []
  | _ + 1, [] => []
  | n + 1, a :: P =>
    (a :: P) :: LT.levels t n ((a :: P).flatMap (fun x => (t.sub x).children.spine))

/-! ## Heap reads and writes -/

theorem load_lt {h : Heap} {a : Nat} {n : Node} (e : load h a = some n) : a < h.length := by
  unfold load at e
  by_contra hlt
  rw [List.get?_eq_none.mpr (by omega)] at e
  simp at e

theorem load_length (h : Heap) : load h h.length = none := by
  unfold load
  rw [List.get?_eq_none.mpr (by omega)]
  rfl

theorem length_store (h : Heap) (a : Nat) (n : Node) : (store h a n).length = h.length := by
  simp [store]

theorem length_release (h : Heap) (a : Nat) : (release h a).length = h.length := by
  simp [release]

theorem load_store_self {h : Heap} {a : Nat} (n : Node) (hlt : a < h.length) :
    load (store h a n) a = some n := by
  simp [load, store, List.getElem?_set, hlt]

theorem load_store_ne {h : Heap} {a b : Nat} (n : Node) (hne : a ≠ b) :
    load (store h a n) b = load h b := by
  simp [load, store, List.getElem?_set, hne]

theorem load_release_self (h : Heap) (a : Nat) : load (release h a) a = none := by
  simp only [load, release, List.get?_eq_getElem?, List.getElem?_set]
  by_cases hlt : a < h.length <;> simp [hlt]

theorem load_release_ne {h : Heap} {a b : Nat} (hne : a ≠ b) :
    load (release h a) b = load h b := by
  simp [load, release, List.getElem?_set, hne]

theorem load_push_lt {h : Heap} {a : Nat} (n : Node) (hlt : a < h.length) :
    load (h ++ [some n]) a = load h a := by
  simp [load, List.getElem?_append_left hlt]

theorem load_push_self (h : Heap) (n : Node) : load (h ++ [some n]) h.length = some n := by
  simp [load]

theorem assign_some {h : Heap} {a : Nat} {n : Node} (f : Node → Node) (e : load h a = some n) :
    assign h a f = some (store h a (f n)) := by
  simp [assign, e]


/-! ## Shapes and their representation in the heap -/

theorem Rep.frame {h h' : Heap} {par : Ptr} {t : LT} (r : Rep h par t)
    (hf : ∀ a ∈ t.addrs, load h' a = load h a) : Rep h' par t := by
  induction t generalizing par with
  | nil => trivial
  | node a nm f fc ns ihfc ihns =>
    obtain ⟨hc, rfc, rns⟩ := r
    refine ⟨?_, ihfc rfc ?_, ihns rns ?_⟩
    · rw [hf a (by simp [LT.addrs])]; exact hc
    · intro x hx; exact hf x (by simp [LT.addrs, hx])
    · intro x hx; exact hf x (by simp [LT.addrs, hx])

theorem Rep.live {h : Heap} {par : Ptr} {t : LT} (r : Rep h par t) {a : Nat}
    (ha : a ∈ t.addrs) : ∃ n, load h a = some n := by
  induction t generalizing par with
  | nil => simp [LT.addrs] at ha
  | node b nm f fc ns ihfc ihns =>
    obtain ⟨hc, rfc, rns⟩ := r
    simp only [LT.addrs, List.mem_cons, List.mem_append] at ha
    rcases ha with rfl | ha | ha
    · exact ⟨_, hc⟩
    · exact ihfc rfc ha
    · exact ihns rns ha

theorem Rep.addr_lt {h : Heap} {par : Ptr} {t : LT} (r : Rep h par t) {a : Nat}
    (ha : a ∈ t.addrs) : a < h.length := by
  obtain ⟨n, hn⟩ := r.live ha
  exact load_lt hn

theorem nodup_length_le {l : List Nat} {n : Nat} (nd : l.Nodup) (hb : ∀ a ∈ l, a < n) :
    l.length ≤ n := by
  have hs : l ⊆ List.range n := fun a ha => List.mem_range.mpr (hb a ha)
  have := (List.subperm_of_subset nd hs).length_le
  simpa using this

theorem Rep.size_le {h : Heap} {par : Ptr} {t : LT} (r : Rep h par t) (nd : t.addrs.Nodup) :
    t.addrs.length ≤ h.length :=
  nodup_length_le nd (fun _ ha => r.addr_lt ha)

theorem LT.spine_subset (t : LT) : ∀ a ∈ t.spine, a ∈ t.addrs := by
  induction t with
  | nil => simp [LT.spine]
  | node b nm f fc ns _ ihns =>
    intro a ha
    simp only [LT.spine, List.mem_cons] at ha
    simp only [LT.addrs, List.mem_cons, List.mem_append]
    rcases ha with rfl | ha
    · exact Or.inl rfl
    · exact Or.inr (Or.inr (ihns a ha))

theorem LT.spine_length_le (t : LT) : t.spine.length ≤ t.addrs.length := by
  induction t with
  | nil => simp [LT.spine]
  | node b nm f fc ns _ ihns =>
    simp only [LT.spine, LT.addrs, List.length_cons, List.length_append]
    omega

theorem LT.sub_node {t : LT} {p : Nat} (hp : p ∈ t.addrs) :
    ∃ nm f fc ns, t.sub p = LT.node p nm f fc ns := by
  induction t with
  | nil => simp [LT.addrs] at hp
  | node b nm f fc ns ihfc ihns =>
    simp only [LT.addrs, List.mem_cons, List.mem_append] at hp
    by_cases hb : b = p
    · subst hb; exact ⟨nm, f, fc, ns, by simp [LT.sub]⟩
    · by_cases hfc : p ∈ fc.addrs
      · simp only [LT.sub, hb, hfc, if_true, if_false]; exact ihfc hfc
      · have hns : p ∈ ns.addrs := by
          rcases hp with h1 | h1 | h1
          · exact absurd h1.symm hb
          · exact absurd h1 hfc
          · exact h1
        simp only [LT.sub, hb, hfc, if_false]; exact ihns hns

theorem LT.sub_addrs {t : LT} {p : Nat} : ∀ a ∈ (t.sub p).addrs, a ∈ t.addrs := by
  induction t with
  | nil => simp [LT.sub, LT.addrs]
  | node b nm f fc ns ihfc ihns =>
    intro a ha
    by_cases hb : b = p
    · simpa [LT.sub, hb] using ha
    · by_cases hfc : p ∈ fc.addrs
      · simp only [LT.sub, hb, hfc, if_true, if_false] at ha
        simp only [LT.addrs, List.mem_cons, List.mem_append]
        exact Or.inr (Or.inl (ihfc a ha))
      · simp only [LT.sub, hb, hfc, if_false] at ha
        simp only [LT.addrs, List.mem_cons, List.mem_append]
        exact Or.inr (Or.inr (ihns a ha))

theorem Rep.toSub {h : Heap} {par : Ptr} {t : LT} (r : Rep h par t) (p : Nat) :
    Rep h (t.parOf p par) (t.sub p) := by
  induction t generalizing par with
  | nil => trivial
  | node b nm f fc ns ihfc ihns =>
    by_cases hb : b = p
    · simpa [LT.sub, LT.parOf, hb] using r
    · by_cases hfc : p ∈ fc.addrs
      · simp only [LT.sub, LT.parOf, hb, hfc, if_true, if_false]; exact ihfc r.2.1
      · simp only [LT.sub, LT.parOf, hb, hfc, if_false]; exact ihns r.2.2

theorem LT.sub_nodup {t : LT} (nd : t.addrs.Nodup) (p : Nat) : (t.sub p).addrs.Nodup := by
  induction t with
  | nil => simp [LT.sub, LT.addrs]
  | node b nm f fc ns ihfc ihns =>
    have nd' := nd
    simp only [LT.addrs, List.nodup_cons, List.nodup_append] at nd'
    by_cases hb : b = p
    · simpa [LT.sub, hb] using nd
    · by_cases hfc : p ∈ fc.addrs
      · simp only [LT.sub, hb, hfc, if_true, if_false]; exact ihfc nd'.2.1
      · simp only [LT.sub, hb, hfc, if_false]; exact ihns nd'.2.2.1


/-! ## The loops that walk a sibling chain or the parent links -/

theorem LT.children_nodup {t : LT} (nd : t.addrs.Nodup) : t.children.addrs.Nodup := by
  cases t with
  | nil => simp [LT.children, LT.addrs]
  | node b nm f fc ns =>
    simp only [LT.addrs, List.nodup_cons, List.nodup_append] at nd
    exact nd.2.1

theorem findChildLoop_spec {h : Heap} {par : Ptr} {t : LT} (r : Rep h par t) (name : List Nat)
    {fuel : Nat} (hf : t.spine.length < fuel) :
    findChildLoop fuel h t.ptr name = some (t.lookup name) := by
  induction t generalizing fuel with
  | nil =>
    cases fuel with
    | zero => simp at hf
    | succ k => simp [findChildLoop, LT.ptr, LT.lookup]
  | node b nm f fc ns _ ihns =>
    cases fuel with
    | zero => simp at hf
    | succ k =>
      simp only [LT.spine, List.length_cons] at hf
      simp only [LT.ptr, findChildLoop, r.1, LT.lookup]
      split
      · rfl
      · exact ihns r.2.2 (by omega)

theorem findChild_spec {h : Heap} {par : Ptr} {t : LT} (r : Rep h par t) (nd : t.addrs.Nodup)
    {p : Nat} (hp : p ∈ t.addrs) (name : List Nat) :
    findChild h (some p) name = some ((t.sub p).children.lookup name) := by
  obtain ⟨nm, f, fc, ns, e⟩ := LT.sub_node hp
  have rs := r.toSub p
  have nds := LT.sub_nodup nd p
  rw [e] at rs nds
  have ndc : fc.addrs.Nodup := LT.children_nodup nds
  simp only [findChild, rs.1, e, LT.children]
  apply findChildLoop_spec rs.2.1
  have := LT.spine_length_le fc
  have := Rep.size_le rs.2.1 ndc
  omega

theorem ancestorLoop_path {h : Heap} {par : Ptr} {t : LT} (r : Rep h par t) {x : Nat}
    (hx : x ∈ t.addrs) (q : Nat) (fuel : Nat) :
    ancestorLoop (fuel + (t.path x).length) h (some x) q =
      if q ∈ t.path x then some true else ancestorLoop fuel h par q := by
  induction t generalizing par fuel with
  | nil => simp [LT.addrs] at hx
  | node b nm f fc ns ihfc ihns =>
    simp only [LT.addrs, List.mem_cons, List.mem_append] at hx
    by_cases hb : b = x
    · subst hb
      simp only [LT.path, if_true, List.length_singleton, ancestorLoop, List.mem_singleton, r.1]
      by_cases hq : b = q
      · simp [hq]
      · have : ¬ q = b := fun e => hq e.symm
        simp [hq, this]
    · by_cases hfc : x ∈ fc.addrs
      · simp only [LT.path, hb, hfc, if_true, if_false, List.length_append,
          List.length_singleton, List.mem_append, List.mem_singleton]
        have e := ihfc r.2.1 hfc (fuel + 1)
        have e2 : fuel + ((fc.path x).length + 1) = fuel + 1 + (fc.path x).length := by omega
        rw [e2, e]
        by_cases h1 : q ∈ fc.path x
        · simp [h1]
        · simp only [h1, if_false, false_or, ancestorLoop, r.1]
          by_cases hq : b = q
          · simp [hq]
          · have : ¬ q = b := fun e => hq e.symm
            simp [hq, this]
      · have hns : x ∈ ns.addrs := by
          rcases hx with h1 | h1 | h1
          · exact absurd h1.symm hb
          · exact absurd h1 hfc
          · exact h1
        simp only [LT.path, hb, hfc, if_false]
        exact ihns r.2.2 hns fuel

theorem LT.path_length_le (t : LT) (x : Nat) : (t.path x).length ≤ t.addrs.length := by
  induction t with
  | nil => simp [LT.path]
  | node b nm f fc ns ihfc ihns =>
    simp only [LT.path, LT.addrs, List.length_cons, List.length_append]
    split
    · simp
    · split
      · simp only [List.length_append, List.length_singleton]; omega
      · omega

/-- The walk up from a node of the whole tree (parent link of the top: `NULL`). -/
theorem ancestorLoop_spec {h : Heap} {t : LT} (r : Rep h none t) (nd : t.addrs.Nodup) {x : Nat}
    (hx : x ∈ t.addrs) (q : Nat) :
    ancestorLoop (h.length + 1) h (some x) q = some (decide (q ∈ t.path x)) := by
  have h1 := LT.path_length_le t x
  have h2 := Rep.size_le r nd
  have e : h.length + 1 = (h.length - (t.path x).length) + 1 + (t.path x).length := by omega
  rw [e, ancestorLoop_path r hx]
  by_cases hq : q ∈ t.path x
  · simp [hq]
  · simp [hq, ancestorLoop]


/-! ## Changing the children of one node -/

theorem LT.children_subset {t : LT} : ∀ a ∈ t.children.addrs, a ∈ t.addrs := by
  cases t with
  | nil => simp [LT.children]
  | node b nm f fc ns =>
    intro a ha
    simp only [LT.children] at ha
    simp [LT.addrs, ha]

theorem LT.sub_children_subset {t : LT} {p : Nat} :
    ∀ a ∈ (t.sub p).children.addrs, a ∈ t.addrs :=
  fun a ha => LT.sub_addrs a (LT.children_subset a ha)

theorem LT.atNode_ptr (t : LT) (p : Nat) (g : LT → LT) : (t.atNode p g).ptr = t.ptr := by
  cases t with
  | nil => rfl
  | node b nm f fc ns =>
    simp only [LT.atNode]
    split <;> rfl

theorem LT.atNode_of_not_mem {t : LT} {p : Nat} (g : LT → LT) (hp : p ∉ t.addrs) :
    t.atNode p g = t := by
  induction t with
  | nil => rfl
  | node b nm f fc ns ihfc ihns =>
    simp only [LT.addrs, List.mem_cons, List.mem_append, not_or] at hp
    have hb : ¬ b = p := fun e => hp.1 e.symm
    simp [LT.atNode, hb, ihfc hp.2.1, ihns hp.2.2]

theorem LT.atNode_spine (t : LT) (p : Nat) (g : LT → LT) : (t.atNode p g).spine = t.spine := by
  induction t with
  | nil => rfl
  | node b nm f fc ns _ ihns =>
    simp only [LT.atNode]
    split
    · rfl
    · simp [LT.spine, ihns]

theorem LT.atNode_kids (t : LT) (p : Nat) (g : LT → LT) : (t.atNode p g).kids = t.kids := by
  induction t with
  | nil => rfl
  | node b nm f fc ns _ ihns =>
    simp only [LT.atNode]
    split
    · rfl
    · simp [LT.kids, ihns]

theorem Rep.toAtNode {h h' : Heap} {par : Ptr} {t : LT} (r : Rep h par t) (nd : t.addrs.Nodup)
    {p : Nat} (hp : p ∈ t.addrs) (g : LT → LT)
    (hcell : ∀ nm f fc ns, t.sub p = LT.node p nm f fc ns →
      load h' p = some ⟨nm, f, t.parOf p par, (g fc).ptr, ns.ptr⟩ ∧ Rep h' (some p) (g fc))
    (hframe : ∀ a ∈ t.addrs, a ≠ p → a ∉ (t.sub p).children.addrs → load h' a = load h a) :
    Rep h' par (t.atNode p g) := by
  induction t generalizing par with
  | nil => trivial
  | node b nm f fc ns ihfc ihns =>
    have nd' := nd
    simp only [LT.addrs, List.nodup_cons, List.nodup_append, List.mem_append, not_or] at nd'
    obtain ⟨⟨hbfc, hbns⟩, ndfc, ndns, hdis⟩ := nd'
    simp only [LT.addrs, List.mem_cons, List.mem_append] at hp
    by_cases hb : b = p
    · subst hb
      have hc := hcell nm f fc ns (by simp [LT.sub])
      simp only [LT.parOf, if_true] at hc
      simp only [LT.atNode, if_true]
      refine ⟨hc.1, hc.2, r.2.2.frame ?_⟩
      intro a ha
      apply hframe a (by simp [LT.addrs, ha])
      · rintro rfl; exact hbns ha
      · simp only [LT.sub, if_true, LT.children]
        intro hafc; exact hdis hafc ha
    · by_cases hfc : p ∈ fc.addrs
      · have hpns : p ∉ ns.addrs := fun hn => hdis hfc hn
        have esub : (LT.node b nm f fc ns).sub p = fc.sub p := by simp [LT.sub, hb, hfc]
        have epar : (LT.node b nm f fc ns).parOf p par = fc.parOf p (some b) := by
          simp [LT.parOf, hb, hfc]
        simp only [LT.atNode, hb, if_false, LT.atNode_of_not_mem g hpns]
        refine ⟨?_, ihfc r.2.1 ndfc hfc ?_ ?_, r.2.2.frame ?_⟩
        · rw [LT.atNode_ptr, hframe b (by simp [LT.addrs]) hb]
          · exact r.1
          · rw [esub]; intro hm; exact hbfc (LT.sub_children_subset b hm)
        · intro nm' f' fc' ns' e
          have := hcell nm' f' fc' ns' (by rw [esub]; exact e)
          rw [epar] at this; exact this
        · intro a ha hap hac
          exact hframe a (by simp [LT.addrs, ha]) hap (by rw [esub]; exact hac)
        · intro a ha
          apply hframe a (by simp [LT.addrs, ha])
          · rintro rfl; exact hpns ha
          · rw [esub]; intro hm; exact hdis (LT.sub_children_subset a hm) ha
      · have hns : p ∈ ns.addrs := by
          rcases hp with h1 | h1 | h1
          · exact absurd h1.symm hb
          · exact absurd h1 hfc
          · exact h1
        have esub : (LT.node b nm f fc ns).sub p = ns.sub p := by simp [LT.sub, hb, hfc]
        have epar : (LT.node b nm f fc ns).parOf p par = ns.parOf p par := by
          simp [LT.parOf, hb, hfc]
        simp only [LT.atNode, hb, if_false, LT.atNode_of_not_mem g hfc]
        refine ⟨?_, r.2.1.frame ?_, ihns r.2.2 ndns hns ?_ ?_⟩
        · rw [LT.atNode_ptr, hframe b (by simp [LT.addrs]) hb]
          · exact r.1
          · rw [esub]; intro hm; exact hbns (LT.sub_children_subset b hm)
        · intro a ha
          apply hframe a (by simp [LT.addrs, ha])
          · rintro rfl; exact hfc ha
          · rw [esub]; intro hm; exact hdis ha (LT.sub_children_subset a hm)
        · intro nm' f' fc' ns' e
          have := hcell nm' f' fc' ns' (by rw [esub]; exact e)
          rw [epar] at this; exact this
        · intro a ha hap hac
          exact hframe a (by simp [LT.addrs, ha]) hap (by rw [esub]; exact hac)

theorem LT.mem_atNode {t : LT} (nd : t.addrs.Nodup) {p : Nat} (hp : p ∈ t.addrs) (g : LT → LT)
    (x : Nat) :
    x ∈ (t.atNode p g).addrs ↔
      (x ∈ t.addrs ∧ x ∉ (t.sub p).children.addrs) ∨ x ∈ (g (t.sub p).children).addrs := by
  induction t with
  | nil => simp [LT.addrs] at hp
  | node b nm f fc ns ihfc ihns =>
    have nd' := nd
    simp only [LT.addrs, List.nodup_cons, List.nodup_append, List.mem_append, not_or] at nd'
    obtain ⟨⟨hbfc, hbns⟩, ndfc, ndns, hdis⟩ := nd'
    simp only [LT.addrs, List.mem_cons, List.mem_append] at hp
    by_cases hb : b = p
    · subst hb
      simp only [LT.atNode, if_true, LT.sub, LT.children, LT.addrs, List.mem_cons,
        List.mem_append]
      constructor
      · rintro (h1 | h1 | h1)
        · exact Or.inl ⟨Or.inl h1, by rw [h1]; exact hbfc⟩
        · exact Or.inr h1
        · exact Or.inl ⟨Or.inr (Or.inr h1), fun h2 => hdis h2 h1⟩
      · rintro (⟨h1 | h1 | h1, h2⟩ | h1)
        · exact Or.inl h1
        · exact absurd h1 h2
        · exact Or.inr (Or.inr h1)
        · exact Or.inr (Or.inl h1)
    · by_cases hfc : p ∈ fc.addrs
      · have hpns : p ∉ ns.addrs := fun hn => hdis hfc hn
        have esub : (LT.node b nm f fc ns).sub p = fc.sub p := by simp [LT.sub, hb, hfc]
        simp only [LT.atNode, hb, if_false, LT.atNode_of_not_mem g hpns, LT.addrs,
          List.mem_cons, List.mem_append, esub, ihfc ndfc hfc]
        constructor
        · rintro (h1 | (⟨h1, h2⟩ | h1) | h1)
          · refine Or.inl ⟨Or.inl h1, ?_⟩
            rw [h1]; intro hm; exact hbfc (LT.sub_children_subset b hm)
          · exact Or.inl ⟨Or.inr (Or.inl h1), h2⟩
          · exact Or.inr h1
          · refine Or.inl ⟨Or.inr (Or.inr h1), ?_⟩
            intro hm; exact hdis (LT.sub_children_subset x hm) h1
        · rintro (⟨h1 | h1 | h1, h2⟩ | h1)
          · exact Or.inl h1
          · exact Or.inr (Or.inl (Or.inl ⟨h1, h2⟩))
          · exact Or.inr (Or.inr h1)
          · exact Or.inr (Or.inl (Or.inr h1))
      · have hns : p ∈ ns.addrs := by
          rcases hp with h1 | h1 | h1
          · exact absurd h1.symm hb
          · exact absurd h1 hfc
          · exact h1
        have esub : (LT.node b nm f fc ns).sub p = ns.sub p := by simp [LT.sub, hb, hfc]
        simp only [LT.atNode, hb, if_false, LT.atNode_of_not_mem g hfc, LT.addrs,
          List.mem_cons, List.mem_append, esub, ihns ndns hns]
        constructor
        · rintro (h1 | h1 | (⟨h1, h2⟩ | h1))
          · refine Or.inl ⟨Or.inl h1, ?_⟩
            rw [h1]; intro hm; exact hbns (LT.sub_children_subset b hm)
          · refine Or.inl ⟨Or.inr (Or.inl h1), ?_⟩
            intro hm; exact hdis h1 (LT.sub_children_subset x hm)
          · exact Or.inl ⟨Or.inr (Or.inr h1), h2⟩
          · exact Or.inr h1
        · rintro (⟨h1 | h1 | h1, h2⟩ | h1)
          · exact Or.inl h1
          · exact Or.inr (Or.inl h1)
          · exact Or.inr (Or.inr (Or.inl ⟨h1, h2⟩))
          · exact Or.inr (Or.inr (Or.inr h1))


theorem LT.nodup_atNode {t : LT} (nd : t.addrs.Nodup) {p : Nat} (hp : p ∈ t.addrs) (g : LT → LT)
    (hg : (g (t.sub p).children).addrs.Nodup)
    (hd : ∀ x ∈ (g (t.sub p).children).addrs, x ∈ t.addrs → x ∈ (t.sub p).children.addrs) :
    (t.atNode p g).addrs.Nodup := by
  induction t with
  | nil => simp [LT.addrs] at hp
  | node b nm f fc ns ihfc ihns =>
    have nd' := nd
    simp only [LT.addrs, List.nodup_cons, List.nodup_append, List.mem_append, not_or] at nd'
    obtain ⟨⟨hbfc, hbns⟩, ndfc, ndns, hdis⟩ := nd'
    simp only [LT.addrs, List.mem_cons, List.mem_append] at hp
    by_cases hb : b = p
    · subst hb
      simp only [LT.sub, if_true, LT.children] at hg hd
      simp only [LT.atNode, if_true, LT.addrs, List.nodup_cons, List.nodup_append,
        List.mem_append, not_or]
      refine ⟨⟨?_, hbns⟩, hg, ndns, ?_⟩
      · intro hm; exact hbfc (hd b hm (by simp [LT.addrs]))
      · intro a h1 h2
        exact hdis (hd a h1 (by simp [LT.addrs, h2])) h2
    · by_cases hfc : p ∈ fc.addrs
      · have hpns : p ∉ ns.addrs := fun hn => hdis hfc hn
        have esub : (LT.node b nm f fc ns).sub p = fc.sub p := by simp [LT.sub, hb, hfc]
        rw [esub] at hg hd
        simp only [LT.atNode, hb, if_false, LT.atNode_of_not_mem g hpns, LT.addrs,
          List.nodup_cons, List.nodup_append, List.mem_append, not_or]
        refine ⟨⟨?_, hbns⟩, ihfc ndfc hfc hg ?_, ndns, ?_⟩
        · rw [LT.mem_atNode ndfc hfc]
          rintro (⟨h1, _⟩ | h1)
          · exact hbfc h1
          · exact hbfc (LT.sub_children_subset b (hd b h1 (by simp [LT.addrs])))
        · intro x hx hxfc; exact hd x hx (by simp [LT.addrs, hxfc])
        · intro a h1 h2
          rw [LT.mem_atNode ndfc hfc] at h1
          rcases h1 with ⟨h1, _⟩ | h1
          · exact hdis h1 h2
          · exact hdis (LT.sub_children_subset a (hd a h1 (by simp [LT.addrs, h2]))) h2
      · have hns : p ∈ ns.addrs := by
          rcases hp with h1 | h1 | h1
          · exact absurd h1.symm hb
          · exact absurd h1 hfc
          · exact h1
        have esub : (LT.node b nm f fc ns).sub p = ns.sub p := by simp [LT.sub, hb, hfc]
        rw [esub] at hg hd
        simp only [LT.atNode, hb, if_false, LT.atNode_of_not_mem g hfc, LT.addrs,
          List.nodup_cons, List.nodup_append, List.mem_append, not_or]
        refine ⟨⟨hbfc, ?_⟩, ndfc, ihns ndns hns hg ?_, ?_⟩
        · rw [LT.mem_atNode ndns hns]
          rintro (⟨h1, _⟩ | h1)
          · exact hbns h1
          · exact hbns (LT.sub_children_subset b (hd b h1 (by simp [LT.addrs])))
        · intro x hx hxns; exact hd x hx (by simp [LT.addrs, hxns])
        · intro a h1 h2
          rw [LT.mem_atNode ndns hns] at h2
          rcases h2 with ⟨h2, _⟩ | h2
          · exact hdis h1 h2
          · exact hdis h1 (LT.sub_children_subset a (hd a h2 (by simp [LT.addrs, h1])))

theorem LT.Forall.ofSub {P : Nat → List Nat → Bool → LT → LT → Prop} {t : LT} (hF : t.Forall P)
    (p : Nat) : (t.sub p).Forall P := by
  induction t with
  | nil => trivial
  | node b nm f fc ns ihfc ihns =>
    simp only [LT.sub]
    split
    · exact hF
    · split
      · exact ihfc hF.2.1
      · exact ihns hF.2.2

theorem LT.Forall.ofAtNode {P : Nat → List Nat → Bool → LT → LT → Prop} {t : LT}
    (hF : t.Forall P) (nd : t.addrs.Nodup) {p : Nat} (hp : p ∈ t.addrs) (g : LT → LT)
    (hother : ∀ a nm f fc ns, a ≠ p → P a nm f fc ns →
      P a nm f (fc.atNode p g) (ns.atNode p g))
    (hat : ∀ nm f fc ns, t.sub p = LT.node p nm f fc ns → P p nm f fc ns → fc.Forall P →
      P p nm f (g fc) ns ∧ (g fc).Forall P) :
    (t.atNode p g).Forall P := by
  induction t with
  | nil => trivial
  | node b nm f fc ns ihfc ihns =>
    have nd' := nd
    simp only [LT.addrs, List.nodup_cons, List.nodup_append, List.mem_append, not_or] at nd'
    obtain ⟨⟨hbfc, hbns⟩, ndfc, ndns, hdis⟩ := nd'
    simp only [LT.addrs, List.mem_cons, List.mem_append] at hp
    by_cases hb : b = p
    · subst hb
      have := hat nm f fc ns (by simp [LT.sub]) hF.1 hF.2.1
      simp only [LT.atNode, if_true]
      exact ⟨this.1, this.2, hF.2.2⟩
    · by_cases hfc : p ∈ fc.addrs
      · have esub : (LT.node b nm f fc ns).sub p = fc.sub p := by simp [LT.sub, hb, hfc]
        simp only [LT.atNode, hb, if_false]
        refine ⟨hother b nm f fc ns hb hF.1, ihfc hF.2.1 ndfc hfc ?_, ?_⟩
        · intro nm' f' fc' ns' e; exact hat nm' f' fc' ns' (by rw [esub]; exact e)
        · have hpns : p ∉ ns.addrs := fun hn => hdis hfc hn
          rw [LT.atNode_of_not_mem g hpns]; exact hF.2.2
      · have hns : p ∈ ns.addrs := by
          rcases hp with h1 | h1 | h1
          · exact absurd h1.symm hb
          · exact absurd h1 hfc
          · exact h1
        have esub : (LT.node b nm f fc ns).sub p = ns.sub p := by simp [LT.sub, hb, hfc]
        simp only [LT.atNode, hb, if_false]
        refine ⟨hother b nm f fc ns hb hF.1, ?_, ihns hF.2.2 ndns hns ?_⟩
        · rw [LT.atNode_of_not_mem g hfc]; exact hF.2.1
        · intro nm' f' fc' ns' e; exact hat nm' f' fc' ns' (by rw [esub]; exact e)


/-! ## Sorted insertion into a sibling chain -/

theorem insertsBefore_congr (a b a' b' : Node) (h1 : a.name = a'.name) (h2 : a.isFile = a'.isFile)
    (h3 : b.name = b'.name) (h4 : b.isFile = b'.isFile) :
    insertsBefore a b = insertsBefore a' b' := by
  simp [insertsBefore, h1, h2, h3, h4]

theorem LT.ptr_nil : LT.nil.ptr = none := rfl

theorem LT.ptr_node (a : Nat) (nm : List Nat) (f : Bool) (fc ns : LT) :
    (LT.node a nm f fc ns).ptr = some a := rfl

theorem setLink_same (prev : Ptr) (n : Node) : setLink prev n (getLink prev n) = n := by
  cases prev <;> rfl

theorem addChildLoop_spec {h : Heap} {p c : Nat} {nm : List Nat} {f : Bool} {k : LT} (sp : LT)
    (prev : Ptr) (fuel : Nat) (hfuel : sp.spine.length < fuel)
    (rsp : Rep h (some p) sp) (rk : Rep h (some c) k)
    (hc : load h c = some ⟨nm, f, some p, k.ptr, none⟩)
    (ln : Node) (hl : load h (linkCell p prev) = some ln) (hlv : getLink prev ln = sp.ptr)
    (hne : prev = none → sp ≠ LT.nil)
    (nd : sp.addrs.Nodup)
    (hcl : c ≠ linkCell p prev) (hcsp : c ∉ sp.addrs) (hck : c ∉ k.addrs)
    (hlsp : linkCell p prev ∉ sp.addrs) (hlk : linkCell p prev ∉ k.addrs)
    (hksp : ∀ a ∈ k.addrs, a ∉ sp.addrs) :
    ∃ h', addChildLoop fuel h p c sp.ptr prev = some h' ∧ h'.length = h.length ∧
      Rep h' (some p) (LT.insertSib c nm f k sp) ∧
      load h' (linkCell p prev) = some (setLink prev ln (LT.insertSib c nm f k sp).ptr) ∧
      ∀ a, a ≠ c → a ≠ linkCell p prev → a ∉ sp.spine → load h' a = load h a := by
  induction sp generalizing prev fuel ln with
  | nil =>
    cases fuel with
    | zero => simp at hfuel
    | succ fuel =>
      cases prev with
      | none => exact absurd rfl (hne rfl)
      | some pv =>
        simp only [linkCell] at hl hcl hlk
        have hlt := load_lt hl
        refine ⟨store h pv { ln with nextSibling := some c }, ?_, length_store _ _ _, ?_, ?_, ?_⟩
        · simp [addChildLoop, LT.ptr_nil, LT.ptr_node, assign, hl]
        · refine ⟨?_, rk.frame ?_, trivial⟩
          · rw [load_store_ne _ (Ne.symm hcl)]; exact hc
          · intro a ha
            exact load_store_ne _ (ne_of_mem_of_not_mem ha hlk).symm
        · simp [linkCell, LT.insertSib, LT.ptr_nil, LT.ptr_node, setLink, load_store_self _ hlt]
        · intro a _ ha _
          exact load_store_ne _ (Ne.symm ha)
  | node b nmb fb fcb nsb _ ihns =>
    cases fuel with
    | zero => simp at hfuel
    | succ fuel =>
      have nd' := nd
      simp only [LT.addrs, List.nodup_cons, List.nodup_append, List.mem_append, not_or] at nd'
      obtain ⟨⟨hbfc, hbns⟩, ndfc, ndns, hdis⟩ := nd'
      simp only [LT.spine, List.length_cons] at hfuel
      have hcb : c ≠ b := fun e => hcsp (by simp [LT.addrs, e])
      have hlb : linkCell p prev ≠ b := fun e => hlsp (by simp [LT.addrs, e])
      have hib : insertsBefore ⟨nm, f, some p, k.ptr, none⟩ ⟨nmb, fb, some p, fcb.ptr, nsb.ptr⟩ =
          insertsBefore ⟨nm, f, none, none, none⟩ ⟨nmb, fb, none, none, none⟩ :=
        insertsBefore_congr _ _ _ _ rfl rfl rfl rfl
      by_cases hins : insertsBefore ⟨nm, f, none, none, none⟩ ⟨nmb, fb, none, none, none⟩ = true
      · -- the new node goes in front of `b`
        have hclt := load_lt hc
        have hllt := load_lt hl
        cases prev with
        | none =>
          simp only [linkCell] at hl hcl hlsp hlk hllt
          simp only [getLink, LT.ptr_nil, LT.ptr_node] at hlv
          refine ⟨store (store h c ⟨nm, f, some p, k.ptr, some b⟩) p
            { ln with firstChild := some c }, ?_, ?_, ?_, ?_, ?_⟩
          · simp only [addChildLoop, LT.ptr_nil, LT.ptr_node, hc, rsp.1, hib, hins, if_true, hl, assign, hlv]
            rw [load_store_ne _ hcl, hl]
          · simp [length_store]
          · simp only [LT.insertSib, hins, if_true]
            refine ⟨?_, rk.frame ?_, Rep.frame rsp ?_⟩
            · rw [load_store_ne _ (Ne.symm hcl), load_store_self _ hclt]; rfl
            · intro a ha
              rw [load_store_ne _ (ne_of_mem_of_not_mem ha hlk).symm, load_store_ne _ (ne_of_mem_of_not_mem ha hck).symm]
            · intro a ha
              rw [load_store_ne _ (ne_of_mem_of_not_mem ha hlsp).symm,
                load_store_ne _ (ne_of_mem_of_not_mem ha hcsp).symm]
          · simp only [linkCell, LT.insertSib, hins, if_true, LT.ptr_nil, LT.ptr_node, setLink]
            rw [load_store_self _ (by simpa [length_store] using hllt)]
          · intro a hac hap _
            have hap' : a ≠ p := hap
            rw [load_store_ne _ (Ne.symm hap'), load_store_ne _ (Ne.symm hac)]
        | some pv =>
          simp only [linkCell] at hl hcl hlsp hlk hllt
          refine ⟨store (store h pv { ln with nextSibling := some c }) c
            ⟨nm, f, some p, k.ptr, some b⟩, ?_, ?_, ?_, ?_, ?_⟩
          · simp only [addChildLoop, LT.ptr_nil, LT.ptr_node, hc, rsp.1, hib, hins, if_true, hl, assign]
            rw [load_store_ne _ (Ne.symm hcl), hc]
          · simp [length_store]
          · simp only [LT.insertSib, hins, if_true]
            refine ⟨?_, rk.frame ?_, Rep.frame rsp ?_⟩
            · rw [load_store_self _ (by simpa [length_store] using hclt)]; rfl
            · intro a ha
              rw [load_store_ne _ (ne_of_mem_of_not_mem ha hck).symm, load_store_ne _ (ne_of_mem_of_not_mem ha hlk).symm]
            · intro a ha
              rw [load_store_ne _ (ne_of_mem_of_not_mem ha hcsp).symm,
                load_store_ne _ (ne_of_mem_of_not_mem ha hlsp).symm]
          · simp only [linkCell, LT.insertSib, hins, if_true, LT.ptr_nil, LT.ptr_node, setLink]
            rw [load_store_ne _ hcl, load_store_self _ hllt]
          · intro a hac hap _
            have hap' : a ≠ pv := hap
            rw [load_store_ne _ (Ne.symm hac), load_store_ne _ (Ne.symm hap')]
      · -- the walk goes on behind `b`
        have hrec := ihns (some b) fuel (by omega) rsp.2.2 ⟨nmb, fb, some p, fcb.ptr, nsb.ptr⟩
          (by simpa [linkCell] using rsp.1) (by simp [getLink]) (by simp) ndns
          (by simpa [linkCell] using hcb) (fun hm => hcsp (by simp [LT.addrs, hm]))
          (by simpa [linkCell] using hbns)
          (by simp only [linkCell]; intro hm; exact hksp b hm (by simp [LT.addrs]))
          (fun a ha hm => hksp a ha (by simp [LT.addrs, hm]))
        obtain ⟨h', e, hlen, rr, hlink, hfr⟩ := hrec
        simp only [linkCell] at hlink hfr
        refine ⟨h', ?_, hlen, ?_, ?_, ?_⟩
        · simp only [addChildLoop, LT.ptr_nil, LT.ptr_node, hc, rsp.1, hib, hins]
          simpa using e
        · simp only [LT.insertSib, hins]
          refine ⟨?_, Rep.frame rsp.2.1 ?_, rr⟩
          · rw [hlink]; rfl
          · intro a ha
            apply hfr a
            · rintro rfl; exact hcsp (by simp [LT.addrs, ha])
            · rintro rfl; exact hbfc ha
            · intro hm; exact hdis ha (LT.spine_subset _ a hm)
        · have : (LT.insertSib c nm f k (LT.node b nmb fb fcb nsb)).ptr = some b := by
            simp [LT.insertSib, hins, LT.ptr_nil, LT.ptr_node]
          rw [this, hfr _ (Ne.symm hcl) hlb
            (fun hm => hlsp (by simp [LT.addrs, LT.spine_subset _ _ hm])), hl]
          have e2 : some b = getLink prev ln := by rw [hlv]; rfl
          rw [e2, setLink_same]
        · intro a hac hal has
          simp only [LT.spine, List.mem_cons, not_or] at has
          exact hfr a hac has.1 has.2


theorem SameEntries.refl (h : Heap) : SameEntries h h := fun _ n e => ⟨n, e, rfl, rfl⟩

theorem SameEntries.trans {h1 h2 h3 : Heap} (a : SameEntries h1 h2) (b : SameEntries h2 h3) :
    SameEntries h1 h3 := by
  intro x n e
  obtain ⟨n2, e2, hn, hf⟩ := a x n e
  obtain ⟨n3, e3, hn3, hf3⟩ := b x n2 e2
  exact ⟨n3, e3, hn3.trans hn, hf3.trans hf⟩

theorem SameEntries.store {h : Heap} {a : Nat} {n n' : Node} (e : load h a = some n)
    (hn : n'.name = n.name) (hf : n'.isFile = n.isFile) : SameEntries h (store h a n') := by
  intro x m ex
  by_cases hx : a = x
  · subst hx
    rw [e] at ex
    cases ex
    exact ⟨n', load_store_self _ (load_lt e), hn, hf⟩
  · exact ⟨m, by rw [load_store_ne _ hx]; exact ex, rfl, rfl⟩

theorem SameEntries.assign {h h' : Heap} {a : Nat} {g : Node → Node}
    (e : assign h a g = some h') (hg : ∀ n, (g n).name = n.name ∧ (g n).isFile = n.isFile) :
    SameEntries h h' := by
  unfold FileExplorer.assign at e
  split at e
  · cases e
  · rename_i n hn
    cases e
    exact SameEntries.store hn (hg n).1 (hg n).2

theorem SameEntries.push (h : Heap) (n : Node) : SameEntries h (h ++ [some n]) := by
  intro x m ex
  exact ⟨m, by rw [load_push_lt _ (load_lt ex)]; exact ex, rfl, rfl⟩

theorem addChildLoop_same {fuel : Nat} {h h' : Heap} {p c : Nat} {cur prev : Ptr}
    (e : addChildLoop fuel h p c cur prev = some h') : SameEntries h h' := by
  induction fuel generalizing cur prev with
  | zero => simp [addChildLoop] at e
  | succ fuel ih =>
    cases cur with
    | none =>
      cases prev with
      | none => simp [addChildLoop] at e
      | some pv =>
        simp only [addChildLoop] at e
        exact SameEntries.assign e (fun _ => ⟨rfl, rfl⟩)
    | some cur =>
      simp only [addChildLoop] at e
      split at e
      · rename_i cn curn hcn hcurn
        split at e
        · cases prev with
          | none =>
            simp only at e
            split at e
            · cases e
            · split at e
              · cases e
              · rename_i h1 e1
                exact (SameEntries.assign e1 (fun _ => ⟨rfl, rfl⟩)).trans
                  (SameEntries.assign e (fun _ => ⟨rfl, rfl⟩))
          | some pv =>
            simp only at e
            split at e
            · cases e
            · rename_i h1 e1
              exact (SameEntries.assign e1 (fun _ => ⟨rfl, rfl⟩)).trans
                (SameEntries.assign e (fun _ => ⟨rfl, rfl⟩))
        · exact ih e
      · cases e

theorem addChild_same {h h' : Heap} {p c : Ptr} (e : addChild h p c = some h') :
    SameEntries h h' := by
  unfold addChild at e
  split at e
  · split at e
    · cases e
    · rename_i h1 e1
      have s1 := SameEntries.assign e1 (fun _ => ⟨rfl, rfl⟩)
      split at e
      · cases e
      · split at e
        · exact s1.trans (SameEntries.assign e (fun _ => ⟨rfl, rfl⟩))
        · exact s1.trans (addChildLoop_same e)
  · cases e; exact SameEntries.refl _

/-- The effect of `addChild` on a tree: the child `c`, which carries the
children `k` and is not part of the tree yet, is spliced into the children
of `d`. -/
theorem addChild_spec {h : Heap} {t : LT} (r : Rep h none t) (nd : t.addrs.Nodup) {d : Nat}
    (hd : d ∈ t.addrs) {c : Nat} {nm : List Nat} {f : Bool} {k : LT} {par0 : Ptr}
    (hc : load h c = some ⟨nm, f, par0, k.ptr, none⟩) (rk : Rep h (some c) k)
    (hct : c ∉ t.addrs) (hck : c ∉ k.addrs) (hkt : ∀ a ∈ k.addrs, a ∉ t.addrs) :
    ∃ h', addChild h (some d) (some c) = some h' ∧ h'.length = h.length ∧
      Rep h' none (t.atNode d (LT.insertSib c nm f k)) ∧
      ∀ a, a ∉ t.addrs → a ≠ c → load h' a = load h a := by
  obtain ⟨nmd, fd, fcd, nsd, esub⟩ := LT.sub_node hd
  have rs := r.toSub d
  have nds := LT.sub_nodup nd d
  rw [esub] at rs nds
  have nds' := nds
  simp only [LT.addrs, List.nodup_cons, List.nodup_append, List.mem_append, not_or] at nds'
  obtain ⟨⟨hdfc, _⟩, ndfc, _, _⟩ := nds'
  have hcd : c ≠ d := fun e => hct (e ▸ hd)
  have hfcsub : ∀ a ∈ fcd.addrs, a ∈ t.addrs := by
    intro a ha
    apply LT.sub_children_subset (p := d) a
    rw [esub]; exact ha
  have hclt := load_lt hc
  -- the assignment `child->parent = parent`
  obtain ⟨h1, eh1⟩ : ∃ x, x = store h c ⟨nm, f, some d, k.ptr, none⟩ := ⟨_, rfl⟩
  have hh1 : assign h c (fun x => { x with parent := some d }) = some h1 := by
    simp [assign, hc, eh1]
  have r1 : Rep h1 none t := by
    rw [eh1]; exact r.frame (fun a ha => load_store_ne _ (ne_of_mem_of_not_mem ha hct).symm)
  have rk1 : Rep h1 (some c) k := by
    rw [eh1]; exact rk.frame (fun a ha => load_store_ne _ (ne_of_mem_of_not_mem ha hck).symm)
  have hc1 : load h1 c = some ⟨nm, f, some d, k.ptr, none⟩ := by
    rw [eh1]; exact load_store_self _ hclt
  have hd1 : load h1 d = some ⟨nmd, fd, t.parOf d none, fcd.ptr, nsd.ptr⟩ := by
    rw [eh1, load_store_ne _ hcd]; exact rs.1
  have hlen1 : h1.length = h.length := by rw [eh1]; exact length_store _ _ _
  have hfr1 : ∀ a, a ≠ c → load h1 a = load h a := by
    intro a hac; rw [eh1]; exact load_store_ne _ (Ne.symm hac)
  have hdk : d ∉ k.addrs := fun hm => hkt d hm hd
  cases fcd with
  | nil =>
    refine ⟨store h1 d ⟨nmd, fd, t.parOf d none, some c, nsd.ptr⟩, ?_, ?_, ?_, ?_⟩
    · simp only [addChild, hh1]
      simp only [hd1, LT.ptr_nil, assign]
    · simp [length_store, hlen1]
    · apply r1.toAtNode nd hd
      · intro nm' f' fc' ns' e'
        rw [esub] at e'
        cases e'
        refine ⟨?_, ?_, ?_, trivial⟩
        · rw [load_store_self _ (load_lt hd1)]; rfl
        · rw [load_store_ne _ (Ne.symm hcd)]; exact hc1
        · exact rk1.frame (fun a ha => load_store_ne _ (ne_of_mem_of_not_mem ha hdk).symm)
      · intro a _ had _
        exact load_store_ne _ (Ne.symm had)
    · intro a hat hac
      rw [load_store_ne _ (ne_of_mem_of_not_mem hd hat), hfr1 a hac]
  | node b nmb fb fcb nsb =>
    have hfuel : (LT.node b nmb fb fcb nsb).spine.length < h1.length + 1 := by
      have := LT.spine_length_le (LT.node b nmb fb fcb nsb)
      have := Rep.size_le rs.2.1 ndfc
      omega
    obtain ⟨h', e, hlen, rr, hlink, hfr⟩ := addChildLoop_spec (LT.node b nmb fb fcb nsb) none
      (h1.length + 1) hfuel (rs.2.1.frame (fun a ha =>
        hfr1 a (ne_of_mem_of_not_mem (hfcsub a ha) hct))) rk1 hc1 _ hd1 rfl
      (by simp) ndfc hcd (fun hm => hct (hfcsub c hm)) hck hdfc hdk
      (fun a ha hm => hkt a ha (hfcsub a hm))
    simp only [linkCell] at hlink hfr
    refine ⟨h', ?_, by rw [hlen, hlen1], ?_, ?_⟩
    · simp only [addChild, hh1]
      simp only [hd1, LT.ptr_node]
      exact e
    · apply r1.toAtNode nd hd
      · intro nm' f' fc' ns' e'
        rw [esub] at e'
        cases e'
        exact ⟨hlink, rr⟩
      · intro a hat had hac
        rw [esub] at hac
        apply hfr a (ne_of_mem_of_not_mem hat hct) had
        intro hm; exact hac (LT.spine_subset _ a hm)
    · intro a hat hac
      rw [hfr a hac (ne_of_mem_of_not_mem hd hat).symm
        (fun hm => hat (hfcsub a (LT.spine_subset _ a hm)))]
      exact hfr1 a hac


/-! ## Unlinking a node from its sibling chain -/

theorem LT.removeSib_ptr {sp : LT} {q : Nat} (hh : sp.ptr ≠ some q) :
    (LT.removeSib q sp).ptr = sp.ptr := by
  cases sp with
  | nil => rfl
  | node b nmb fb fcb nsb =>
    have hb : ¬ b = q := fun e => hh (by simp [LT.ptr_node, e])
    simp [LT.removeSib, hb, LT.ptr_node]

theorem removeLoop_spec {h : Heap} {p : Nat} (sp : LT) (q : Nat) (fuel : Nat)
    (hfuel : sp.spine.length < fuel) (rsp : Rep h (some p) sp) (nd : sp.addrs.Nodup)
    (hq : q ∈ sp.spine) (hhead : sp.ptr ≠ some q) {qn : Node} (hqn : load h q = some qn) :
    ∃ pv pvn, removeLoop fuel h sp.ptr q = some (some pv) ∧ load h pv = some pvn ∧
      pv ∈ sp.spine ∧ pv ≠ q ∧
      Rep (store h pv { pvn with nextSibling := qn.nextSibling }) (some p) (LT.removeSib q sp) := by
  induction sp generalizing fuel with
  | nil => simp [LT.spine] at hq
  | node b nmb fb fcb nsb _ ihns =>
    cases fuel with
    | zero => simp at hfuel
    | succ fuel =>
      have nd' := nd
      simp only [LT.addrs, List.nodup_cons, List.nodup_append, List.mem_append, not_or] at nd'
      obtain ⟨⟨hbfc, hbns⟩, ndfc, ndns, hdis⟩ := nd'
      simp only [LT.spine, List.length_cons] at hfuel
      have hb : ¬ b = q := fun e => hhead (by simp [LT.ptr_node, e])
      have hqns : q ∈ nsb.spine := by
        simp only [LT.spine, List.mem_cons] at hq
        rcases hq with e | e
        · exact absurd e.symm hb
        · exact e
      have hblt := load_lt rsp.1
      by_cases hn : nsb.ptr = some q
      · refine ⟨b, _, ?_, rsp.1, by simp [LT.spine], hb, ?_⟩
        · simp [removeLoop, LT.ptr_node, rsp.1, hn]
        · cases nsb with
          | nil => simp [LT.ptr_nil] at hn
          | node q' nmq fq fcq nsq =>
            simp only [LT.ptr_node, Option.some.injEq] at hn
            subst hn
            have hq2 := rsp.2.2.1
            rw [hqn] at hq2
            cases hq2
            simp only [LT.removeSib, hb, if_false, if_true]
            refine ⟨load_store_self _ hblt, rsp.2.1.frame ?_, rsp.2.2.2.2.frame ?_⟩
            · intro a ha; exact load_store_ne _ (ne_of_mem_of_not_mem ha hbfc).symm
            · intro a ha
              exact load_store_ne _
                (ne_of_mem_of_not_mem (show a ∈ (LT.node q' nmq fq fcq nsq).addrs by
                  simp [LT.addrs, ha]) hbns).symm
      · obtain ⟨pv, pvn, e, hpv, hpvs, hpvq, rr⟩ := ihns fuel (by omega) rsp.2.2 ndns hqns hn
        have hpvn := LT.spine_subset _ _ hpvs
        have hpvb : pv ≠ b := ne_of_mem_of_not_mem hpvn hbns
        refine ⟨pv, pvn, ?_, hpv, by simp [LT.spine, hpvs], hpvq, ?_⟩
        · simp only [removeLoop, LT.ptr_node, rsp.1, hn, if_false]
          exact e
        · simp only [LT.removeSib, hb, if_false]
          refine ⟨?_, rsp.2.1.frame ?_, rr⟩
          · rw [load_store_ne _ hpvb, LT.removeSib_ptr hn]; exact rsp.1
          · intro a ha
            exact load_store_ne _ (fun e => hdis ha (e ▸ hpvn))

/-- Where the parent link of a node of a shape leads. -/
theorem LT.parOf_spec {t : LT} (nd : t.addrs.Nodup) {q : Nat} (hq : q ∈ t.addrs) (par : Ptr) :
    (q ∈ t.spine ∧ t.parOf q par = par) ∨
      ∃ p, t.parOf q par = some p ∧ p ∈ t.addrs ∧ q ∈ (t.sub p).children.spine := by
  induction t generalizing par with
  | nil => simp [LT.addrs] at hq
  | node b nm f fc ns ihfc ihns =>
    have nd' := nd
    simp only [LT.addrs, List.nodup_cons, List.nodup_append, List.mem_append, not_or] at nd'
    obtain ⟨⟨hbfc, hbns⟩, ndfc, ndns, hdis⟩ := nd'
    simp only [LT.addrs, List.mem_cons, List.mem_append] at hq
    by_cases hb : b = q
    · left; simp [LT.spine, LT.parOf, hb]
    · by_cases hfc : q ∈ fc.addrs
      · right
        have epar : (LT.node b nm f fc ns).parOf q par = fc.parOf q (some b) := by
          simp [LT.parOf, hb, hfc]
        rcases ihfc ndfc hfc (some b) with ⟨h1, h2⟩ | ⟨p, h1, h2, h3⟩
        · refine ⟨b, by rw [epar, h2], by simp [LT.addrs], ?_⟩
          simpa [LT.sub, LT.children] using h1
        · refine ⟨p, by rw [epar, h1], by simp [LT.addrs, h2], ?_⟩
          have hbp : ¬ b = p := fun e => hbfc (e ▸ h2)
          simpa [LT.sub, hbp, h2] using h3
      · have hns : q ∈ ns.addrs := by
          rcases hq with h1 | h1 | h1
          · exact absurd h1.symm hb
          · exact absurd h1 hfc
          · exact h1
        have epar : (LT.node b nm f fc ns).parOf q par = ns.parOf q par := by
          simp [LT.parOf, hb, hfc]
        rcases ihns ndns hns par with ⟨h1, h2⟩ | ⟨p, h1, h2, h3⟩
        · left; exact ⟨by simp [LT.spine, h1], by rw [epar, h2]⟩
        · right
          refine ⟨p, by rw [epar, h1], by simp [LT.addrs, h2], ?_⟩
          have hbp : ¬ b = p := fun e => hbns (e ▸ h2)
          have hpfc : p ∉ fc.addrs := fun hm => hdis hm h2
          simpa [LT.sub, hbp, hpfc] using h3

/-- The effect of `removeFromParent` on a tree: the node `q`, a child of `p`,
leaves the children of `p`; its own cell and everything below stay as they are. -/
theorem removeFromParent_spec {h : Heap} {t : LT} (r : Rep h none t) (nd : t.addrs.Nodup)
    {q p : Nat} (hq : q ∈ t.addrs) (hpar : t.parOf q none = some p) (hp : p ∈ t.addrs)
    (hqs : q ∈ (t.sub p).children.spine) :
    ∃ h', removeFromParent h (some q) = some h' ∧ h'.length = h.length ∧
      Rep h' none (t.atNode p (LT.removeSib q)) ∧
      (∀ a, a = q ∨ (a ≠ p ∧ a ∉ (t.sub p).children.spine) → load h' a = load h a) ∧
      SameEntries h h' := by
  obtain ⟨nmq, fq, fcq, nsq, esq⟩ := LT.sub_node hq
  obtain ⟨nmp, fp, fcp, nsp, esp⟩ := LT.sub_node hp
  have rq := r.toSub q
  have rp := r.toSub p
  have ndp := LT.sub_nodup nd p
  rw [esq, hpar] at rq
  rw [esp] at rp ndp hqs
  simp only [LT.children] at hqs
  have ndp' := ndp
  simp only [LT.addrs, List.nodup_cons, List.nodup_append, List.mem_append, not_or] at ndp'
  obtain ⟨⟨hpfc, _⟩, ndfc, _, _⟩ := ndp'
  have hqp : q ≠ p := ne_of_mem_of_not_mem (LT.spine_subset _ _ hqs) hpfc
  have hplt := load_lt rp.1
  by_cases hh : fcp.ptr = some q
  · -- `q` is the first child
    cases fcp with
    | nil => simp [LT.ptr_nil] at hh
    | node q' nmq' fq' fcq' nsq' =>
      simp only [LT.ptr_node, Option.some.injEq] at hh
      subst hh
      have hq2 := rp.2.1.1
      rw [rq.1] at hq2
      simp only [Option.some.injEq, Node.mk.injEq] at hq2
      obtain ⟨_, _, _, _, hq2⟩ := hq2
      refine ⟨store h p ⟨nmp, fp, t.parOf p none, nsq'.ptr, nsp.ptr⟩, ?_, length_store _ _ _,
        ?_, ?_, SameEntries.store rp.1 rfl rfl⟩
      · simp [removeFromParent, rq.1, rp.1, LT.ptr_node, assign, hq2]
      · apply r.toAtNode nd hp
        · intro nm' f' fc' ns' e'
          rw [esp] at e'
          cases e'
          simp only [LT.removeSib, if_true]
          refine ⟨load_store_self _ hplt, rp.2.1.2.2.frame ?_⟩
          intro a ha
          refine load_store_ne _ (ne_of_mem_of_not_mem ?_ hpfc).symm
          simp [LT.addrs, ha]
        · intro a _ hap _
          exact load_store_ne _ (Ne.symm hap)
      · rintro a (rfl | ⟨hap, _⟩)
        · exact load_store_ne _ (Ne.symm hqp)
        · exact load_store_ne _ (Ne.symm hap)
  · -- `q` is further down the chain
    have hfuel : fcp.spine.length < h.length + 1 := by
      have := LT.spine_length_le fcp
      have := Rep.size_le rp.2.1 ndfc
      omega
    obtain ⟨pv, pvn, e, hpv, hpvs, hpvq, rr⟩ :=
      removeLoop_spec fcp q (h.length + 1) hfuel rp.2.1 ndfc hqs hh rq.1
    have hpvfc := LT.spine_subset _ _ hpvs
    have hpvp : pv ≠ p := ne_of_mem_of_not_mem hpvfc hpfc
    refine ⟨store h pv { pvn with nextSibling := nsq.ptr }, ?_, length_store _ _ _, ?_, ?_,
      SameEntries.store hpv rfl rfl⟩
    · simp only [removeFromParent, rq.1, rp.1, hh, if_false, e, assign, hpv]
    · apply r.toAtNode nd hp
      · intro nm' f' fc' ns' e'
        rw [esp] at e'
        cases e'
        refine ⟨?_, rr⟩
        rw [load_store_ne _ hpvp, LT.removeSib_ptr hh]
        exact rp.1
      · intro a _ _ hac
        rw [esp] at hac
        exact load_store_ne _ (fun e => hac (e ▸ hpvfc))
    · rintro a (rfl | ⟨_, has⟩)
      · exact load_store_ne _ hpvq
      · rw [esp] at has
        exact load_store_ne _ (fun e => has (e ▸ hpvs))


/-! ## Releasing a subtree -/

theorem deleteChildren_spec {h : Heap} {par : Ptr} (t : LT) (fuel : Nat)
    (hfuel : 2 * t.addrs.length + 1 ≤ fuel) (r : Rep h par t) (nd : t.addrs.Nodup) :
    ∃ h', deleteChildren fuel h t.ptr = some h' ∧ h'.length = h.length ∧
      ∀ a, load h' a = if a ∈ t.addrs then none else load h a := by
  induction t generalizing h par fuel with
  | nil =>
    cases fuel with
    | zero => simp at hfuel
    | succ k => exact ⟨h, by simp [deleteChildren, LT.ptr_nil], rfl, by simp [LT.addrs]⟩
  | node c nm f fc ns ihfc ihns =>
    have nd' := nd
    simp only [LT.addrs, List.nodup_cons, List.nodup_append, List.mem_append, not_or] at nd'
    obtain ⟨⟨hcfc, hcns⟩, ndfc, ndns, hdis⟩ := nd'
    simp only [LT.addrs, List.length_cons, List.length_append] at hfuel
    cases fuel with
    | zero => simp at hfuel
    | succ k =>
      cases k with
      | zero => omega
      | succ k' =>
        obtain ⟨h1, e1, hlen1, hl1⟩ := ihfc k' (by omega) r.2.1 ndfc
        have hc1 : load h1 c = load h c := by rw [hl1]; simp [hcfc]
        have r2 : Rep (release h1 c) par ns := by
          apply r.2.2.frame
          intro a ha
          rw [load_release_ne (ne_of_mem_of_not_mem ha hcns).symm, hl1]
          have : a ∉ fc.addrs := fun hm => hdis hm ha
          simp [this]
        obtain ⟨h3, e3, hlen3, hl3⟩ := ihns (k' + 1) (by omega) r2 ndns
        refine ⟨h3, ?_, ?_, ?_⟩
        · simp only [LT.ptr_node, deleteChildren, r.1, deleteNodeRecursive, e1, hc1]
          exact e3
        · rw [hlen3, length_release, hlen1]
        · intro a
          rw [hl3]
          simp only [LT.addrs, List.mem_cons, List.mem_append]
          by_cases h1a : a ∈ ns.addrs
          · simp [h1a]
          · by_cases h2a : a = c
            · subst h2a; simp [h1a, load_release_self]
            · by_cases h3a : a ∈ fc.addrs
              · simp [h1a, h2a, h3a, load_release_ne (Ne.symm h2a), hl1]
              · simp [h1a, h2a, h3a, load_release_ne (Ne.symm h2a), hl1]

/-- The effect of `deleteNodeRecursive` on a node `q` whose children form the
shape `k`: exactly the cells of `q` and of `k` are freed. -/
theorem deleteNodeRecursive_spec {h : Heap} {q : Nat} {qn : Node} {k : LT}
    (hq : load h q = some qn) (hfc : qn.firstChild = k.ptr) (r : Rep h (some q) k)
    (nd : k.addrs.Nodup) (hqk : q ∉ k.addrs) :
    ∃ h', deleteNodeRecursive (2 * h.length + 2) h (some q) = some h' ∧ h'.length = h.length ∧
      ∀ a, load h' a = if a = q ∨ a ∈ k.addrs then none else load h a := by
  have hsz := Rep.size_le r nd
  obtain ⟨h1, e1, hlen1, hl1⟩ := deleteChildren_spec k (2 * h.length + 1) (by omega) r nd
  have hc1 : load h1 q = some qn := by rw [hl1]; simp [hqk, hq]
  refine ⟨release h1 q, ?_, by rw [length_release, hlen1], ?_⟩
  · simp only [deleteNodeRecursive, hq, hfc, e1, hc1]
  · intro a
    by_cases h2a : a = q
    · subst h2a; simp [load_release_self]
    · rw [load_release_ne (Ne.symm h2a), hl1]
      simp [h2a]


/-! ## The order kept by `addChild` -/

theorem strcmp_range (a b : List Nat) : strcmp a b = -1 ∨ strcmp a b = 0 ∨ strcmp a b = 1 := by
  induction a generalizing b with
  | nil => cases b <;> simp [strcmp]
  | cons x xs ih =>
    cases b with
    | nil => simp [strcmp]
    | cons y ys =>
      simp only [strcmp]
      split
      · simp
      · split
        · simp
        · exact ih ys

theorem strcmp_swap (a b : List Nat) : strcmp b a = - strcmp a b := by
  induction a generalizing b with
  | nil => cases b <;> simp [strcmp]
  | cons x xs ih =>
    cases b with
    | nil => simp [strcmp]
    | cons y ys =>
      simp only [strcmp]
      by_cases h1 : x < y
      · have : ¬ y < x := by omega
        simp [h1, this]
      · by_cases h2 : y < x
        · simp [h1, h2]
        · simp [h1, h2, ih ys]

theorem strcmp_eq_zero {a b : List Nat} : strcmp a b = 0 ↔ a = b := by
  induction a generalizing b with
  | nil => cases b <;> simp [strcmp]
  | cons x xs ih =>
    cases b with
    | nil => simp [strcmp]
    | cons y ys =>
      simp only [strcmp]
      by_cases h1 : x < y
      · have : x ≠ y := by omega
        simp [h1, this]
      · by_cases h2 : y < x
        · have : x ≠ y := by omega
          simp [h1, h2, this]
        · have : x = y := by omega
          simp [h1, h2, this, ih]

theorem strcmp_self (a : List Nat) : strcmp a a = 0 := strcmp_eq_zero.mpr rfl

theorem strcmp_le_trans {a b c : List Nat} (h1 : strcmp a b ≤ 0) (h2 : strcmp b c ≤ 0) :
    strcmp a c ≤ 0 := by
  induction a generalizing b c with
  | nil => cases c <;> simp [strcmp]
  | cons x xs ih =>
    cases b with
    | nil => simp [strcmp] at h1
    | cons y ys =>
      cases c with
      | nil => simp [strcmp] at h2
      | cons z zs =>
        simp only [strcmp] at h1 h2 ⊢
        by_cases hxy : x < y
        · have hyz : ¬ z < y := by
            intro hzy
            have h3 : ¬ y < z := by omega
            simp [hzy, h3] at h2
          have : x < z := by omega
          simp [this]
        · by_cases hyx : y < x
          · simp [hxy, hyx] at h1
          · have exy : x = y := by omega
            subst exy
            simp only [hxy, if_false] at h1
            by_cases hxz : x < z
            · simp [hxz]
            · by_cases hzx : z < x
              · simp [hxz, hzx] at h2
              · simp only [hxz, hzx, if_false] at h2 ⊢
                exact ih h1 h2

theorem entryLe_trans {x y z : Bool × List Nat} (h1 : entryLe x y) (h2 : entryLe y z) :
    entryLe x z := by
  obtain ⟨a1, b1⟩ := h1
  obtain ⟨a2, b2⟩ := h2
  refine ⟨fun hx => a2 (a1 hx), fun hxz => ?_⟩
  have hxy : x.1 = y.1 := by
    cases hx : x.1 <;> cases hy : y.1 <;> simp_all
  exact strcmp_le_trans (b1 hxy) (b2 (hxy ▸ hxz))

theorem entryLe_of_insertsBefore {a b : Node} (h : insertsBefore a b = true) :
    entryLe (a.isFile, a.name) (b.isFile, b.name) := by
  simp only [insertsBefore, Bool.or_eq_true, Bool.and_eq_true, Bool.not_eq_true',
    beq_iff_eq, decide_eq_true_eq] at h
  refine ⟨fun ha => ?_, fun hab => ?_⟩
  · rcases h with ⟨h1, _⟩ | ⟨h1, _⟩
    · simp only at ha; rw [ha] at h1; cases h1
    · simp only at ha ⊢; rw [← h1]; exact ha
  · rcases h with ⟨h1, h2⟩ | ⟨_, h2⟩
    · simp only at hab; rw [hab, h2] at h1; cases h1
    · exact le_of_lt h2

theorem entryLe_of_not_insertsBefore {a b : Node} (h : ¬ insertsBefore a b = true) :
    entryLe (b.isFile, b.name) (a.isFile, a.name) := by
  simp only [insertsBefore, Bool.or_eq_true, Bool.and_eq_true, Bool.not_eq_true',
    beq_iff_eq, decide_eq_true_eq, not_or, not_and, not_lt] at h
  refine ⟨fun hb => ?_, fun hab => ?_⟩
  · simp only at hb ⊢
    cases ha : a.isFile
    · exact absurd hb (by simpa using h.1 ha)
    · rfl
  · simp only at hab ⊢
    have := h.2 hab.symm
    rw [strcmp_swap]
    omega

theorem LT.mem_kids_insertSib (c : Nat) (nm : List Nat) (f : Bool) (k sp : LT)
    (e : Bool × List Nat) :
    e ∈ (LT.insertSib c nm f k sp).kids ↔ e = (f, nm) ∨ e ∈ sp.kids := by
  induction sp with
  | nil => simp [LT.insertSib, LT.kids]
  | node b nmb fb fcb nsb _ ihns =>
    simp only [LT.insertSib]
    split
    · simp [LT.kids]
    · simp only [LT.kids, List.mem_cons, ihns]
      tauto

theorem LT.kids_removeSib_subset (q : Nat) (sp : LT) :
    ∀ e ∈ (LT.removeSib q sp).kids, e ∈ sp.kids := by
  induction sp with
  | nil => simp [LT.removeSib]
  | node b nmb fb fcb nsb _ ihns =>
    intro e he
    simp only [LT.removeSib] at he
    split at he
    · simp [LT.kids, he]
    · simp only [LT.kids, List.mem_cons] at he ⊢
      rcases he with h1 | h1
      · exact Or.inl h1
      · exact Or.inr (ihns e h1)

theorem LT.insertSib_sorted {c : Nat} {nm : List Nat} {f : Bool} {k sp : LT}
    (hs : sp.Forall sortedAt) (hk : k.Forall sortedAt) :
    (LT.insertSib c nm f k sp).Forall sortedAt := by
  induction sp with
  | nil => exact ⟨by simp [sortedAt, LT.kids], hk, trivial⟩
  | node b nmb fb fcb nsb _ ihns =>
    simp only [LT.insertSib]
    split
    · rename_i hins
      refine ⟨?_, hk, hs⟩
      intro e he
      have h0 : entryLe (f, nm) (fb, nmb) :=
        entryLe_of_insertsBefore (a := ⟨nm, f, none, none, none⟩)
          (b := ⟨nmb, fb, none, none, none⟩) hins
      simp only [LT.kids, List.mem_cons] at he
      rcases he with rfl | he
      · exact h0
      · exact entryLe_trans h0 (hs.1 e he)
    · rename_i hins
      refine ⟨?_, hs.2.1, ihns hs.2.2⟩
      intro e he
      rw [LT.mem_kids_insertSib] at he
      rcases he with rfl | he
      · exact entryLe_of_not_insertsBefore (a := ⟨nm, f, none, none, none⟩)
          (b := ⟨nmb, fb, none, none, none⟩) hins
      · exact hs.1 e he

theorem LT.removeSib_sorted {q : Nat} {sp : LT} (hs : sp.Forall sortedAt) :
    (LT.removeSib q sp).Forall sortedAt := by
  induction sp with
  | nil => trivial
  | node b nmb fb fcb nsb _ ihns =>
    simp only [LT.removeSib]
    split
    · exact hs.2.2
    · exact ⟨fun e he => hs.1 e (LT.kids_removeSib_subset q nsb e he), hs.2.1, ihns hs.2.2⟩

theorem LT.insertSib_leaf {c : Nat} {nm : List Nat} {f : Bool} {k sp : LT}
    (hs : sp.Forall leafAt) (hk : k.Forall leafAt) (hf : f = true → k = LT.nil) :
    (LT.insertSib c nm f k sp).Forall leafAt := by
  induction sp with
  | nil => exact ⟨hf, hk, trivial⟩
  | node b nmb fb fcb nsb _ ihns =>
    simp only [LT.insertSib]
    split
    · exact ⟨hf, hk, hs⟩
    · exact ⟨hs.1, hs.2.1, ihns hs.2.2⟩

theorem LT.removeSib_leaf {q : Nat} {sp : LT} (hs : sp.Forall leafAt) :
    (LT.removeSib q sp).Forall leafAt := by
  induction sp with
  | nil => trivial
  | node b nmb fb fcb nsb _ ihns =>
    simp only [LT.removeSib]
    split
    · exact hs.2.2
    · exact ⟨hs.1, hs.2.1, ihns hs.2.2⟩


/-! ## Invariants under a change of the children of one node -/

theorem load_push_ne {h : Heap} {a : Nat} (n : Node) (hne : a ≠ h.length) :
    load (h ++ [some n]) a = load h a := by
  by_cases hlt : a < h.length
  · exact load_push_lt n hlt
  · have h1 : load h a = none := by
      unfold load; rw [List.get?_eq_none.mpr (by omega)]; rfl
    have h2 : load (h ++ [some n]) a = none := by
      unfold load; rw [List.get?_eq_none.mpr (by simp; omega)]; rfl
    rw [h1, h2]

theorem LT.atNode_sorted {t : LT} (hF : t.Forall sortedAt) (nd : t.addrs.Nodup) {p : Nat}
    (hp : p ∈ t.addrs) (g : LT → LT) (hg : ∀ fc, fc.Forall sortedAt → (g fc).Forall sortedAt) :
    (t.atNode p g).Forall sortedAt := by
  apply hF.ofAtNode nd hp
  · intro a nm f fc ns _ h
    simp only [sortedAt, LT.atNode_kids] at h ⊢
    exact h
  · intro nm f fc ns _ h hfc
    exact ⟨h, hg fc hfc⟩

theorem LT.atNode_leaf {t : LT} (hF : t.Forall leafAt) (nd : t.addrs.Nodup) {p : Nat}
    (hp : p ∈ t.addrs) (g : LT → LT) (hg : ∀ fc, fc.Forall leafAt → (g fc).Forall leafAt)
    (hgn : ∀ nm f fc ns, t.sub p = LT.node p nm f fc ns → f = true → fc = LT.nil →
      g fc = LT.nil) :
    (t.atNode p g).Forall leafAt := by
  apply hF.ofAtNode nd hp
  · intro a nm f fc ns _ h hf
    rw [h hf]; rfl
  · intro nm f fc ns e h hfc
    exact ⟨fun hf => hgn nm f fc ns e hf (h hf), hg fc hfc⟩

theorem LT.mem_insertSib (c : Nat) (nm : List Nat) (f : Bool) (k sp : LT) (x : Nat) :
    x ∈ (LT.insertSib c nm f k sp).addrs ↔ x = c ∨ x ∈ k.addrs ∨ x ∈ sp.addrs := by
  induction sp with
  | nil => simp [LT.insertSib, LT.addrs]
  | node b nmb fb fcb nsb _ ihns =>
    simp only [LT.insertSib]
    split
    · simp [LT.addrs]
    · simp only [LT.addrs, List.mem_cons, List.mem_append, ihns]
      tauto

theorem LT.nodup_insertSib {c : Nat} {nm : List Nat} {f : Bool} {k sp : LT}
    (ndk : k.addrs.Nodup) (nds : sp.addrs.Nodup) (hck : c ∉ k.addrs) (hcs : c ∉ sp.addrs)
    (hks : ∀ a ∈ k.addrs, a ∉ sp.addrs) : (LT.insertSib c nm f k sp).addrs.Nodup := by
  induction sp with
  | nil =>
    simp only [LT.insertSib, LT.addrs, List.append_nil, List.nodup_cons]
    exact ⟨hck, ndk⟩
  | node b nmb fb fcb nsb _ ihns =>
    have nd' := nds
    simp only [LT.addrs, List.nodup_cons, List.nodup_append, List.mem_append, not_or] at nd'
    obtain ⟨⟨hbfc, hbns⟩, ndfc, ndns, hdis⟩ := nd'
    simp only [LT.insertSib]
    split
    · have e : (LT.node c nm f k (LT.node b nmb fb fcb nsb)).addrs =
          c :: (k.addrs ++ (LT.node b nmb fb fcb nsb).addrs) := rfl
      rw [e, List.nodup_cons, List.nodup_append, List.mem_append, not_or]
      refine ⟨⟨hck, hcs⟩, ndk, nds, ?_⟩
      intro a h1 h2; exact hks a h1 h2
    · simp only [LT.addrs, List.nodup_cons, List.nodup_append, List.mem_append, not_or,
        LT.mem_insertSib]
      have hcs' : c ∉ nsb.addrs := fun hm => hcs (by simp [LT.addrs, hm])
      have hks' : ∀ a ∈ k.addrs, a ∉ nsb.addrs := fun a ha hm => hks a ha (by simp [LT.addrs, hm])
      refine ⟨⟨hbfc, ?_⟩, ndfc, ihns ndns hcs' hks', ?_⟩
      · refine ⟨fun h1 => hcs (by simp [LT.addrs, h1]), fun h1 => ?_, hbns⟩
        exact hks b h1 (by simp [LT.addrs])
      · intro a h1 h2
        rw [LT.mem_insertSib] at h2
        rcases h2 with h2 | h2 | h2
        · exact hcs (by rw [← h2]; simp [LT.addrs, h1])
        · exact hks a h2 (by simp [LT.addrs, h1])
        · exact hdis h1 h2

theorem Inv.mem_of_load {s : FS} {t : LT} (inv : Inv s t) {a : Nat} {n : Node}
    (e : load s.heap a = some n) : a ∈ t.addrs := by
  by_contra hm
  rw [inv.dead a hm] at e
  cases e

theorem Rep.cell_of_sub {h : Heap} {par : Ptr} {t : LT} (r : Rep h par t) {p : Nat}
    {nm : List Nat} {f : Bool} {fc ns : LT} (e : t.sub p = LT.node p nm f fc ns) :
    load h p = some ⟨nm, f, t.parOf p par, fc.ptr, ns.ptr⟩ ∧ Rep h (some p) fc := by
  have := r.toSub p
  rw [e] at this
  exact ⟨this.1, this.2.1⟩

theorem LT.root_atNode {r : Nat} {nm : List Nat} {fc : LT} (p : Nat) (g : LT → LT) :
    ∃ fc', (LT.node r nm false fc LT.nil).atNode p g = LT.node r nm false fc' LT.nil := by
  simp only [LT.atNode]
  split
  · exact ⟨_, rfl⟩
  · exact ⟨_, rfl⟩


/-! ## `createFolder` and `createFile` -/

theorem Inv.folder_of_load {s : FS} {t : LT} (inv : Inv s t) {p : Nat} {pn : Node}
    (hp : load s.heap p = some pn) :
    ∃ fc ns, t.sub p = LT.node p pn.name pn.isFile fc ns ∧ pn.parent = t.parOf p none ∧
      pn.firstChild = fc.ptr ∧ pn.nextSibling = ns.ptr := by
  obtain ⟨nm, f, fc, ns, e⟩ := LT.sub_node (inv.mem_of_load hp)
  have := (inv.rep.cell_of_sub e).1
  rw [hp] at this
  cases this
  exact ⟨fc, ns, e, rfl, rfl, rfl⟩

theorem create_notADirectory {s : FS} {p : Nat} {pn : Node} (hp : load s.heap p = some pn)
    (hfile : pn.isFile = true) (isFile : Bool) (name : List Nat) :
    create isFile s (some p) name = some (Msg.notADirectory, s) := by
  simp [create, hp, hfile]

theorem create_nameCollision {s : FS} {t : LT} (inv : Inv s t) {p : Nat} {pn : Node}
    (hp : load s.heap p = some pn) (hfolder : pn.isFile = false) (isFile : Bool)
    (name : List Nat) {c : Nat} (hc : (t.sub p).children.lookup name = some c) :
    create isFile s (some p) name = some (Msg.nameCollision, s) := by
  simp [create, hp, hfolder, findChild_spec inv.rep inv.nodup (inv.mem_of_load hp), hc]

theorem create_ok {s : FS} {t : LT} (inv : Inv s t) {p : Nat} {pn : Node}
    (hp : load s.heap p = some pn) (hfolder : pn.isFile = false) (isFile : Bool)
    (name : List Nat) (hfree : (t.sub p).children.lookup name = none) :
    ∃ h', create isFile s (some p) name = some (Msg.ok, { s with heap := h' }) ∧
      h'.length = s.heap.length + 1 ∧
      Inv { s with heap := h' } (t.atNode p
        (LT.insertSib s.heap.length (name.take (MAX_NAME_LENGTH - 1)) isFile LT.nil)) ∧
      SameEntries s.heap h' := by
  have hpm := inv.mem_of_load hp
  obtain ⟨fcp, nsp, esub, -, -, -⟩ := inv.folder_of_load hp
  have hct : s.heap.length ∉ t.addrs := by
    intro hm
    obtain ⟨n, hn⟩ := inv.rep.live hm
    rw [load_length] at hn; cases hn
  obtain ⟨h1, eh1⟩ : ∃ x, x = s.heap ++
    [some ⟨name.take (MAX_NAME_LENGTH - 1), isFile, none, none, none⟩] := ⟨_, rfl⟩
  have hfr1 : ∀ a, a ≠ s.heap.length → load h1 a = load s.heap a := by
    intro a ha; rw [eh1]; exact load_push_ne _ ha
  have r1 : Rep h1 none t :=
    inv.rep.frame (fun a ha => hfr1 a (ne_of_mem_of_not_mem ha hct))
  have hc1 : load h1 s.heap.length =
      some ⟨name.take (MAX_NAME_LENGTH - 1), isFile, none, LT.nil.ptr, none⟩ := by
    rw [eh1]; exact load_push_self _ _
  obtain ⟨h', e, hlen, rr, hfr⟩ := addChild_spec r1 inv.nodup hpm hc1 (k := LT.nil) trivial hct
    (by simp [LT.addrs]) (by simp [LT.addrs])
  have hsame : SameEntries s.heap h' := by
    have := (SameEntries.push s.heap
      ⟨name.take (MAX_NAME_LENGTH - 1), isFile, none, none, none⟩).trans
      (eh1 ▸ addChild_same e)
    exact this
  refine ⟨h', ?_, ?_, ?_, hsame⟩
  · simp only [create, hp, hfolder, findChild_spec inv.rep inv.nodup hpm, hfree, createNode,
      ← eh1, e]
    simp
  · rw [hlen, eh1]; simp
  · obtain ⟨r, nm, fc, hroot, et⟩ := inv.root
    have ndt' : (t.atNode p (LT.insertSib s.heap.length (name.take (MAX_NAME_LENGTH - 1))
        isFile LT.nil)).addrs.Nodup := by
      apply LT.nodup_atNode inv.nodup hpm
      · exact LT.nodup_insertSib (by simp [LT.addrs]) (LT.children_nodup (LT.sub_nodup inv.nodup p))
          (by simp [LT.addrs]) (fun hm => hct (LT.sub_children_subset _ hm)) (by simp [LT.addrs])
      · intro x hx hxt
        rw [LT.mem_insertSib] at hx
        rcases hx with rfl | hx | hx
        · exact absurd hxt hct
        · simp [LT.addrs] at hx
        · exact hx
    refine ⟨?_, rr, ndt', ?_, ?_, ?_, ?_⟩
    · obtain ⟨fc', e'⟩ := @LT.root_atNode r nm fc p
        (LT.insertSib s.heap.length (name.take (MAX_NAME_LENGTH - 1)) isFile LT.nil)
      exact ⟨r, nm, fc', hroot, by rw [et, e']⟩
    · intro a ha
      rw [LT.mem_atNode inv.nodup hpm, LT.mem_insertSib] at ha
      simp only [not_or, not_and, not_not] at ha
      obtain ⟨h1a, h2a, _, h4a⟩ := ha
      have hat : a ∉ t.addrs := fun hm => h4a (h1a hm)
      show load h' a = none
      rw [hfr a hat h2a, hfr1 a h2a]
      exact inv.dead a hat
    · apply LT.atNode_leaf inv.leaf inv.nodup hpm
      · intro fc0 h0
        exact LT.insertSib_leaf h0 trivial (fun _ => rfl)
      · intro nm0 f0 fc0 ns0 e0 hf0 _
        rw [esub] at e0
        cases e0
        rw [hfolder] at hf0; cases hf0
    · apply LT.atNode_sorted inv.sorted inv.nodup hpm
      intro fc0 h0
      exact LT.insertSib_sorted h0 trivial
    · obtain ⟨c, cn, h1c, h2c, h3c⟩ := inv.cur
      obtain ⟨cn', h4c, _, h5c⟩ := hsame c cn h2c
      exact ⟨c, cn', h1c, h4c, by rw [h5c, h3c]⟩


/-! ## Ancestors and reachability -/

theorem LT.path_subset {t : LT} {x : Nat} : ∀ q ∈ t.path x, q ∈ t.addrs := by
  induction t with
  | nil => simp [LT.path]
  | node b nm f fc ns ihfc ihns =>
    intro q hq
    simp only [LT.path] at hq
    simp only [LT.addrs, List.mem_cons, List.mem_append]
    split at hq
    · simp only [List.mem_singleton] at hq; exact Or.inl hq
    · split at hq
      · simp only [List.mem_append, List.mem_singleton] at hq
        rcases hq with h1 | h1
        · exact Or.inr (Or.inl (ihfc q h1))
        · exact Or.inl h1
      · exact Or.inr (Or.inr (ihns q hq))

theorem LT.sub_of_not_mem {t : LT} {q : Nat} (hq : q ∉ t.addrs) : t.sub q = LT.nil := by
  induction t with
  | nil => rfl
  | node b nm f fc ns ihfc ihns =>
    simp only [LT.addrs, List.mem_cons, List.mem_append, not_or] at hq
    have hb : ¬ b = q := fun e => hq.1 e.symm
    simp [LT.sub, hb, hq.2.1, ihns hq.2.2]

theorem LT.mem_path_iff {t : LT} (nd : t.addrs.Nodup) {x : Nat} (hx : x ∈ t.addrs) (q : Nat) :
    q ∈ t.path x ↔ x = q ∨ x ∈ (t.sub q).children.addrs := by
  induction t with
  | nil => simp [LT.addrs] at hx
  | node b nm f fc ns ihfc ihns =>
    have nd' := nd
    simp only [LT.addrs, List.nodup_cons, List.nodup_append, List.mem_append, not_or] at nd'
    obtain ⟨⟨hbfc, hbns⟩, ndfc, ndns, hdis⟩ := nd'
    simp only [LT.addrs, List.mem_cons, List.mem_append] at hx
    by_cases hb : b = x
    · subst hb
      simp only [LT.path, if_true, List.mem_singleton]
      constructor
      · intro e; exact Or.inl e.symm
      · rintro (e | e)
        · exact e.symm
        · exfalso
          have := LT.sub_children_subset (t := LT.node b nm f fc ns) (p := q) b e
          by_cases hq : b = q
          · subst hq
            simp only [LT.sub, if_true, LT.children] at e
            exact hbfc e
          · by_cases hqfc : q ∈ fc.addrs
            · simp only [LT.sub, hq, hqfc, if_true, if_false] at e
              exact hbfc (LT.sub_children_subset b e)
            · simp only [LT.sub, hq, hqfc, if_false] at e
              exact hbns (LT.sub_children_subset b e)
    · by_cases hfc : x ∈ fc.addrs
      · simp only [LT.path, hb, hfc, if_true, if_false, List.mem_append, List.mem_singleton]
        by_cases hq : b = q
        · subst hq
          simp [LT.sub, LT.children, hfc]
        · have hq' : ¬ q = b := fun e => hq e.symm
          simp only [hq', or_false, LT.sub, hq, if_false]
          by_cases hqfc : q ∈ fc.addrs
          · simp only [hqfc, if_true]
            exact ihfc ndfc hfc
          · simp only [hqfc, if_false]
            constructor
            · intro h1; exact absurd (LT.path_subset q h1) hqfc
            · rintro (h1 | h1)
              · exact absurd (h1 ▸ hfc) hqfc
              · exact absurd (LT.sub_children_subset x h1) (fun hm => hdis hfc hm)
      · have hns : x ∈ ns.addrs := by
          rcases hx with h1 | h1 | h1
          · exact absurd h1.symm hb
          · exact absurd h1 hfc
          · exact h1
        simp only [LT.path, hb, hfc, if_false]
        by_cases hq : b = q
        · subst hq
          simp only [LT.sub, if_true, LT.children]
          constructor
          · intro h1; exact absurd (LT.path_subset b h1) hbns
          · rintro (h1 | h1)
            · exact absurd h1.symm hb
            · exact absurd h1 hfc
        · simp only [LT.sub, hq, if_false]
          by_cases hqfc : q ∈ fc.addrs
          · simp only [hqfc, if_true]
            constructor
            · intro h1; exact absurd hqfc (fun hm => hdis hm (LT.path_subset q h1))
            · rintro (h1 | h1)
              · exact absurd (h1 ▸ hqfc) hfc
              · exact absurd (LT.sub_children_subset x h1) hfc
          · simp only [hqfc, if_false]
            exact ihns ndns hns

theorem LT.path_spec {t : LT} (nd : t.addrs.Nodup) {x : Nat} (hx : x ∈ t.addrs) (par : Ptr) :
    (t.parOf x par = par ∧ t.path x = [x]) ∨
      ∃ p, t.parOf x par = some p ∧ p ∈ t.addrs ∧ t.path x = x :: t.path p := by
  induction t generalizing par with
  | nil => simp [LT.addrs] at hx
  | node b nm f fc ns ihfc ihns =>
    have nd' := nd
    simp only [LT.addrs, List.nodup_cons, List.nodup_append, List.mem_append, not_or] at nd'
    obtain ⟨⟨hbfc, hbns⟩, ndfc, ndns, hdis⟩ := nd'
    simp only [LT.addrs, List.mem_cons, List.mem_append] at hx
    by_cases hb : b = x
    · left; simp [LT.parOf, LT.path, hb]
    · by_cases hfc : x ∈ fc.addrs
      · right
        simp only [LT.parOf, LT.path, hb, hfc, if_true, if_false]
        rcases ihfc ndfc hfc (some b) with ⟨h1, h2⟩ | ⟨p, h1, h2, h3⟩
        · exact ⟨b, h1, by simp [LT.addrs], by simp [h2]⟩
        · have hbp : ¬ b = p := fun e => hbfc (e ▸ h2)
          exact ⟨p, h1, by simp [LT.addrs, h2], by simp [h3, hbp, h2]⟩
      · have hns : x ∈ ns.addrs := by
          rcases hx with h1 | h1 | h1
          · exact absurd h1.symm hb
          · exact absurd h1 hfc
          · exact h1
        simp only [LT.parOf, LT.path, hb, hfc, if_false]
        rcases ihns ndns hns par with ⟨h1, h2⟩ | ⟨p, h1, h2, h3⟩
        · exact Or.inl ⟨h1, h2⟩
        · right
          have hbp : ¬ b = p := fun e => hbns (e ▸ h2)
          have hpfc : p ∉ fc.addrs := fun hm => hdis hm h2
          exact ⟨p, h1, by simp [LT.addrs, h2], by simp [h3, hbp, hpfc]⟩

theorem LT.mem_path_self {t : LT} (nd : t.addrs.Nodup) {x : Nat} (hx : x ∈ t.addrs) :
    x ∈ t.path x := by
  rcases LT.path_spec nd hx none with ⟨_, h⟩ | ⟨p, _, _, h⟩ <;> simp [h]

/-- The parent link of a node of the whole tree, read from the heap. -/
theorem Rep.parent_eq {h : Heap} {t : LT} (r : Rep h none t) {x : Nat} (hx : x ∈ t.addrs)
    {n : Node} (e : load h x = some n) : n.parent = t.parOf x none := by
  obtain ⟨nm, f, fc, ns, es⟩ := LT.sub_node hx
  have := (r.cell_of_sub es).1
  rw [e] at this
  cases this
  rfl

theorem atOrAbove_iff {h : Heap} {t : LT} (r : Rep h none t) (nd : t.addrs.Nodup) {x : Nat}
    (hx : x ∈ t.addrs) (q : Nat) : AtOrAbove h q x ↔ q ∈ t.path x := by
  constructor
  · intro hq
    unfold AtOrAbove at hq
    induction hq using Relation.ReflTransGen.head_induction_on with
    | refl => exact LT.mem_path_self nd hx
    | head hxy _ ih =>
      rename_i x' y
      obtain ⟨n, hn, hpar⟩ := hxy
      have hp := r.parent_eq hx hn
      rw [hpar] at hp
      rcases LT.path_spec nd hx none with ⟨h1, _⟩ | ⟨p, h1, h2, h3⟩
      · rw [← hp] at h1; cases h1
      · rw [← hp] at h1
        cases h1
        rw [h3]
        exact List.mem_cons_of_mem _ (ih h2)
  · intro hq
    obtain ⟨n, hn⟩ : ∃ n, (t.path x).length = n := ⟨_, rfl⟩
    induction n using Nat.strong_induction_on generalizing x with
    | _ n ih =>
      obtain ⟨cx, hcx⟩ := r.live hx
      have hp := r.parent_eq hx hcx
      rcases LT.path_spec nd hx none with ⟨_, h2⟩ | ⟨p, h1, h2, h3⟩
      · rw [h2] at hq
        simp only [List.mem_singleton] at hq
        subst hq
        exact Relation.ReflTransGen.refl
      · rw [h3] at hq hn
        simp only [List.mem_cons] at hq
        rcases hq with rfl | hq
        · exact Relation.ReflTransGen.refl
        · have hstep : ParentOf h x p := ⟨cx, hcx, by rw [hp, h1]⟩
          exact Relation.ReflTransGen.head hstep
            (ih (t.path p).length (by simp at hn; omega) h2 hq rfl)

/-- In a tree the node `q` is at or above `x` exactly if `x` is `q` or lies
among the nodes below `q`. -/
theorem atOrAbove_iff_mem {h : Heap} {t : LT} (r : Rep h none t) (nd : t.addrs.Nodup) {x : Nat}
    (hx : x ∈ t.addrs) (q : Nat) :
    AtOrAbove h q x ↔ x = q ∨ x ∈ (t.sub q).children.addrs := by
  rw [atOrAbove_iff r nd hx, LT.mem_path_iff nd hx]


/-! ## `deleteNode` -/

theorem SameParents.ofStore {h : Heap} {a : Nat} {n n' : Node} (e : load h a = some n)
    (hn : n'.name = n.name) (hf : n'.isFile = n.isFile) (hp : n'.parent = n.parent) :
    SameParents h (store h a n') := by
  intro x m ex
  by_cases hx : a = x
  · subst hx
    rw [e] at ex
    cases ex
    exact ⟨n', load_store_self _ (load_lt e), hn, hf, hp⟩
  · exact ⟨m, by rw [load_store_ne _ hx]; exact ex, rfl, rfl, rfl⟩

theorem SameParents.viaAssign {h h' : Heap} {a : Nat} {g : Node → Node}
    (e : assign h a g = some h')
    (hg : ∀ n, (g n).name = n.name ∧ (g n).isFile = n.isFile ∧ (g n).parent = n.parent) :
    SameParents h h' := by
  unfold FileExplorer.assign at e
  split at e
  · cases e
  · rename_i n hn
    cases e
    exact SameParents.ofStore hn (hg n).1 (hg n).2.1 (hg n).2.2

theorem removeFromParent_sameParents {h h' : Heap} {q : Ptr}
    (e : removeFromParent h q = some h') : SameParents h h' := by
  have hrefl : SameParents h h := fun _ n e => ⟨n, e, rfl, rfl, rfl⟩
  unfold removeFromParent at e
  split at e
  · cases e; exact hrefl
  · split at e
    · cases e
    · split at e
      · cases e; exact hrefl
      · split at e
        · cases e
        · split at e
          · exact SameParents.viaAssign e (fun _ => ⟨rfl, rfl, rfl⟩)
          · split at e
            · cases e
            · cases e; exact hrefl
            · exact SameParents.viaAssign e (fun _ => ⟨rfl, rfl, rfl⟩)

theorem LT.sub_sub {t : LT} (nd : t.addrs.Nodup) {p q : Nat} (hq : q ∈ (t.sub p).addrs) :
    (t.sub p).sub q = t.sub q := by
  induction t with
  | nil => simp [LT.sub, LT.addrs] at hq
  | node b nm f fc ns ihfc ihns =>
    have nd' := nd
    simp only [LT.addrs, List.nodup_cons, List.nodup_append, List.mem_append, not_or] at nd'
    obtain ⟨⟨hbfc, hbns⟩, ndfc, ndns, hdis⟩ := nd'
    by_cases hb : b = p
    · simp [LT.sub, hb]
    · by_cases hfc : p ∈ fc.addrs
      · have e : (LT.node b nm f fc ns).sub p = fc.sub p := by simp [LT.sub, hb, hfc]
        rw [e] at hq ⊢
        have hqfc : q ∈ fc.addrs := LT.sub_addrs q hq
        have hbq : ¬ b = q := fun e => hbfc (e ▸ hqfc)
        rw [ihfc ndfc hq]
        simp [LT.sub, hbq, hqfc]
      · have e : (LT.node b nm f fc ns).sub p = ns.sub p := by simp [LT.sub, hb, hfc]
        rw [e] at hq ⊢
        have hqns : q ∈ ns.addrs := LT.sub_addrs q hq
        have hbq : ¬ b = q := fun e => hbns (e ▸ hqns)
        have hqfc : q ∉ fc.addrs := fun hm => hdis hm hqns
        rw [ihns ndns hq]
        simp [LT.sub, hbq, hqfc]

/-- The children of a node `p`, seen from the whole tree. -/
theorem LT.children_sub {t : LT} (nd : t.addrs.Nodup) {p q : Nat}
    (hq : q ∈ (t.sub p).children.addrs) : (t.sub p).children.sub q = t.sub q := by
  have hq' : q ∈ (t.sub p).addrs := LT.children_subset q hq
  rw [← LT.sub_sub nd hq']
  have nds := LT.sub_nodup nd p
  cases e : t.sub p with
  | nil => rw [e] at hq; simp [LT.children, LT.addrs] at hq
  | node b nm f fc ns =>
    rw [e] at hq nds
    simp only [LT.children] at hq ⊢
    simp only [LT.addrs, List.nodup_cons, List.mem_append, not_or] at nds
    have hbq : ¬ b = q := fun e => nds.1.1 (e ▸ hq)
    simp [LT.sub, hbq, hq]

theorem LT.spine_not_below {sp : LT} (nd : sp.addrs.Nodup) {a : Nat} (ha : a ∈ sp.spine)
    (q : Nat) : a ∉ (sp.sub q).children.addrs := by
  induction sp with
  | nil => simp [LT.spine] at ha
  | node b nmb fb fcb nsb _ ihns =>
    have nd' := nd
    simp only [LT.addrs, List.nodup_cons, List.nodup_append, List.mem_append, not_or] at nd'
    obtain ⟨⟨hbfc, hbns⟩, ndfc, ndns, hdis⟩ := nd'
    simp only [LT.spine, List.mem_cons] at ha
    by_cases hb : b = q
    · simp only [LT.sub, hb, if_true, LT.children]
      rcases ha with rfl | ha
      · exact hbfc
      · exact fun hm => hdis hm (LT.spine_subset _ a ha)
    · by_cases hqfc : q ∈ fcb.addrs
      · simp only [LT.sub, hb, hqfc, if_true, if_false]
        intro hm
        have hm' := LT.sub_children_subset a hm
        rcases ha with rfl | ha
        · exact hbfc hm'
        · exact hdis hm' (LT.spine_subset _ a ha)
      · simp only [LT.sub, hb, hqfc, if_false]
        rcases ha with rfl | ha
        · exact fun hm => hbns (LT.sub_children_subset a hm)
        · exact ihns ndns ha

theorem LT.mem_removeSib {sp : LT} (nd : sp.addrs.Nodup) {q : Nat} (hq : q ∈ sp.spine)
    (x : Nat) :
    x ∈ (LT.removeSib q sp).addrs ↔
      x ∈ sp.addrs ∧ ¬ (x = q ∨ x ∈ (sp.sub q).children.addrs) := by
  induction sp with
  | nil => simp [LT.spine] at hq
  | node b nmb fb fcb nsb _ ihns =>
    have nd' := nd
    simp only [LT.addrs, List.nodup_cons, List.nodup_append, List.mem_append, not_or] at nd'
    obtain ⟨⟨hbfc, hbns⟩, ndfc, ndns, hdis⟩ := nd'
    simp only [LT.spine, List.mem_cons] at hq
    by_cases hb : b = q
    · subst hb
      simp only [LT.removeSib, if_true, LT.sub, LT.children, LT.addrs, List.mem_cons,
        List.mem_append]
      constructor
      · intro h1
        refine ⟨Or.inr (Or.inr h1), ?_⟩
        rintro (h2 | h2)
        · exact hbns (h2 ▸ h1)
        · exact hdis h2 h1
      · rintro ⟨h1 | h1 | h1, h2⟩
        · exact absurd (Or.inl h1) h2
        · exact absurd (Or.inr h1) h2
        · exact h1
    · have hqns : q ∈ nsb.spine := by
        rcases hq with e | e
        · exact absurd e.symm hb
        · exact e
      have hqn := LT.spine_subset _ q hqns
      have hqfc : q ∉ fcb.addrs := fun hm => hdis hm hqn
      simp only [LT.removeSib, hb, if_false, LT.sub, hqfc, LT.addrs, List.mem_cons,
        List.mem_append, ihns ndns hqns]
      constructor
      · rintro (h1 | h1 | ⟨h1, h2⟩)
        · refine ⟨Or.inl h1, ?_⟩
          rintro (h3 | h3)
          · exact hb (h1 ▸ h3)
          · exact hbns (h1 ▸ LT.sub_children_subset x h3)
        · refine ⟨Or.inr (Or.inl h1), ?_⟩
          rintro (h3 | h3)
          · exact hqfc (h3 ▸ h1)
          · exact hdis h1 (LT.sub_children_subset x h3)
        · exact ⟨Or.inr (Or.inr h1), h2⟩
      · rintro ⟨h1 | h1 | h1, h2⟩
        · exact Or.inl h1
        · exact Or.inr (Or.inl h1)
        · exact Or.inr (Or.inr ⟨h1, h2⟩)

theorem LT.removeSib_of_not_mem {sp : LT} {q : Nat} (hq : q ∉ sp.spine) :
    LT.removeSib q sp = sp := by
  induction sp with
  | nil => rfl
  | node b _ _ _ nsb _ ih =>
    simp only [LT.spine, List.mem_cons, not_or] at hq
    have : ¬ b = q := fun e => hq.1 e.symm
    simp [LT.removeSib, this, ih hq.2]

theorem LT.nodup_removeSib {sp : LT} (nd : sp.addrs.Nodup) (q : Nat) :
    (LT.removeSib q sp).addrs.Nodup := by
  induction sp with
  | nil => simp [LT.removeSib, LT.addrs]
  | node b nmb fb fcb nsb _ ihns =>
    have nd' := nd
    simp only [LT.addrs, List.nodup_cons, List.nodup_append, List.mem_append, not_or] at nd'
    obtain ⟨⟨hbfc, hbns⟩, ndfc, ndns, hdis⟩ := nd'
    simp only [LT.removeSib]
    split
    · exact ndns
    · have hsub : ∀ x ∈ (LT.removeSib q nsb).addrs, x ∈ nsb.addrs := by
        intro x hx
        by_cases hq : q ∈ nsb.spine
        · exact ((LT.mem_removeSib ndns hq x).mp hx).1
        · rw [LT.removeSib_of_not_mem hq] at hx; exact hx
      simp only [LT.addrs, List.nodup_cons, List.nodup_append, List.mem_append, not_or]
      exact ⟨⟨hbfc, fun hm => hbns (hsub b hm)⟩, ndfc, ihns ndns,
        fun a h1 h2 => hdis h1 (hsub a h2)⟩


/-- A node of the tree other than the root has a parent in the tree and
stands in the sibling chain of that parent's children. -/
theorem Inv.parent_of_nonroot {s : FS} {t : LT} (inv : Inv s t) {q : Nat} {qn : Node}
    (hq : load s.heap q = some qn) (hroot : s.root ≠ some q) :
    ∃ p, qn.parent = some p ∧ t.parOf q none = some p ∧ p ∈ t.addrs ∧
      q ∈ (t.sub p).children.spine := by
  have hqm := inv.mem_of_load hq
  have hpar := inv.rep.parent_eq hqm hq
  obtain ⟨r, nm, fc, hr, et⟩ := inv.root
  rcases LT.parOf_spec inv.nodup hqm none with ⟨h1, _⟩ | ⟨p, h1, h2, h3⟩
  · exfalso
    rw [et] at h1
    simp only [LT.spine, List.mem_cons, List.mem_nil_iff, or_false] at h1
    exact hroot (by rw [hr, h1])
  · exact ⟨p, by rw [hpar, h1], h1, h2, h3⟩

/-- The effect of a successful `deleteNode`. -/
theorem deleteNode_ok {s : FS} {t : LT} (inv : Inv s t) {q : Nat} {qn : Node}
    (hq : load s.heap q = some qn) (hroot : s.root ≠ some q) (hcur : s.currentDir ≠ some q)
    (hanc : ∀ c, s.currentDir = some c → ¬ AtOrAbove s.heap q c) :
    ∃ h' p, deleteNode s (some q) = some (Msg.ok, { s with heap := h' }) ∧
      qn.parent = some p ∧ p ∈ t.addrs ∧ q ∈ (t.sub p).children.spine ∧
      Inv { s with heap := h' } (t.atNode p (LT.removeSib q)) ∧
      (∀ a, a ∈ (t.atNode p (LT.removeSib q)).addrs ↔ a ∈ t.addrs ∧ ¬ AtOrAbove s.heap q a) ∧
      (∀ a n, load s.heap a = some n → ¬ AtOrAbove s.heap q a →
        ∃ n', load h' a = some n' ∧ n'.name = n.name ∧ n'.isFile = n.isFile ∧
          n'.parent = n.parent) ∧
      (∀ a, AtOrAbove s.heap q a → load h' a = none) ∧
      h'.length = s.heap.length := by
  have hqm := inv.mem_of_load hq
  obtain ⟨p, hqpar, hpar, hpm, hqs⟩ := inv.parent_of_nonroot hq hroot
  obtain ⟨c, cn, hc, hcn, hcf⟩ := inv.cur
  have hcm := inv.mem_of_load hcn
  obtain ⟨fcq, nsq, esq, -, hqfc, -⟩ := inv.folder_of_load hq
  have hqC : q ∈ (t.sub p).children.addrs := LT.spine_subset _ q hqs
  have ndC := LT.children_nodup (LT.sub_nodup inv.nodup p)
  have esubC : (t.sub p).children.sub q = t.sub q := LT.children_sub inv.nodup hqC
  have hpC : p ∉ (t.sub p).children.addrs := by
    obtain ⟨nmp, fp, fcp, nsp, esp⟩ := LT.sub_node hpm
    have := LT.sub_nodup inv.nodup p
    rw [esp] at this ⊢
    simp only [LT.addrs, List.nodup_cons, List.mem_append, not_or] at this
    exact this.1.1
  -- membership below `q`
  have hbelow : ∀ a, a ∈ t.addrs → (AtOrAbove s.heap q a ↔ a = q ∨ a ∈ fcq.addrs) := by
    intro a ha
    rw [atOrAbove_iff_mem inv.rep inv.nodup ha, esq]
    rfl
  have hfcqC : ∀ a ∈ fcq.addrs, a ∈ (t.sub p).children.addrs := by
    intro a ha
    apply LT.sub_children_subset (p := q)
    rw [esubC, esq]; exact ha
  have hfcqt : ∀ a ∈ fcq.addrs, a ∈ t.addrs := fun a ha => LT.sub_children_subset a (hfcqC a ha)
  have hmem : ∀ a, a ∈ (t.atNode p (LT.removeSib q)).addrs ↔
      a ∈ t.addrs ∧ ¬ (a = q ∨ a ∈ fcq.addrs) := by
    intro a
    rw [LT.mem_atNode inv.nodup hpm, LT.mem_removeSib ndC hqs, esubC, esq]
    simp only [LT.children]
    constructor
    · rintro (⟨h1, h2⟩ | ⟨h1, h2⟩)
      · refine ⟨h1, ?_⟩
        rintro (h3 | h3)
        · exact h2 (h3 ▸ hqC)
        · exact h2 (hfcqC a h3)
      · exact ⟨LT.sub_children_subset a h1, h2⟩
    · rintro ⟨h1, h2⟩
      by_cases h3 : a ∈ (t.sub p).children.addrs
      · exact Or.inr ⟨h3, h2⟩
      · exact Or.inl ⟨h1, h3⟩
  -- the walk up from the current directory does not meet `q`
  have hwalk : ancestorLoop (s.heap.length + 1) s.heap s.currentDir q = some false := by
    rw [hc, ancestorLoop_spec inv.rep inv.nodup hcm]
    have := hanc c hc
    rw [atOrAbove_iff inv.rep inv.nodup hcm] at this
    simp [this]
  -- unlinking
  obtain ⟨h1, e1, hlen1, r1, hfr1, hsame1⟩ :=
    removeFromParent_spec inv.rep inv.nodup hqm hpar hpm hqs
  have hpar1 := removeFromParent_sameParents e1
  have hq1 : load h1 q = some qn := by rw [hfr1 q (Or.inl rfl)]; exact hq
  have hfrq : ∀ a ∈ fcq.addrs, load h1 a = load s.heap a := by
    intro a ha
    apply hfr1 a
    right
    refine ⟨ne_of_mem_of_not_mem (hfcqC a ha) hpC, fun hm => ?_⟩
    have := LT.spine_not_below ndC hm q
    rw [esubC, esq] at this
    exact this ha
  have rq := (inv.rep.cell_of_sub esq).2
  have ndq : fcq.addrs.Nodup := by
    have := LT.children_nodup (LT.sub_nodup inv.nodup q)
    rw [esq] at this; exact this
  have hqfcq : q ∉ fcq.addrs := by
    have := LT.sub_nodup inv.nodup q
    rw [esq] at this
    simp only [LT.addrs, List.nodup_cons, List.mem_append, not_or] at this
    exact this.1.1
  -- releasing
  obtain ⟨h2, e2, hlen2, hl2⟩ := deleteNodeRecursive_spec hq1 hqfc (rq.frame hfrq) ndq hqfcq
  have hsurv : ∀ a n, load s.heap a = some n → ¬ AtOrAbove s.heap q a →
      ∃ n', load h2 a = some n' ∧ n'.name = n.name ∧ n'.isFile = n.isFile ∧
        n'.parent = n.parent := by
    intro a n ha hna
    rw [hbelow a (inv.mem_of_load ha)] at hna
    obtain ⟨n', h1a, h2a⟩ := hpar1 a n ha
    refine ⟨n', ?_, h2a⟩
    rw [hl2]; simp only [hna, if_false]; exact h1a
  refine ⟨h2, p, ?_, hqpar, hpm, hqs, ?_, ?_, hsurv, ?_, by rw [hlen2, hlen1]⟩
  · have hr' : ¬ (some q = s.root) := fun e => hroot e.symm
    have hc' : ¬ (some q = s.currentDir) := fun e => hcur e.symm
    simp only [deleteNode, hr', hc', if_false, hwalk, e1, hq1]
    rw [hlen1] at e2 ⊢
    simp only [hlen1, e2]
  · obtain ⟨r, nm, fc, hr, et⟩ := inv.root
    refine ⟨?_, ?_, ?_, ?_, ?_, ?_, ?_⟩
    · obtain ⟨fc', e'⟩ := @LT.root_atNode r nm fc p (LT.removeSib q)
      exact ⟨r, nm, fc', hr, by rw [et, e']⟩
    · apply r1.frame
      intro a ha
      show load h2 a = load h1 a
      rw [hl2]
      have := ((hmem a).mp ha).2
      simp [this]
    · apply LT.nodup_atNode inv.nodup hpm
      · exact LT.nodup_removeSib ndC q
      · intro x hx _
        exact ((LT.mem_removeSib ndC hqs x).mp hx).1
    · intro a ha
      show load h2 a = none
      rw [hl2]
      by_cases hb : a = q ∨ a ∈ fcq.addrs
      · simp [hb]
      · have hat : a ∉ t.addrs := fun hm => ha ((hmem a).mpr ⟨hm, hb⟩)
        simp only [hb, if_false]
        rw [hfr1 a (Or.inr ⟨ne_of_mem_of_not_mem hpm hat |>.symm,
          fun hm => hat (LT.sub_children_subset a (LT.spine_subset _ a hm))⟩)]
        exact inv.dead a hat
    · apply LT.atNode_leaf inv.leaf inv.nodup hpm
      · intro fc0 h0; exact LT.removeSib_leaf h0
      · intro nm0 f0 fc0 ns0 _ _ e0
        rw [e0]; rfl
    · apply LT.atNode_sorted inv.sorted inv.nodup hpm
      intro fc0 h0; exact LT.removeSib_sorted h0
    · have hcq : ¬ AtOrAbove s.heap q c := hanc c hc
      obtain ⟨n', h1c, _, h2c, _⟩ := hsurv c cn hcn hcq
      exact ⟨c, n', hc, h1c, by rw [h2c, hcf]⟩
  · intro a
    constructor
    · intro ha
      have := (hmem a).mp ha
      exact ⟨this.1, by rw [hbelow a this.1]; exact this.2⟩
    · rintro ⟨h1a, h2a⟩
      exact (hmem a).mpr ⟨h1a, by rw [← hbelow a h1a]; exact h2a⟩
  · intro a ha
    have hat : a ∈ t.addrs := by
      by_contra hn
      have : a = q := by
        unfold AtOrAbove at ha
        rcases Relation.ReflTransGen.cases_head ha with e | ⟨y, ⟨n, hn1, _⟩, _⟩
        · exact e
        · rw [inv.dead a hn] at hn1; cases hn1
      exact hn (this ▸ hqm)
    rw [hbelow a hat] at ha
    rw [hl2]; simp [ha]


/-! ## `moveNode` -/

theorem Keeps.id {P : Nat → Node → Node → Prop} (hP : ∀ a n, P a n n) (h : Heap) :
    Keeps h h P := fun a n e => ⟨n, e, hP a n⟩

theorem Keeps.comp {P : Nat → Node → Node → Prop} {h1 h2 h3 : Heap}
    (hP : ∀ a n1 n2 n3, P a n1 n2 → P a n2 n3 → P a n1 n3) (x : Keeps h1 h2 P)
    (y : Keeps h2 h3 P) : Keeps h1 h3 P := by
  intro a n e
  obtain ⟨n2, e2, p2⟩ := x a n e
  obtain ⟨n3, e3, p3⟩ := y a n2 e2
  exact ⟨n3, e3, hP a n n2 n3 p2 p3⟩

theorem Keeps.ofAssign {P : Nat → Node → Node → Prop} {h h' : Heap} {x : Nat} {g : Node → Node}
    (e : assign h x g = some h') (hP : ∀ a n, P a n n) (hg : ∀ n, P x n (g n)) :
    Keeps h h' P := by
  unfold FileExplorer.assign at e
  split at e
  · cases e
  · rename_i n hn
    cases e
    intro a m ha
    by_cases hx : x = a
    · subst hx
      rw [hn] at ha; cases ha
      exact ⟨_, load_store_self _ (load_lt hn), hg n⟩
    · exact ⟨m, by rw [load_store_ne _ hx]; exact ha, hP a m⟩

theorem Keeps.mono {P Q : Nat → Node → Node → Prop} {h h' : Heap} (x : Keeps h h' P)
    (hPQ : ∀ a n n', P a n n' → Q a n n') : Keeps h h' Q := by
  intro a n e
  obtain ⟨n', e', p⟩ := x a n e
  exact ⟨n', e', hPQ a n n' p⟩

theorem keepsLoop_refl (p a : Nat) (n : Node) : keepsLoop p a n n := ⟨rfl, rfl, rfl, fun _ => rfl⟩

theorem keepsLoop_trans (p a : Nat) (n1 n2 n3 : Node) (x : keepsLoop p a n1 n2)
    (y : keepsLoop p a n2 n3) : keepsLoop p a n1 n3 :=
  ⟨y.1.trans x.1, y.2.1.trans x.2.1, y.2.2.1.trans x.2.2.1,
    fun hh => (y.2.2.2 hh).trans (x.2.2.2 hh)⟩

theorem addChildLoop_keeps {fuel : Nat} {h h' : Heap} {p c : Nat} {cur prev : Ptr}
    (e : addChildLoop fuel h p c cur prev = some h') : Keeps h h' (keepsLoop p) := by
  induction fuel generalizing cur prev with
  | zero => simp [addChildLoop] at e
  | succ fuel ih =>
    cases cur with
    | none =>
      cases prev with
      | none => simp [addChildLoop] at e
      | some pv =>
        simp only [addChildLoop] at e
        exact Keeps.ofAssign e (keepsLoop_refl p) (fun _ => ⟨rfl, rfl, rfl, fun _ => rfl⟩)
    | some cur =>
      simp only [addChildLoop] at e
      split at e
      · rename_i cn curn hcn hcurn
        split at e
        · cases prev with
          | none =>
            simp only at e
            split at e
            · cases e
            · split at e
              · cases e
              · rename_i h1 e1
                exact Keeps.comp (keepsLoop_trans p)
                  (Keeps.ofAssign e1 (keepsLoop_refl p) (fun _ => ⟨rfl, rfl, rfl, fun _ => rfl⟩))
                  (Keeps.ofAssign e (keepsLoop_refl p)
                    (fun _ => ⟨rfl, rfl, rfl, fun hh => absurd rfl hh⟩))
          | some pv =>
            simp only at e
            split at e
            · cases e
            · rename_i h1 e1
              exact Keeps.comp (keepsLoop_trans p)
                (Keeps.ofAssign e1 (keepsLoop_refl p) (fun _ => ⟨rfl, rfl, rfl, fun _ => rfl⟩))
                (Keeps.ofAssign e (keepsLoop_refl p) (fun _ => ⟨rfl, rfl, rfl, fun _ => rfl⟩))
        · exact ih e
      · cases e

/-- The call `addChild(d, c)` rewrites the parent link of `c` and of no other
cell, and the `firstChild` link of no cell but `d`. -/
theorem addChild_keeps {h h' : Heap} {d c : Nat}
    (e : addChild h (some d) (some c) = some h') : Keeps h h' (keepsAdd d c) := by
  simp only [addChild] at e
  split at e
  · cases e
  · rename_i h1 e1
    have hstep : Keeps h h1 (keepsAdd d c) := by
      unfold assign at e1
      split at e1
      · cases e1
      · rename_i cn hcn
        cases e1
        intro a n ha
        by_cases hac : a = c
        · subst hac
          rw [hcn] at ha; cases ha
          exact ⟨_, load_store_self _ (load_lt hcn), rfl, rfl, fun hh => absurd rfl hh,
            fun _ => rfl, fun _ => rfl⟩
        · exact ⟨n, by rw [load_store_ne _ (Ne.symm hac)]; exact ha, rfl, rfl, fun _ => rfl,
            fun hh => absurd hh hac, fun _ => rfl⟩
    have hrest : Keeps h1 h' (keepsLoop d) := by
      split at e
      · cases e
      · split at e
        · exact Keeps.ofAssign e (keepsLoop_refl d)
            (fun _ => ⟨rfl, rfl, rfl, fun hh => absurd rfl hh⟩)
        · exact addChildLoop_keeps e
    intro a n ha
    obtain ⟨n1, h1a, h2a, h3a, h4a, h5a, h6a⟩ := hstep a n ha
    obtain ⟨n2, k1, k2, k3, k4, k5⟩ := hrest a n1 h1a
    exact ⟨n2, k1, k2.trans h2a, k3.trans h3a, fun hh => k4.trans (h4a hh),
      fun hh => k4.trans (h5a hh), fun hh => (k5 hh).trans (h6a hh)⟩

/-- The tree that is left when the node `q`, a child of `p`, is taken out. -/
theorem LT.remove_tree {t : LT} (nd : t.addrs.Nodup) (hl : t.Forall leafAt)
    (hs : t.Forall sortedAt) {p q : Nat} (hpm : p ∈ t.addrs)
    (hqs : q ∈ (t.sub p).children.spine) :
    (t.atNode p (LT.removeSib q)).addrs.Nodup ∧ (t.atNode p (LT.removeSib q)).Forall leafAt ∧
      (t.atNode p (LT.removeSib q)).Forall sortedAt ∧
      ∀ a, a ∈ (t.atNode p (LT.removeSib q)).addrs ↔
        a ∈ t.addrs ∧ ¬ (a = q ∨ a ∈ (t.sub q).children.addrs) := by
  have hqC : q ∈ (t.sub p).children.addrs := LT.spine_subset _ q hqs
  have ndC := LT.children_nodup (LT.sub_nodup nd p)
  have esubC : (t.sub p).children.sub q = t.sub q := LT.children_sub nd hqC
  refine ⟨?_, ?_, ?_, ?_⟩
  · apply LT.nodup_atNode nd hpm
    · exact LT.nodup_removeSib ndC q
    · intro x hx _
      exact ((LT.mem_removeSib ndC hqs x).mp hx).1
  · apply LT.atNode_leaf hl nd hpm
    · intro fc0 h0; exact LT.removeSib_leaf h0
    · intro nm0 f0 fc0 ns0 _ _ e0
      rw [e0]; rfl
  · apply LT.atNode_sorted hs nd hpm
    intro fc0 h0; exact LT.removeSib_sorted h0
  · intro a
    rw [LT.mem_atNode nd hpm, LT.mem_removeSib ndC hqs, esubC]
    constructor
    · rintro (⟨h1, h2⟩ | ⟨h1, h2⟩)
      · refine ⟨h1, ?_⟩
        rintro (h3 | h3)
        · exact h2 (h3 ▸ hqC)
        · apply h2
          apply LT.sub_children_subset (p := q)
          rw [esubC]; exact h3
      · exact ⟨LT.sub_children_subset a h1, h2⟩
    · rintro ⟨h1, h2⟩
      by_cases h3 : a ∈ (t.sub p).children.addrs
      · exact Or.inr ⟨h3, h2⟩
      · exact Or.inl ⟨h1, h3⟩


theorem removeFromParent_keeps {h h' : Heap} {q p : Nat} {qn : Node}
    (hq : load h q = some qn) (hp : qn.parent = some p)
    (e : removeFromParent h (some q) = some h') : Keeps h h' (keepsLoop p) := by
  simp only [removeFromParent, hq, hp] at e
  split at e
  · cases e
  · split at e
    · exact Keeps.ofAssign e (keepsLoop_refl p) (fun _ => ⟨rfl, rfl, rfl, fun hh => absurd rfl hh⟩)
    · split at e
      · cases e
      · cases e; exact Keeps.id (keepsLoop_refl p) _
      · exact Keeps.ofAssign e (keepsLoop_refl p) (fun _ => ⟨rfl, rfl, rfl, fun _ => rfl⟩)

/-- The effect of a successful `moveNode`. -/
theorem moveNode_ok {s : FS} {t : LT} (inv : Inv s t) {q d : Nat} {qn dn : Node}
    (hq : load s.heap q = some qn) (hd : load s.heap d = some dn) (hroot : s.root ≠ some q)
    (hdf : dn.isFile = false) (hnb : ¬ AtOrAbove s.heap q d)
    (hfree : (t.sub d).children.lookup qn.name = none) :
    ∃ h' p, moveNode s (some q) (some d) = some (Msg.ok, { s with heap := h' }) ∧
      qn.parent = some p ∧ p ∈ t.addrs ∧ q ∈ (t.sub p).children.spine ∧
      Inv { s with heap := h' } ((t.atNode p (LT.removeSib q)).atNode d
        (LT.insertSib q qn.name qn.isFile (t.sub q).children)) ∧
      (∀ a, a ∈ ((t.atNode p (LT.removeSib q)).atNode d
        (LT.insertSib q qn.name qn.isFile (t.sub q).children)).addrs ↔ a ∈ t.addrs) ∧
      Keeps s.heap h' (keepsMove p d q) ∧
      (∀ a, a ∈ (t.sub q).children.addrs → load h' a = load s.heap a) ∧
      h'.length = s.heap.length := by
  have hqm := inv.mem_of_load hq
  have hdm := inv.mem_of_load hd
  obtain ⟨p, hqpar, hpar, hpm, hqs⟩ := inv.parent_of_nonroot hq hroot
  obtain ⟨fcq, nsq, esq, -, hqfc, -⟩ := inv.folder_of_load hq
  have hch : (t.sub q).children = fcq := by rw [esq]; rfl
  rw [hch]
  obtain ⟨nd1, leaf1, sorted1, hmem1⟩ := LT.remove_tree inv.nodup inv.leaf inv.sorted hpm hqs
  rw [hch] at hmem1
  have hqC : q ∈ (t.sub p).children.addrs := LT.spine_subset _ q hqs
  have ndC := LT.children_nodup (LT.sub_nodup inv.nodup p)
  have esubC : (t.sub p).children.sub q = t.sub q := LT.children_sub inv.nodup hqC
  have hpC : p ∉ (t.sub p).children.addrs := by
    obtain ⟨nmp, fp, fcp, nsp, esp⟩ := LT.sub_node hpm
    have := LT.sub_nodup inv.nodup p
    rw [esp] at this ⊢
    simp only [LT.addrs, List.nodup_cons, List.mem_append, not_or] at this
    exact this.1.1
  have hfcqC : ∀ a ∈ fcq.addrs, a ∈ (t.sub p).children.addrs := by
    intro a ha
    apply LT.sub_children_subset (p := q)
    rw [esubC, esq]; exact ha
  have hfcqt : ∀ a ∈ fcq.addrs, a ∈ t.addrs := fun a ha => LT.sub_children_subset a (hfcqC a ha)
  have hdq : ¬ (d = q ∨ d ∈ fcq.addrs) := by
    rw [atOrAbove_iff_mem inv.rep inv.nodup hdm, esq] at hnb
    exact hnb
  have hd1m : d ∈ (t.atNode p (LT.removeSib q)).addrs := (hmem1 d).mpr ⟨hdm, hdq⟩
  have hq1 : q ∉ (t.atNode p (LT.removeSib q)).addrs := fun hm => ((hmem1 q).mp hm).2 (Or.inl rfl)
  have hk1 : ∀ a ∈ fcq.addrs, a ∉ (t.atNode p (LT.removeSib q)).addrs :=
    fun a ha hm => ((hmem1 a).mp hm).2 (Or.inr ha)
  have ndq : fcq.addrs.Nodup := by
    have := LT.children_nodup (LT.sub_nodup inv.nodup q)
    rw [esq] at this; exact this
  have hqfcq : q ∉ fcq.addrs := by
    have := LT.sub_nodup inv.nodup q
    rw [esq] at this
    simp only [LT.addrs, List.nodup_cons, List.mem_append, not_or] at this
    exact this.1.1
  -- the check against a move into the own subtree
  have hwalk : (if qn.isFile = true then some false
      else ancestorLoop (s.heap.length + 1) s.heap (some d) q) = some false := by
    split
    · rfl
    · rw [ancestorLoop_spec inv.rep inv.nodup hdm]
      rw [atOrAbove_iff inv.rep inv.nodup hdm] at hnb
      simp [hnb]
  -- unlinking
  obtain ⟨h1, e1, hlen1, r1, hfr1, hsame1⟩ :=
    removeFromParent_spec inv.rep inv.nodup hqm hpar hpm hqs
  have hpar1 := removeFromParent_sameParents e1
  have hq1l : load h1 q = some qn := by rw [hfr1 q (Or.inl rfl)]; exact hq
  have hfrq : ∀ a ∈ fcq.addrs, load h1 a = load s.heap a := by
    intro a ha
    apply hfr1 a
    right
    refine ⟨ne_of_mem_of_not_mem (hfcqC a ha) hpC, fun hm => ?_⟩
    have := LT.spine_not_below ndC hm q
    rw [esubC, esq] at this
    exact this ha
  have rq := (inv.rep.cell_of_sub esq).2
  -- the assignment `src->nextSibling = NULL`
  obtain ⟨h2, eh2⟩ : ∃ x, x = store h1 q { qn with nextSibling := none } := ⟨_, rfl⟩
  have hh2 : assign h1 q (fun x => { x with nextSibling := none }) = some h2 := by
    simp [assign, hq1l, eh2]
  have hfr2 : ∀ a, a ≠ q → load h2 a = load h1 a := by
    intro a ha; rw [eh2]; exact load_store_ne _ (Ne.symm ha)
  have hlen2 : h2.length = h1.length := by rw [eh2]; exact length_store _ _ _
  have r2 : Rep h2 none (t.atNode p (LT.removeSib q)) :=
    r1.frame (fun a ha => hfr2 a (ne_of_mem_of_not_mem ha hq1))
  have hc2 : load h2 q = some ⟨qn.name, qn.isFile, qn.parent, fcq.ptr, none⟩ := by
    rw [eh2, load_store_self _ (load_lt hq1l), hqfc]
  have rk2 : Rep h2 (some q) fcq := by
    apply rq.frame
    intro a ha
    rw [hfr2 a (ne_of_mem_of_not_mem ha hqfcq), hfrq a ha]
  -- linking below the destination
  obtain ⟨h3, e3, hlen3, r3, hfr3⟩ := addChild_spec r2 nd1 hd1m hc2 rk2 hq1 hqfcq hk1
  have hkeep3 := addChild_keeps e3
  have hkeep1 := removeFromParent_keeps hq hqpar e1
  have hkeep : Keeps s.heap h3 (keepsMove p d q) := by
    intro a n ha
    obtain ⟨n1, h1a, k1, k2, k3, k4⟩ := hkeep1 a n ha
    have h2a : ∃ n2, load h2 a = some n2 ∧ n2.name = n1.name ∧ n2.isFile = n1.isFile ∧
        n2.parent = n1.parent ∧ n2.firstChild = n1.firstChild := by
      by_cases haq : a = q
      · subst haq
        rw [hq1l] at h1a; cases h1a
        exact ⟨_, hc2, rfl, rfl, rfl, hqfc.symm⟩
      · exact ⟨n1, by rw [hfr2 a haq]; exact h1a, rfl, rfl, rfl, rfl⟩
    obtain ⟨n2, h2a, m1, m2, m3, m4⟩ := h2a
    obtain ⟨n3, h3a, j1, j2, j3, j4, j5⟩ := hkeep3 a n2 h2a
    exact ⟨n3, h3a, by rw [j1, m1, k1], by rw [j2, m2, k2], fun hh => by rw [j3 hh, m3, k3],
      j4, fun hh1 hh2 => by rw [j5 hh1, m4, k4 hh2]⟩
  have hsame : SameEntries s.heap h3 := fun a n ha => by
    obtain ⟨n', h1a, k1, k2, _⟩ := hkeep a n ha
    exact ⟨n', h1a, k1, k2⟩
  have hmem2 : ∀ a, a ∈ ((t.atNode p (LT.removeSib q)).atNode d
      (LT.insertSib q qn.name qn.isFile fcq)).addrs ↔ a ∈ t.addrs := by
    intro a
    rw [LT.mem_atNode nd1 hd1m, LT.mem_insertSib, hmem1]
    constructor
    · rintro (⟨⟨h1a, _⟩, _⟩ | rfl | h1a | h1a)
      · exact h1a
      · exact hqm
      · exact hfcqt a h1a
      · exact ((hmem1 a).mp (LT.sub_children_subset a h1a)).1
    · intro h1a
      by_cases h2a : a = q ∨ a ∈ fcq.addrs
      · rcases h2a with h2a | h2a
        · exact Or.inr (Or.inl h2a)
        · exact Or.inr (Or.inr (Or.inl h2a))
      · by_cases h3a : a ∈ ((t.atNode p (LT.removeSib q)).sub d).children.addrs
        · exact Or.inr (Or.inr (Or.inr h3a))
        · exact Or.inl ⟨⟨h1a, h2a⟩, h3a⟩
  have hfolder1 : ∀ nm0 f0 fc0 ns0,
      (t.atNode p (LT.removeSib q)).sub d = LT.node d nm0 f0 fc0 ns0 → f0 = false := by
    intro nm0 f0 fc0 ns0 e0
    have hcell := (r2.cell_of_sub e0).1
    obtain ⟨n1, h1a, _, k2, _⟩ := hkeep1 d dn hd
    rw [hfr2 d (fun e => hdq (Or.inl e)), h1a] at hcell
    cases hcell
    rw [← hdf, ← k2]
  refine ⟨h3, p, ?_, hqpar, hpm, hqs, ?_, hmem2, hkeep, ?_, by rw [hlen3, hlen2, hlen1]⟩
  · have hr' : ¬ (some q = s.root) := fun e => hroot e.symm
    have hfind := findChild_spec inv.rep inv.nodup hdm qn.name
    rw [hfree] at hfind
    simp only [moveNode, hr', if_false, hd, hq, hdf, hfind, e1, hh2, e3]
    simp only [Bool.false_eq_true, if_false]
    rw [hwalk]
  · obtain ⟨r, nm, fc, hr, et⟩ := inv.root
    refine ⟨?_, r3, ?_, ?_, ?_, ?_, ?_⟩
    · obtain ⟨fc', e'⟩ := @LT.root_atNode r nm fc p (LT.removeSib q)
      obtain ⟨fc'', e''⟩ := @LT.root_atNode r nm fc' d
        (LT.insertSib q qn.name qn.isFile fcq)
      exact ⟨r, nm, fc'', hr, by rw [et, e', e'']⟩
    · apply LT.nodup_atNode nd1 hd1m
      · exact LT.nodup_insertSib ndq (LT.children_nodup (LT.sub_nodup nd1 d)) hqfcq
          (fun hm => hq1 (LT.sub_children_subset _ hm))
          (fun a ha hm => hk1 a ha (LT.sub_children_subset _ hm))
      · intro x hx hxt
        rw [LT.mem_insertSib] at hx
        rcases hx with rfl | hx | hx
        · exact absurd hxt hq1
        · exact absurd hxt (hk1 x hx)
        · exact hx
    · intro a ha
      rw [hmem2] at ha
      have h1a : a ∉ (t.atNode p (LT.removeSib q)).addrs := fun hm => ha ((hmem1 a).mp hm).1
      have haq : a ≠ q := fun e => ha (e ▸ hqm)
      show load h3 a = none
      rw [hfr3 a h1a haq, hfr2 a haq, hfr1 a (Or.inr ⟨ne_of_mem_of_not_mem hpm ha |>.symm,
        fun hm => ha (LT.sub_children_subset a (LT.spine_subset _ a hm))⟩)]
      exact inv.dead a ha
    · apply LT.atNode_leaf leaf1 nd1 hd1m
      · intro fc0 h0
        have hsq := inv.leaf.ofSub q
        rw [esq] at hsq
        exact LT.insertSib_leaf h0 hsq.2.1 hsq.1
      · intro nm0 f0 fc0 ns0 e0 hf0 _
        rw [hfolder1 nm0 f0 fc0 ns0 e0] at hf0; cases hf0
    · apply LT.atNode_sorted sorted1 nd1 hd1m
      intro fc0 h0
      have hsq := inv.sorted.ofSub q
      rw [esq] at hsq
      exact LT.insertSib_sorted h0 hsq.2.1
    · obtain ⟨c, cn, h1c, h2c, h3c⟩ := inv.cur
      obtain ⟨cn', h4c, _, h5c⟩ := hsame c cn h2c
      exact ⟨c, cn', h1c, h4c, by rw [h5c, h3c]⟩
  · intro a ha
    rw [hfr3 a (hk1 a ha) (ne_of_mem_of_not_mem ha hqfcq), hfr2 a (ne_of_mem_of_not_mem ha hqfcq),
      hfrq a ha]


/-! ## `changeDirectory` and the reachable states -/

theorem getFullPathLoop_path {h : Heap} {par : Ptr} {t : LT} (r : Rep h par t) {x : Nat}
    (hx : x ∈ t.addrs) (fuel : Nat) (temp : List Nat) :
    ∃ temp', getFullPathLoop (fuel + (t.path x).length) h (some x) temp =
      getFullPathLoop fuel h par temp' := by
  induction t generalizing par fuel temp with
  | nil => simp [LT.addrs] at hx
  | node b nm f fc ns ihfc ihns =>
    simp only [LT.addrs, List.mem_cons, List.mem_append] at hx
    by_cases hb : b = x
    · subst hb
      simp only [LT.path, if_true, List.length_singleton, getFullPathLoop, r.1]
      exact ⟨_, rfl⟩
    · by_cases hfc : x ∈ fc.addrs
      · simp only [LT.path, hb, hfc, if_true, if_false, List.length_append,
          List.length_singleton]
        obtain ⟨t1, e⟩ := ihfc r.2.1 hfc (fuel + 1) temp
        have e2 : fuel + ((fc.path x).length + 1) = fuel + 1 + (fc.path x).length := by omega
        rw [e2, e]
        simp only [getFullPathLoop, r.1]
        exact ⟨_, rfl⟩
      · have hns : x ∈ ns.addrs := by
          rcases hx with h1 | h1 | h1
          · exact absurd h1.symm hb
          · exact absurd h1 hfc
          · exact h1
        simp only [LT.path, hb, hfc, if_false]
        exact ihns r.2.2 hns fuel temp

/-- The call `getFullPath` returns for every node of the tree. -/
theorem getFullPath_returns {h : Heap} {t : LT} (r : Rep h none t) (nd : t.addrs.Nodup)
    {x : Nat} (hx : x ∈ t.addrs) : ∃ res, getFullPath h (some x) = some res := by
  have h1 := LT.path_length_le t x
  have h2 := Rep.size_le r nd
  have e : h.length + 1 = (h.length - (t.path x).length) + 1 + (t.path x).length := by omega
  obtain ⟨temp', e'⟩ := getFullPathLoop_path r hx (h.length - (t.path x).length + 1) []
  simp only [getFullPath]
  rw [e, e']
  simp [getFullPathLoop]

theorem Rep.spine_parent {h : Heap} {par : Ptr} {sp : LT} (r : Rep h par sp) {x : Nat}
    (hx : x ∈ sp.spine) : ∃ n, load h x = some n ∧ n.parent = par := by
  induction sp with
  | nil => simp [LT.spine] at hx
  | node b nm f fc ns _ ihns =>
    simp only [LT.spine, List.mem_cons] at hx
    rcases hx with rfl | hx
    · exact ⟨_, r.1, rfl⟩
    · exact ihns r.2.2 hx

/-- The parent link of a node of the tree leads to a folder of the tree. -/
theorem Inv.parent_folder {s : FS} {t : LT} (inv : Inv s t) {c p : Nat} {cn : Node}
    (hc : load s.heap c = some cn) (hp : cn.parent = some p) :
    ∃ pn, load s.heap p = some pn ∧ pn.isFile = false ∧ c ∈ (t.sub p).children.spine := by
  have hcm := inv.mem_of_load hc
  have hpar := inv.rep.parent_eq hcm hc
  rw [hp] at hpar
  rcases LT.parOf_spec inv.nodup hcm none with ⟨_, h2⟩ | ⟨p', h1, h2, h3⟩
  · rw [← hpar] at h2; cases h2
  · rw [← hpar] at h1
    cases h1
    obtain ⟨nmp, fp, fcp, nsp, esp⟩ := LT.sub_node h2
    have hcell := (inv.rep.cell_of_sub esp).1
    refine ⟨_, hcell, ?_, h3⟩
    have hl := inv.leaf.ofSub p
    rw [esp] at hl h3
    cases hfp : fp
    · rfl
    · have := hl.1 hfp
      rw [this] at h3
      simp [LT.children, LT.spine] at h3

theorem Inv.root_folder {s : FS} {t : LT} (inv : Inv s t) :
    ∃ r rn, s.root = some r ∧ load s.heap r = some rn ∧ rn.isFile = false ∧
      rn.parent = none ∧ r ∈ t.addrs := by
  obtain ⟨r, nm, fc, hr, et⟩ := inv.root
  have := inv.rep
  rw [et] at this
  exact ⟨r, _, hr, this.1, rfl, rfl, by rw [et]; simp [LT.addrs]⟩

theorem LT.lookup_mem {sp : LT} {name : List Nat} {c : Nat} (e : sp.lookup name = some c) :
    c ∈ sp.spine := by
  induction sp with
  | nil => simp [LT.lookup] at e
  | node b nmb fb fcb nsb _ ihns =>
    simp only [LT.lookup] at e
    split at e
    · cases e; simp [LT.spine]
    · simp [LT.spine, ihns e]

/-- The initial state holds the tree made of the root alone. -/
theorem inv_init : Inv initFS (LT.node 0 [114, 111, 111, 116] false LT.nil LT.nil) := by
  refine ⟨⟨0, _, LT.nil, rfl, rfl⟩, ?_, by simp [LT.addrs], ?_, ?_, ?_, ⟨0, _, rfl, rfl, rfl⟩⟩
  · simp only [Rep]
    exact ⟨rfl, trivial, trivial⟩
  rotate_left
  · simp only [LT.Forall, leafAt]
    simp
  · simp only [LT.Forall, sortedAt, LT.kids]
    simp
  intro a ha
  simp only [LT.addrs, List.append_nil, List.mem_singleton] at ha
  have : initFS.heap.length = 1 := rfl
  unfold load
  rw [List.get?_eq_none.mpr (by omega)]
  rfl

theorem create_preserves {s s' : FS} {t : LT} (inv : Inv s t) {isFile : Bool} {parent : Ptr}
    {name : List Nat} {m : Msg} (e : create isFile s parent name = some (m, s')) :
    ∃ t', Inv s' t' := by
  cases parent with
  | none => simp only [create] at e; cases e; exact ⟨t, inv⟩
  | some p =>
    cases hp : load s.heap p with
    | none => simp [create, hp] at e
    | some pn =>
      cases hf : pn.isFile with
      | true =>
        rw [create_notADirectory hp hf] at e
        cases e; exact ⟨t, inv⟩
      | false =>
        cases hl : (t.sub p).children.lookup name with
        | some c =>
          rw [create_nameCollision inv hp hf isFile name hl] at e
          cases e; exact ⟨t, inv⟩
        | none =>
          obtain ⟨h', e', _, inv', _⟩ := create_ok inv hp hf isFile name hl
          rw [e'] at e
          cases e; exact ⟨_, inv'⟩

theorem deleteNode_preserves {s s' : FS} {t : LT} (inv : Inv s t) {node : Ptr} {m : Msg}
    (e : deleteNode s node = some (m, s')) : ∃ t', Inv s' t' := by
  cases node with
  | none => simp only [deleteNode] at e; cases e; exact ⟨t, inv⟩
  | some q =>
    by_cases hr : s.root = some q
    · simp only [deleteNode, hr, if_true] at e
      cases e; exact ⟨t, inv⟩
    · by_cases hc : s.currentDir = some q
      · have hr' : ¬ (some q = s.root) := fun e => hr e.symm
        simp only [deleteNode, hr', hc, if_true, if_false] at e
        cases e; exact ⟨t, inv⟩
      · obtain ⟨c, cn, h1c, h2c, h3c⟩ := inv.cur
        have hcm := inv.mem_of_load h2c
        have hw := ancestorLoop_spec inv.rep inv.nodup hcm q
        have hr' : ¬ (some q = s.root) := fun e => hr e.symm
        have hc' : ¬ (some q = s.currentDir) := fun e => hc e.symm
        have e0 := e
        simp only [deleteNode, hr', hc', if_false] at e
        rw [h1c, hw] at e
        by_cases hp : q ∈ t.path c
        · simp only [hp, decide_True] at e
          cases e; exact ⟨t, inv⟩
        · cases hq : load s.heap q with
          | none =>
            simp [hp, removeFromParent, hq] at e
          | some qn =>
            have hanc : ∀ c', s.currentDir = some c' → ¬ AtOrAbove s.heap q c' := by
              intro c' hc'' 
              rw [h1c] at hc''
              cases hc''
              rw [atOrAbove_iff inv.rep inv.nodup hcm]
              exact hp
            obtain ⟨h', p, e', _, _, _, inv', _⟩ := deleteNode_ok inv hq hr hc hanc
            rw [e'] at e0
            cases e0; exact ⟨_, inv'⟩

theorem moveNode_preserves {s s' : FS} {t : LT} (inv : Inv s t) {src dest : Ptr} {m : Msg}
    (e : moveNode s src dest = some (m, s')) : ∃ t', Inv s' t' := by
  cases src with
  | none => simp only [moveNode] at e; cases e; exact ⟨t, inv⟩
  | some q =>
    cases dest with
    | none => simp only [moveNode] at e; cases e; exact ⟨t, inv⟩
    | some d =>
      by_cases hr : s.root = some q
      · simp only [moveNode, hr, if_true] at e
        cases e; exact ⟨t, inv⟩
      · have hr' : ¬ (some q = s.root) := fun e => hr e.symm
        cases hd : load s.heap d with
        | none => simp [moveNode, hr', hd] at e
        | some dn =>
          cases hq : load s.heap q with
          | none =>
            simp only [moveNode, hr', hd, hq, if_false] at e
            split at e
            · cases e; exact ⟨t, inv⟩
            · cases e
          | some qn =>
            cases hdf : dn.isFile with
            | true =>
              simp only [moveNode, hr', if_false, hd, hq, hdf, if_true] at e
              cases e; exact ⟨t, inv⟩
            | false =>
              have hdm := inv.mem_of_load hd
              have hqm := inv.mem_of_load hq
              have hfind := findChild_spec inv.rep inv.nodup hdm qn.name
              by_cases hnb : AtOrAbove s.heap q d
              · -- the destination lies in the subtree of the source
                have hfolder : qn.isFile = false := by
                  cases hqf : qn.isFile with
                  | false => rfl
                  | true =>
                    exfalso
                    obtain ⟨fcq, nsq, esq, -, -, -⟩ := inv.folder_of_load hq
                    rw [atOrAbove_iff_mem inv.rep inv.nodup hdm, esq] at hnb
                    have hl := inv.leaf.ofSub q
                    rw [esq] at hl
                    have := hl.1 hqf
                    rw [this] at hnb
                    simp only [LT.children, LT.addrs, List.not_mem_nil, or_false] at hnb
                    subst hnb
                    rw [hd] at hq
                    cases hq
                    rw [hdf] at hqf; cases hqf
                have hw := ancestorLoop_spec inv.rep inv.nodup hdm q
                rw [atOrAbove_iff inv.rep inv.nodup hdm] at hnb
                simp only [moveNode, hr', if_false, hd, hq, hdf, hfolder, hw, hnb,
                  decide_True, Bool.false_eq_true] at e
                cases e; exact ⟨t, inv⟩
              · have hwalk : (if qn.isFile = true then some false
                    else ancestorLoop (s.heap.length + 1) s.heap (some d) q) = some false := by
                  split
                  · rfl
                  · rw [ancestorLoop_spec inv.rep inv.nodup hdm]
                    rw [atOrAbove_iff inv.rep inv.nodup hdm] at hnb
                    simp [hnb]
                cases hl : (t.sub d).children.lookup qn.name with
                | some c =>
                  rw [hl] at hfind
                  simp only [moveNode, hr', if_false, hd, hq, hdf, Bool.false_eq_true,
                    hwalk, hfind] at e
                  cases e; exact ⟨t, inv⟩
                | none =>
                  obtain ⟨h', p, e', _, _, _, inv', _⟩ := moveNode_ok inv hq hd hr hdf hnb hl
                  rw [e'] at e
                  cases e; exact ⟨_, inv'⟩

theorem changeDirectory_preserves {s s' : FS} {t : LT} (inv : Inv s t) {name : List Nat}
    {m : Msg} (e : changeDirectory s name = some (m, s')) : Inv s' t := by
  obtain ⟨c, cn, h1c, h2c, h3c⟩ := inv.cur
  have hset : ∀ x xn, load s.heap x = some xn → xn.isFile = false →
      Inv { s with currentDir := some x } t := fun x xn hx hxf =>
    ⟨inv.root, inv.rep, inv.nodup, inv.dead, inv.leaf, inv.sorted, ⟨x, xn, rfl, hx, hxf⟩⟩
  simp only [changeDirectory, h1c] at e
  split at e
  · -- ".."
    simp only [h2c] at e
    split at e
    · rename_i p hp
      split at e
      · cases e
      · cases e
        obtain ⟨pn, h1p, h2p, _⟩ := inv.parent_folder h2c hp
        exact hset p pn h1p h2p
    · cases e; exact inv
  · split at e
    · -- "/"
      split at e
      · cases e
      · cases e
        obtain ⟨r, rn, h1r, h2r, h3r, _⟩ := inv.root_folder
        have := hset r rn h2r h3r
        rw [← h1r] at this
        exact this
    · split at e
      · cases e
      · cases e; exact inv
      · rename_i ch hch
        split at e
        · cases e
        · rename_i chn hchn
          split at e
          · cases e; exact inv
          · rename_i hnf
            split at e
            · cases e
            · cases e
              exact hset ch chn hchn (by simpa using hnf)

/-- Every reachable state holds a well-formed tree. -/
theorem Reachable.inv {s : FS} (hs : Reachable s) : ∃ t, Inv s t := by
  induction hs with
  | init => exact ⟨_, inv_init⟩
  | step _ hstep ih =>
    obtain ⟨t, inv⟩ := ih
    cases hstep with
    | createFolder parent name e => exact create_preserves inv e
    | createFile parent name e => exact create_preserves inv e
    | deleteNode node e => exact deleteNode_preserves inv e
    | moveNode src dest e => exact moveNode_preserves inv e
    | changeDirectory name e => exact ⟨t, changeDirectory_preserves inv e⟩


/-! ## The child sequence read from the heap -/

theorem LT.mem_atNode_self {t : LT} {p : Nat} (hp : p ∈ t.addrs) (g : LT → LT) :
    p ∈ (t.atNode p g).addrs := by
  induction t with
  | nil => simp [LT.addrs] at hp
  | node b nm f fc ns ihfc ihns =>
    simp only [LT.addrs, List.mem_cons, List.mem_append] at hp
    simp only [LT.atNode]
    split
    · rename_i hb; simp [LT.addrs, hb]
    · simp only [LT.addrs, List.mem_cons, List.mem_append]
      rcases hp with h1 | h1 | h1
      · exact Or.inl h1
      · exact Or.inr (Or.inl (ihfc h1))
      · exact Or.inr (Or.inr (ihns h1))

theorem LT.sub_atNode_self {t : LT} {p : Nat} (hp : p ∈ t.addrs) (g : LT → LT)
    {nm : List Nat} {f : Bool} {fc ns : LT} (e : t.sub p = LT.node p nm f fc ns) :
    (t.atNode p g).sub p = LT.node p nm f (g fc) ns := by
  induction t with
  | nil => simp [LT.addrs] at hp
  | node b nmb fb fcb nsb ihfc ihns =>
    simp only [LT.addrs, List.mem_cons, List.mem_append] at hp
    by_cases hb : b = p
    · subst hb
      simp only [LT.sub, if_true] at e
      cases e
      simp [LT.atNode, LT.sub]
    · simp only [LT.atNode, hb, if_false, LT.sub]
      simp only [LT.sub, hb, if_false] at e
      by_cases hfc : p ∈ fcb.addrs
      · simp only [hfc, if_true] at e
        simp only [LT.mem_atNode_self hfc g, if_true]
        exact ihfc hfc e
      · simp only [hfc, if_false] at e
        have hns : p ∈ nsb.addrs := by
          rcases hp with h1 | h1 | h1
          · exact absurd h1.symm hb
          · exact absurd h1 hfc
          · exact h1
        rw [LT.atNode_of_not_mem g hfc]
        simp only [hfc, if_false]
        exact ihns hns e

theorem siblingsFrom_spec {h : Heap} {par : Ptr} {sp : LT} (r : Rep h par sp) {fuel : Nat}
    (hf : sp.spine.length < fuel) :
    ∃ l, siblingsFrom fuel h sp.ptr = some l ∧ l.map (fun x => x.1) = sp.spine ∧
      l.map entryOf = sp.kids ∧ ∀ x ∈ l, load h x.1 = some x.2 ∧ x.2.parent = par := by
  induction sp generalizing fuel with
  | nil =>
    cases fuel with
    | zero => simp at hf
    | succ k => exact ⟨[], by simp [siblingsFrom, LT.ptr_nil], rfl, rfl, by simp⟩
  | node b nm f fc ns _ ihns =>
    cases fuel with
    | zero => simp at hf
    | succ k =>
      simp only [LT.spine, List.length_cons] at hf
      obtain ⟨l, e, h1, h2, h3⟩ := @ihns r.2.2 k (by omega)
      refine ⟨(b, ⟨nm, f, par, fc.ptr, ns.ptr⟩) :: l, ?_, ?_, ?_, ?_⟩
      · simp [siblingsFrom, LT.ptr_node, r.1, e]
      · simp [LT.spine, h1]
      · simp [LT.kids, h2, entryOf]
      · intro x hx
        simp only [List.mem_cons] at hx
        rcases hx with rfl | hx
        · exact ⟨r.1, rfl⟩
        · exact h3 x hx

/-- In a well-formed state the child sequence of an allocated entry is the
sibling chain of its children in the tree. -/
theorem childList_spec {h : Heap} {t : LT} (r : Rep h none t) (nd : t.addrs.Nodup) {p : Nat}
    (hp : p ∈ t.addrs) :
    ∃ l, childList h (some p) = some l ∧ l.map (fun x => x.1) = (t.sub p).children.spine ∧
      l.map entryOf = (t.sub p).children.kids ∧
      ∀ x ∈ l, load h x.1 = some x.2 ∧ x.2.parent = some p := by
  obtain ⟨nm, f, fc, ns, e⟩ := LT.sub_node hp
  have rs := r.toSub p
  have nds := LT.sub_nodup nd p
  rw [e] at rs nds
  have ndc : fc.addrs.Nodup := LT.children_nodup nds
  have hfuel : fc.spine.length < h.length + 1 := by
    have := LT.spine_length_le fc
    have := Rep.size_le rs.2.1 ndc
    omega
  obtain ⟨l, e1, h1, h2, h3⟩ := siblingsFrom_spec rs.2.1 hfuel
  exact ⟨l, by simp only [childList, rs.1]; exact e1, by rw [e]; exact h1, by rw [e]; exact h2, h3⟩

theorem LT.children_spine_iff {h : Heap} {t : LT} (r : Rep h none t) (nd : t.addrs.Nodup)
    (d x : Nat) :
    x ∈ (t.sub d).children.spine ↔ x ∈ t.addrs ∧ t.parOf x none = some d := by
  constructor
  · intro hx
    have hxt : x ∈ t.addrs := LT.sub_children_subset x (LT.spine_subset _ x hx)
    refine ⟨hxt, ?_⟩
    cases e : t.sub d with
    | nil => rw [e] at hx; simp [LT.children, LT.spine] at hx
    | node b nm f fc ns =>
      have rs := r.toSub d
      rw [e] at rs hx
      have hb : b = d := by
        by_cases hd : d ∈ t.addrs
        · obtain ⟨_, _, _, _, e'⟩ := LT.sub_node hd
          rw [e] at e'; cases e'; rfl
        · rw [LT.sub_of_not_mem hd] at e; cases e
      subst hb
      obtain ⟨n, hn, hpar⟩ := rs.2.1.spine_parent hx
      rw [← r.parent_eq hxt hn, hpar]
  · rintro ⟨hxt, hpar⟩
    rcases LT.parOf_spec nd hxt none with ⟨_, h2⟩ | ⟨p, h1, _, h3⟩
    · rw [hpar] at h2; cases h2
    · rw [hpar] at h1; cases h1; exact h3

theorem LT.lookup_eq_none_iff {sp : LT} {name : List Nat} :
    sp.lookup name = none ↔ ∀ e ∈ sp.kids, e.2 ≠ name := by
  induction sp with
  | nil => simp [LT.lookup, LT.kids]
  | node b nmb fb fcb nsb _ ihns =>
    simp only [LT.lookup, LT.kids, List.mem_cons, forall_eq_or_imp]
    by_cases h0 : strcmp nmb name = 0
    · simp [h0, strcmp_eq_zero.mp h0, strcmp_self]
    · have : nmb ≠ name := fun e => h0 (strcmp_eq_zero.mpr e)
      simp [h0, this, ihns]

theorem LT.lookup_insertSib {c : Nat} {nm : List Nat} {f : Bool} {k sp : LT}
    (hfree : sp.lookup nm = none) : (LT.insertSib c nm f k sp).lookup nm = some c := by
  induction sp with
  | nil => simp [LT.insertSib, LT.lookup, strcmp_self]
  | node b nmb fb fcb nsb _ ihns =>
    simp only [LT.lookup] at hfree
    split at hfree
    · cases hfree
    · rename_i h0
      simp only [LT.insertSib]
      split
      · simp [LT.lookup, strcmp_self]
      · simp [LT.lookup, h0, ihns hfree]

theorem Rep.insertSib_cell {h : Heap} {par : Ptr} {c : Nat} {nm : List Nat} {f : Bool}
    {k sp : LT} (r : Rep h par (LT.insertSib c nm f k sp)) :
    ∃ nx, load h c = some ⟨nm, f, par, k.ptr, nx⟩ ∧ Rep h (some c) k := by
  induction sp with
  | nil => exact ⟨_, r.1, r.2.1⟩
  | node b nmb fb fcb nsb _ ihns =>
    simp only [LT.insertSib] at r
    split at r
    · exact ⟨_, r.1, r.2.1⟩
    · exact ihns r.2.2

theorem LT.sorted_pairwise {sp : LT} (hs : sp.Forall sortedAt) : sp.kids.Pairwise entryLe := by
  induction sp with
  | nil => simp [LT.kids]
  | node b nmb fb fcb nsb _ ihns =>
    simp only [LT.kids, List.pairwise_cons]
    exact ⟨hs.1, ihns hs.2.2⟩

theorem LT.Forall.children {P : Nat → List Nat → Bool → LT → LT → Prop} {t : LT}
    (hF : t.Forall P) : t.children.Forall P := by
  cases t with
  | nil => trivial
  | node b nm f fc ns => exact hF.2.1


/-! ## Reachability through child and sibling links -/

theorem Rep.reach_of_mem {h : Heap} {par : Ptr} {t : LT} (r : Rep h par t) {x : Nat}
    (hx : x ∈ t.addrs) : ∃ a, t.ptr = some a ∧ Relation.ReflTransGen (Links h) a x := by
  induction t generalizing par with
  | nil => simp [LT.addrs] at hx
  | node b nm f fc ns ihfc ihns =>
    simp only [LT.addrs, List.mem_cons, List.mem_append] at hx
    refine ⟨b, rfl, ?_⟩
    rcases hx with rfl | hx | hx
    · exact Relation.ReflTransGen.refl
    · obtain ⟨a, ha, hr⟩ := ihfc r.2.1 hx
      exact Relation.ReflTransGen.head ⟨_, r.1, Or.inl ha⟩ hr
    · obtain ⟨a, ha, hr⟩ := ihns r.2.2 hx
      exact Relation.ReflTransGen.head ⟨_, r.1, Or.inr ha⟩ hr

theorem LT.ptr_mem {t : LT} {a : Nat} (e : t.ptr = some a) : a ∈ t.addrs := by
  cases t with
  | nil => cases e
  | node b nm f fc ns =>
    simp only [LT.ptr_node, Option.some.injEq] at e
    simp [LT.addrs, e]

theorem Rep.links_closed {h : Heap} {t : LT} (r : Rep h none t) {a b : Nat} (ha : a ∈ t.addrs)
    (hl : Links h a b) : b ∈ t.addrs := by
  obtain ⟨n, hn, hb⟩ := hl
  obtain ⟨nm, f, fc, ns, e⟩ := LT.sub_node ha
  have hc := (r.cell_of_sub e).1
  rw [hn] at hc
  cases hc
  apply LT.sub_addrs (p := a)
  rw [e]
  simp only [LT.addrs, List.mem_cons, List.mem_append]
  rcases hb with hb | hb
  · exact Or.inr (Or.inl (LT.ptr_mem hb))
  · exact Or.inr (Or.inr (LT.ptr_mem hb))

/-- In a well-formed state the entries reached from `root` are the nodes of the tree. -/
theorem Inv.reach_iff {s : FS} {t : LT} (inv : Inv s t) (x : Nat) :
    ReachableFrom s.heap s.root x ↔ x ∈ t.addrs := by
  obtain ⟨r, nm, fc, hr, et⟩ := inv.root
  constructor
  · rintro ⟨r0, h0, hreach⟩
    rw [hr] at h0
    cases h0
    have hrm : r ∈ t.addrs := by rw [et]; simp [LT.addrs]
    induction hreach with
    | refl => exact hrm
    | tail _ hl ih => exact inv.rep.links_closed ih hl
  · intro hx
    obtain ⟨a, ha, hreach⟩ := inv.rep.reach_of_mem hx
    rw [et] at ha
    simp only [LT.ptr_node, Option.some.injEq] at ha
    rw [← ha] at hreach
    exact ⟨r, hr, hreach⟩

/-- A node of the tree is not among the nodes below itself. -/
theorem LT.not_below_self {t : LT} (nd : t.addrs.Nodup) (c : Nat) :
    c ∉ (t.sub c).children.addrs := by
  have := LT.sub_nodup nd c
  cases e : t.sub c with
  | nil => simp [LT.children, LT.addrs]
  | node b nm f fc ns =>
    rw [e] at this
    have hb : b = c := by
      by_cases hc : c ∈ t.addrs
      · obtain ⟨_, _, _, _, e'⟩ := LT.sub_node hc
        rw [e] at e'; cases e'; rfl
      · rw [LT.sub_of_not_mem hc] at e; cases e
    subst hb
    simp only [LT.addrs, List.nodup_cons, List.mem_append, not_or] at this
    exact this.1.1

/-- In a well-formed state a proper ancestor of `c` is at or above `c` and differs from `c`. -/
theorem Inv.ancestor_ne {s : FS} {t : LT} (inv : Inv s t) {q c : Nat}
    (h : Ancestor s.heap q c) : q ≠ c ∧ AtOrAbove s.heap q c := by
  refine ⟨?_, Relation.TransGen.to_reflTransGen h⟩
  rintro rfl
  unfold Ancestor at h
  obtain ⟨p, ⟨n, hn, hp⟩, hreach⟩ := Relation.TransGen.head'_iff.mp h
  have hqm := inv.mem_of_load hn
  obtain ⟨pn, hpn, _, hqs⟩ := inv.parent_folder hn hp
  have hpm := inv.mem_of_load hpn
  have h1 : AtOrAbove s.heap q p := hreach
  rw [atOrAbove_iff_mem inv.rep inv.nodup hpm] at h1
  have hqC : q ∈ (t.sub p).children.addrs := LT.spine_subset _ q hqs
  rcases h1 with h1 | h1
  · subst h1
    exact LT.not_below_self inv.nodup p hqC
  · -- `p` lies below `q`, and `q` below `p`
    have e1 : (t.sub q).children.sub p = t.sub p := LT.children_sub inv.nodup h1
    have h2 : q ∈ (t.sub q).children.addrs := by
      apply LT.sub_addrs (p := p)
      rw [e1]
      exact LT.children_subset q hqC
    exact LT.not_below_self inv.nodup q h2


/-! ## Distinct names among siblings -/

theorem LT.pairs_kids (sp : LT) : sp.pairs.map (fun y => y.2) = sp.kids := by
  induction sp with
  | nil => rfl
  | node b nm f fc ns _ ih => simp [LT.pairs, LT.kids, ih]

theorem LT.pairs_spine (sp : LT) : sp.pairs.map (fun y => y.1) = sp.spine := by
  induction sp with
  | nil => rfl
  | node b nm f fc ns _ ih => simp [LT.pairs, LT.spine, ih]

theorem LT.mem_pairs_insertSib (c : Nat) (nm : List Nat) (f : Bool) (k sp : LT)
    (y : Nat × (Bool × List Nat)) :
    y ∈ (LT.insertSib c nm f k sp).pairs ↔ y = (c, (f, nm)) ∨ y ∈ sp.pairs := by
  induction sp with
  | nil => simp [LT.insertSib, LT.pairs]
  | node b nmb fb fcb nsb _ ihns =>
    simp only [LT.insertSib]
    split
    · simp [LT.pairs]
    · simp only [LT.pairs, List.mem_cons, ihns]
      tauto

theorem Rep.pairs_cell {h : Heap} {par : Ptr} {sp : LT} (r : Rep h par sp) :
    ∀ y ∈ sp.pairs, ∃ n, load h y.1 = some n ∧ y.2 = (n.isFile, n.name) := by
  induction sp with
  | nil => simp [LT.pairs]
  | node b nm f fc ns _ ihns =>
    intro y hy
    simp only [LT.pairs, List.mem_cons] at hy
    rcases hy with rfl | hy
    · exact ⟨_, r.1, rfl⟩
    · exact ihns r.2.2 y hy

theorem LT.insertSib_unique {c : Nat} {nm : List Nat} {f : Bool} {k sp : LT}
    (hs : sp.Forall uniqueAt) (hk : k.Forall uniqueAt) (hfree : ∀ e ∈ sp.kids, e.2 ≠ nm) :
    (LT.insertSib c nm f k sp).Forall uniqueAt := by
  induction sp with
  | nil => exact ⟨by simp [uniqueAt, LT.kids], hk, trivial⟩
  | node b nmb fb fcb nsb _ ihns =>
    simp only [LT.insertSib]
    split
    · exact ⟨hfree, hk, hs⟩
    · refine ⟨?_, hs.2.1, ihns hs.2.2 (fun e he => hfree e (by simp [LT.kids, he]))⟩
      intro e he
      rw [LT.mem_kids_insertSib] at he
      rcases he with rfl | he
      · exact (hfree (fb, nmb) (by simp [LT.kids])).symm
      · exact hs.1 e he

theorem LT.removeSib_unique {q : Nat} {sp : LT} (hs : sp.Forall uniqueAt) :
    (LT.removeSib q sp).Forall uniqueAt := by
  induction sp with
  | nil => trivial
  | node b nmb fb fcb nsb _ ihns =>
    simp only [LT.removeSib]
    split
    · exact hs.2.2
    · exact ⟨fun e he => hs.1 e (LT.kids_removeSib_subset q nsb e he), hs.2.1, ihns hs.2.2⟩

theorem LT.atNode_unique {t : LT} (hF : t.Forall uniqueAt) (nd : t.addrs.Nodup) {p : Nat}
    (hp : p ∈ t.addrs) (g : LT → LT)
    (hg : ∀ nm f fc ns, t.sub p = LT.node p nm f fc ns → fc.Forall uniqueAt →
      (g fc).Forall uniqueAt) :
    (t.atNode p g).Forall uniqueAt := by
  apply hF.ofAtNode nd hp
  · intro a nm f fc ns _ h
    simp only [uniqueAt, LT.atNode_kids] at h ⊢
    exact h
  · intro nm f fc ns e h hfc
    exact ⟨h, hg nm f fc ns e hfc⟩

theorem LT.unique_pairwise {sp : LT} (hs : sp.Forall uniqueAt) :
    sp.kids.Pairwise (fun x y => x.2 ≠ y.2) := by
  induction sp with
  | nil => simp [LT.kids]
  | node b nmb fb fcb nsb _ ihns =>
    simp only [LT.kids, List.pairwise_cons]
    exact ⟨fun e he => (hs.1 e he).symm, ihns hs.2.2⟩

/-- The outcomes of `createFolder` and `createFile` in a well-formed state. -/
theorem create_cases {s s' : FS} {t : LT} (inv : Inv s t) {isFile : Bool} {parent : Ptr}
    {name : List Nat} {m : Msg} (e : create isFile s parent name = some (m, s')) :
    s' = s ∨ ∃ p, p ∈ t.addrs ∧ (t.sub p).children.lookup name = none ∧
      Inv s' (t.atNode p
        (LT.insertSib s.heap.length (name.take (MAX_NAME_LENGTH - 1)) isFile LT.nil)) := by
  cases parent with
  | none => simp only [create] at e; cases e; exact Or.inl rfl
  | some p =>
    cases hp : load s.heap p with
    | none => simp [create, hp] at e
    | some pn =>
      cases hf : pn.isFile with
      | true =>
        rw [create_notADirectory hp hf] at e
        cases e; exact Or.inl rfl
      | false =>
        cases hl : (t.sub p).children.lookup name with
        | some c =>
          rw [create_nameCollision inv hp hf isFile name hl] at e
          cases e; exact Or.inl rfl
        | none =>
          obtain ⟨h', e', _, inv', _⟩ := create_ok inv hp hf isFile name hl
          rw [e'] at e
          cases e; exact Or.inr ⟨p, inv.mem_of_load hp, hl, inv'⟩

theorem create_unique {s s' : FS} {t : LT} (inv : Inv s t) (hu : t.Forall uniqueAt)
    {isFile : Bool} {parent : Ptr} {name : List Nat} {m : Msg}
    (hlen : name.length < MAX_NAME_LENGTH)
    (e : create isFile s parent name = some (m, s')) :
    ∃ t', Inv s' t' ∧ t'.Forall uniqueAt := by
  rcases create_cases inv e with rfl | ⟨p, hpm, hl, inv'⟩
  · exact ⟨t, inv, hu⟩
  · refine ⟨_, inv', LT.atNode_unique hu inv.nodup hpm _ ?_⟩
    intro nm f fc ns es hfc
    have htake : name.take (MAX_NAME_LENGTH - 1) = name := by
      apply List.take_of_length_le
      simp only [MAX_NAME_LENGTH] at hlen ⊢
      omega
    rw [htake]
    rw [es] at hl
    exact LT.insertSib_unique hfc trivial (LT.lookup_eq_none_iff.mp hl)

theorem deleteNode_unique {s s' : FS} {t : LT} (inv : Inv s t) (hu : t.Forall uniqueAt)
    {node : Ptr} {m : Msg} (e : deleteNode s node = some (m, s')) :
    ∃ t', Inv s' t' ∧ t'.Forall uniqueAt := by
  cases node with
  | none => simp only [deleteNode] at e; cases e; exact ⟨t, inv, hu⟩
  | some q =>
    by_cases hr : s.root = some q
    · simp only [deleteNode, hr, if_true] at e
      cases e; exact ⟨t, inv, hu⟩
    · by_cases hc : s.currentDir = some q
      · have hr' : ¬ (some q = s.root) := fun e => hr e.symm
        simp only [deleteNode, hr', hc, if_true, if_false] at e
        cases e; exact ⟨t, inv, hu⟩
      · obtain ⟨c, cn, h1c, h2c, h3c⟩ := inv.cur
        have hcm := inv.mem_of_load h2c
        have hw := ancestorLoop_spec inv.rep inv.nodup hcm q
        have hr' : ¬ (some q = s.root) := fun e => hr e.symm
        have hc' : ¬ (some q = s.currentDir) := fun e => hc e.symm
        have e0 := e
        simp only [deleteNode, hr', hc', if_false] at e
        rw [h1c, hw] at e
        by_cases hp : q ∈ t.path c
        · simp only [hp, decide_True] at e
          cases e; exact ⟨t, inv, hu⟩
        · cases hq : load s.heap q with
          | none =>
            simp [hp, removeFromParent, hq] at e
          | some qn =>
            have hanc : ∀ c', s.currentDir = some c' → ¬ AtOrAbove s.heap q c' := by
              intro c' hc''
              rw [h1c] at hc''
              cases hc''
              rw [atOrAbove_iff inv.rep inv.nodup hcm]
              exact hp
            obtain ⟨h', p, e', _, hpm, _, inv', _⟩ := deleteNode_ok inv hq hr hc hanc
            rw [e'] at e0
            cases e0
            exact ⟨_, inv', LT.atNode_unique hu inv.nodup hpm _
              (fun _ _ _ _ _ hfc => LT.removeSib_unique hfc)⟩


/-- A file is at or above no entry but itself, so no folder lies in its subtree. -/
theorem Inv.not_below_file {s : FS} {t : LT} (inv : Inv s t) {q d : Nat} {qn dn : Node}
    (hq : load s.heap q = some qn) (hd : load s.heap d = some dn) (hqf : qn.isFile = true)
    (hdf : dn.isFile = false) : ¬ AtOrAbove s.heap q d := by
  intro hnb
  have hdm := inv.mem_of_load hd
  obtain ⟨fcq, nsq, esq, -, -, -⟩ := inv.folder_of_load hq
  rw [atOrAbove_iff_mem inv.rep inv.nodup hdm, esq] at hnb
  have hl := inv.leaf.ofSub q
  rw [esq] at hl
  have := hl.1 hqf
  rw [this] at hnb
  simp only [LT.children, LT.addrs, List.not_mem_nil, or_false] at hnb
  subst hnb
  rw [hd] at hq
  cases hq
  rw [hdf] at hqf; cases hqf

/-- The outcomes of `moveNode` in a well-formed state. -/
theorem moveNode_cases {s s' : FS} {t : LT} (inv : Inv s t) {src dest : Ptr} {m : Msg}
    (e : moveNode s src dest = some (m, s')) :
    s' = s ∨ ∃ q d qn dn p h', load s.heap q = some qn ∧ load s.heap d = some dn ∧
      ¬ AtOrAbove s.heap q d ∧ (t.sub d).children.lookup qn.name = none ∧
      p ∈ t.addrs ∧ q ∈ (t.sub p).children.spine ∧ s' = { s with heap := h' } ∧
      Inv s' ((t.atNode p (LT.removeSib q)).atNode d
        (LT.insertSib q qn.name qn.isFile (t.sub q).children)) ∧
      Keeps s.heap h' (keepsMove p d q) := by
  cases src with
  | none => simp only [moveNode] at e; cases e; exact Or.inl rfl
  | some q =>
    cases dest with
    | none => simp only [moveNode] at e; cases e; exact Or.inl rfl
    | some d =>
      by_cases hr : s.root = some q
      · simp only [moveNode, hr, if_true] at e
        cases e; exact Or.inl rfl
      · have hr' : ¬ (some q = s.root) := fun e => hr e.symm
        cases hd : load s.heap d with
        | none => simp [moveNode, hr', hd] at e
        | some dn =>
          cases hq : load s.heap q with
          | none =>
            simp only [moveNode, hr', hd, hq, if_false] at e
            split at e
            · cases e; exact Or.inl rfl
            · cases e
          | some qn =>
            cases hdf : dn.isFile with
            | true =>
              simp only [moveNode, hr', if_false, hd, hq, hdf, if_true] at e
              cases e; exact Or.inl rfl
            | false =>
              have hdm := inv.mem_of_load hd
              have hqm := inv.mem_of_load hq
              have hfind := findChild_spec inv.rep inv.nodup hdm qn.name
              by_cases hnb : AtOrAbove s.heap q d
              · have hfolder : qn.isFile = false := by
                  cases hqf : qn.isFile with
                  | false => rfl
                  | true => exact absurd hnb (inv.not_below_file hq hd hqf hdf)
                have hw := ancestorLoop_spec inv.rep inv.nodup hdm q
                rw [atOrAbove_iff inv.rep inv.nodup hdm] at hnb
                simp only [moveNode, hr', if_false, hd, hq, hdf, hfolder, hw, hnb,
                  decide_True, Bool.false_eq_true] at e
                cases e; exact Or.inl rfl
              · have hwalk : (if qn.isFile = true then some false
                    else ancestorLoop (s.heap.length + 1) s.heap (some d) q) = some false := by
                  split
                  · rfl
                  · rw [ancestorLoop_spec inv.rep inv.nodup hdm]
                    have hnb' := hnb
                    rw [atOrAbove_iff inv.rep inv.nodup hdm] at hnb'
                    simp [hnb']
                cases hl : (t.sub d).children.lookup qn.name with
                | some c =>
                  rw [hl] at hfind
                  simp only [moveNode, hr', if_false, hd, hq, hdf, Bool.false_eq_true,
                    hwalk, hfind] at e
                  cases e; exact Or.inl rfl
                | none =>
                  obtain ⟨h', p, e', _, hpm, hqs, inv', _, hkeep, _⟩ :=
                    moveNode_ok inv hq hd hr hdf hnb hl
                  rw [e'] at e
                  cases e
                  exact Or.inr ⟨q, d, qn, dn, p, h', hq, hd, hnb, hl, hpm, hqs, rfl, inv', hkeep⟩

/-- After a successful move of `q` into `d`, the children `d` had before carry
names other than that of `q`. -/
theorem moveNode_dest_fresh {s : FS} {t : LT} (inv : Inv s t) {q d p : Nat} {qn dn : Node}
    {h' : Heap} (hd : load s.heap d = some dn)
    (hnb : ¬ AtOrAbove s.heap q d) (hl : (t.sub d).children.lookup qn.name = none)
    (hpm : p ∈ t.addrs) (hqs : q ∈ (t.sub p).children.spine)
    (inv2 : Inv { s with heap := h' } ((t.atNode p (LT.removeSib q)).atNode d
      (LT.insertSib q qn.name qn.isFile (t.sub q).children)))
    (hkeep : Keeps s.heap h' (keepsMove p d q)) {nm0 : List Nat} {f0 : Bool} {fc0 ns0 : LT}
    (es0 : (t.atNode p (LT.removeSib q)).sub d = LT.node d nm0 f0 fc0 ns0) :
    ∀ e ∈ fc0.kids, e.2 ≠ qn.name := by
  have hdm := inv.mem_of_load hd
  obtain ⟨nd1, -, -, hmem1⟩ := LT.remove_tree inv.nodup inv.leaf inv.sorted hpm hqs
  have hdq : ¬ (d = q ∨ d ∈ (t.sub q).children.addrs) := by
    rw [atOrAbove_iff_mem inv.rep inv.nodup hdm] at hnb
    exact hnb
  have hd1m : d ∈ (t.atNode p (LT.removeSib q)).addrs := (hmem1 d).mpr ⟨hdm, hdq⟩
  intro e he
  -- the node `x` that carries the entry `e`
  rw [← LT.pairs_kids, List.mem_map] at he
  obtain ⟨⟨x, e'⟩, hy, rfl⟩ := he
  have hxs : x ∈ fc0.spine := by
    rw [← LT.pairs_spine, List.mem_map]; exact ⟨_, hy, rfl⟩
  have hx1 : x ∈ (t.atNode p (LT.removeSib q)).addrs := by
    apply LT.sub_children_subset (p := d)
    rw [es0]
    exact LT.spine_subset _ x hxs
  have hxt := ((hmem1 x).mp hx1).1
  have hxq : x ≠ q := fun hh => ((hmem1 x).mp hx1).2 (Or.inl hh)
  -- its cell after the move
  have es2 := LT.sub_atNode_self hd1m
    (LT.insertSib q qn.name qn.isFile (t.sub q).children) es0
  have r2 := (inv2.rep.cell_of_sub es2).2
  obtain ⟨n3, hn3, he3⟩ := r2.pairs_cell (x, e')
    ((LT.mem_pairs_insertSib _ _ _ _ _ _).mpr (Or.inr hy))
  have hx2s : x ∈ (LT.insertSib q qn.name qn.isFile (t.sub q).children fc0).spine := by
    rw [← LT.pairs_spine, List.mem_map]
    exact ⟨_, (LT.mem_pairs_insertSib _ _ _ _ _ _).mpr (Or.inr hy), rfl⟩
  have hpar2 : x ∈ (((t.atNode p (LT.removeSib q)).atNode d
      (LT.insertSib q qn.name qn.isFile (t.sub q).children)).sub d).children.spine := by
    rw [es2]; exact hx2s
  have hp2 := (LT.children_spine_iff inv2.rep inv2.nodup d x).mp hpar2
  have hn3p : n3.parent = some d := by
    rw [inv2.rep.parent_eq hp2.1 hn3]; exact hp2.2
  -- its cell before the move
  obtain ⟨n, hn⟩ := inv.rep.live hxt
  obtain ⟨n', hn', k1, _, k3, _⟩ := hkeep x n hn
  have hnn : n' = n3 := by
    have : load h' x = some n3 := hn3
    rw [hn'] at this; cases this; rfl
  subst hnn
  have hnp : t.parOf x none = some d := by
    rw [← inv.rep.parent_eq hxt hn, ← k3 hxq]; exact hn3p
  have hxd : x ∈ (t.sub d).children.spine :=
    (LT.children_spine_iff inv.rep inv.nodup d x).mpr ⟨hxt, hnp⟩
  rw [← LT.pairs_spine, List.mem_map] at hxd
  obtain ⟨⟨x0, e0⟩, hy0, hx0⟩ := hxd
  simp only at hx0
  subst hx0
  obtain ⟨nmd, fd, fcd, nsd, esd⟩ := LT.sub_node hdm
  have rd := (inv.rep.cell_of_sub esd).2
  rw [esd] at hy0 hl
  simp only [LT.children] at hy0 hl
  obtain ⟨n0, hn0, he0⟩ := rd.pairs_cell _ hy0
  simp only at hn0 he0
  rw [hn] at hn0
  cases hn0
  have hne := LT.lookup_eq_none_iff.mp hl e0 (by
    rw [← LT.pairs_kids, List.mem_map]; exact ⟨_, hy0, rfl⟩)
  simp only at he3
  rw [he0] at hne
  rw [he3]
  simp only at hne ⊢
  rw [k1]
  exact hne

theorem moveNode_unique {s s' : FS} {t : LT} (inv : Inv s t) (hu : t.Forall uniqueAt)
    {src dest : Ptr} {m : Msg} (e : moveNode s src dest = some (m, s')) :
    ∃ t', Inv s' t' ∧ t'.Forall uniqueAt := by
  rcases moveNode_cases inv e with rfl | ⟨q, d, qn, dn, p, h', hq, hd, hnb, hl, hpm, hqs, rfl,
    inv2, hkeep⟩
  · exact ⟨t, inv, hu⟩
  · refine ⟨_, inv2, ?_⟩
    have hdm := inv.mem_of_load hd
    obtain ⟨nd1, -, -, hmem1⟩ := LT.remove_tree inv.nodup inv.leaf inv.sorted hpm hqs
    have hdq : ¬ (d = q ∨ d ∈ (t.sub q).children.addrs) := by
      rw [atOrAbove_iff_mem inv.rep inv.nodup hdm] at hnb
      exact hnb
    have hd1m : d ∈ (t.atNode p (LT.removeSib q)).addrs := (hmem1 d).mpr ⟨hdm, hdq⟩
    have hu1 : (t.atNode p (LT.removeSib q)).Forall uniqueAt :=
      LT.atNode_unique hu inv.nodup hpm _ (fun _ _ _ _ _ hfc => LT.removeSib_unique hfc)
    apply LT.atNode_unique hu1 nd1 hd1m
    intro nm0 f0 fc0 ns0 es0 hfc0
    exact LT.insertSib_unique hfc0 (hu.ofSub q).children
      (moveNode_dest_fresh inv hd hnb hl hpm hqs inv2 hkeep es0)


/-! ## The states of the scenario -/

theorem reachable_stDocs : Reachable stDocs :=
  Reachable.step Reachable.init
    (@Step.createFolder initFS stDocs Msg.ok (some 0) nameDocs (by decide))

theorem reachable_stDocsA : Reachable stDocsA :=
  Reachable.step reachable_stDocs
    (@Step.createFile stDocs stDocsA Msg.ok (some 1) nameA (by decide))

theorem reachable_stDocsAB : Reachable stDocsAB :=
  Reachable.step reachable_stDocsA
    (@Step.createFile stDocsA stDocsAB Msg.ok (some 1) nameB (by decide))

theorem reachable_stScenario : Reachable stScenario :=
  Reachable.step reachable_stDocsAB
    (@Step.createFile stDocsAB stScenario Msg.ok (some 0) nameReadme (by decide))

theorem reachable_stDocsSub : Reachable stDocsSub :=
  Reachable.step reachable_stDocs
    (@Step.createFolder stDocs stDocsSub Msg.ok (some 1) nameSub (by decide))

theorem reachable_stInDocs : Reachable stInDocs :=
  Reachable.step reachable_stDocsSub
    (@Step.changeDirectory stDocsSub stInDocs Msg.ok nameDocs (by decide))

theorem reachable_stDeep : Reachable stDeep :=
  Reachable.step reachable_stInDocs
    (@Step.changeDirectory stInDocs stDeep Msg.ok nameSub (by decide))

theorem reachable_stLong2 : Reachable stLong2 :=
  Reachable.step
    (Reachable.step Reachable.init
      (@Step.createFolder initFS stLong1 Msg.ok (some 0) nameLong (by decide)))
    (@Step.createFolder stLong1 stLong2 Msg.ok (some 0) nameLong (by decide))

/-! ## The claims -/

/-- C1. Sibling ordering invariant: in every state reached from the tree that
holds only the root by calls of `createFolder`, `createFile`, `moveNode`,
`deleteNode` (and `changeDirectory`), the child sequence of every allocated
entry exists and is ordered: a file is followed by files only (all folders
come before all files), and two children of the same kind stand in ascending
`strcmp` order of their names. -/
theorem sibling_order_invariant (s : FS) (hs : Reachable s) (p : Nat) (pn : Node)
    (hp : load s.heap p = some pn) :
    ∃ l, childList s.heap (some p) = some l ∧ (l.map entryOf).Pairwise entryLe := by
  obtain ⟨t, inv⟩ := hs.inv
  have hpm := inv.mem_of_load hp
  obtain ⟨l, hl, _, hk, _⟩ := childList_spec inv.rep inv.nodup hpm
  refine ⟨l, hl, ?_⟩
  rw [hk]
  exact LT.sorted_pairwise (inv.sorted.ofSub p).children

/-- Witness of C1: the scenario tree, whose root holds `"docs"` before `"readme.md"`. -/
theorem sibling_order_invariant_witness :
    load stScenario.heap 0 = some ⟨nameRoot, false, none, some 1, none⟩ ∧
      ∃ l, childList stScenario.heap (some 0) = some l ∧ (l.map entryOf).Pairwise entryLe :=
  ⟨by decide, sibling_order_invariant stScenario reachable_stScenario 0
    ⟨nameRoot, false, none, some 1, none⟩ (by decide)⟩

theorem create_find {s : FS} (hs : Reachable s) {p : Nat} {pn : Node}
    (hp : load s.heap p = some pn) (hfolder : pn.isFile = false) (isFile : Bool)
    {name : List Nat} (hlen : name.length ≤ MAX_NAME_LENGTH - 1) {l : List (Nat × Node)}
    (hl : childList s.heap (some p) = some l) (hfresh : ∀ x ∈ l, x.2.name ≠ name) :
    ∃ s' c cn, create isFile s (some p) name = some (Msg.ok, s') ∧
      findChild s'.heap (some p) name = some (some c) ∧ load s'.heap c = some cn ∧
      cn.name = name ∧ cn.isFile = isFile := by
  obtain ⟨t, inv⟩ := hs.inv
  have hpm := inv.mem_of_load hp
  obtain ⟨l', hl', _, hk, _⟩ := childList_spec inv.rep inv.nodup hpm
  rw [hl] at hl'
  cases hl'
  have hfree : (t.sub p).children.lookup name = none := by
    rw [LT.lookup_eq_none_iff, ← hk]
    intro e he
    rw [List.mem_map] at he
    obtain ⟨x, hx, rfl⟩ := he
    exact hfresh x hx
  obtain ⟨h', e', _, inv', _⟩ := create_ok inv hp hfolder isFile name hfree
  obtain ⟨nmp, fp, fcp, nsp, esp⟩ := LT.sub_node hpm
  have htake : name.take (MAX_NAME_LENGTH - 1) = name := List.take_of_length_le hlen
  rw [htake] at inv'
  have es' := LT.sub_atNode_self hpm (LT.insertSib s.heap.length name isFile LT.nil) esp
  have hpm' : p ∈ (t.atNode p (LT.insertSib s.heap.length name isFile LT.nil)).addrs :=
    LT.mem_atNode_self hpm _
  have hfind := findChild_spec inv'.rep inv'.nodup hpm' name
  rw [es'] at hfind
  simp only [LT.children] at hfind
  rw [esp] at hfree
  simp only [LT.children] at hfree
  rw [LT.lookup_insertSib hfree] at hfind
  obtain ⟨nx, hcell, _⟩ := (inv'.rep.cell_of_sub es').2.insertSib_cell
  exact ⟨_, s.heap.length, _, e', hfind, hcell, rfl, rfl⟩

/-- C2. For every folder `parent` of a reachable state and every name of at
most 49 bytes that no child of `parent` carries, `createFolder(parent, name)`
succeeds and `findChild(parent, name)` then returns an entry whose name is
`name` and which is a folder; likewise `createFile` and a file. -/
theorem create_then_findChild (s : FS) (hs : Reachable s) (p : Nat) (pn : Node)
    (hp : load s.heap p = some pn) (hfolder : pn.isFile = false) (name : List Nat)
    (hlen : name.length ≤ MAX_NAME_LENGTH - 1) (l : List (Nat × Node))
    (hl : childList s.heap (some p) = some l) (hfresh : ∀ x ∈ l, x.2.name ≠ name) :
    (∃ s' c cn, createFolder s (some p) name = some (Msg.ok, s') ∧
      findChild s'.heap (some p) name = some (some c) ∧ load s'.heap c = some cn ∧
      cn.name = name ∧ cn.isFile = false) ∧
    (∃ s' c cn, createFile s (some p) name = some (Msg.ok, s') ∧
      findChild s'.heap (some p) name = some (some c) ∧ load s'.heap c = some cn ∧
      cn.name = name ∧ cn.isFile = true) :=
  ⟨create_find hs hp hfolder false hlen hl hfresh, create_find hs hp hfolder true hlen hl hfresh⟩

/-- Witness of C2: creating `"sub"` in the folder `"docs"` of `stDocsA`, which
holds `"a.txt"` only. -/
theorem create_then_findChild_witness :
    childList stDocsA.heap (some 1) = some [(2, ⟨nameA, true, some 1, none, none⟩)] ∧
    (∃ s' c cn, createFolder stDocsA (some 1) nameSub = some (Msg.ok, s') ∧
      findChild s'.heap (some 1) nameSub = some (some c) ∧ load s'.heap c = some cn ∧
      cn.name = nameSub ∧ cn.isFile = false) ∧
    (∃ s' c cn, createFile stDocsA (some 1) nameSub = some (Msg.ok, s') ∧
      findChild s'.heap (some 1) nameSub = some (some c) ∧ load s'.heap c = some cn ∧
      cn.name = nameSub ∧ cn.isFile = true) :=
  ⟨by decide, create_then_findChild stDocsA reachable_stDocsA 1
    ⟨nameDocs, false, some 0, some 2, none⟩ (by decide) rfl nameSub (by decide)
    [(2, ⟨nameA, true, some 1, none, none⟩)] (by decide) (by decide)⟩

/-- C3, the code at the failing input. Two calls `createFolder(root, name)`
with the same name of 50 bytes both succeed: the collision check of the
second call compares the 50 bytes with the 49 bytes stored by the first.
Afterwards the root has two children that carry the same stored name. -/
theorem long_name_breaks_uniqueness :
    nameLong.length = 50 ∧
    createFolder initFS (some 0) nameLong = some (Msg.ok, stLong1) ∧
    createFolder stLong1 (some 0) nameLong = some (Msg.ok, stLong2) ∧
    childList stLong2.heap stLong2.root =
      some [(1, ⟨List.replicate 49 97, false, some 0, none, some 2⟩),
            (2, ⟨List.replicate 49 97, false, some 0, none, none⟩)] := by
  decide


/-- C4 as stated fails where its three cases overlap, the root being checked
first. In the initial state the root is the current location, and
`deleteNode(root)` reports `CannotDeleteRoot`, not `CannotDeleteCurrent`; in
`stInDocs` the root is a proper ancestor of the current location `"docs"`, and
`deleteNode(root)` reports `CannotDeleteRoot`, not
`CannotDeleteAncestorOfCurrent`. -/
theorem deleteNode_root_first_counterexample :
    (initFS.currentDir = some 0 ∧
      deleteNode initFS (some 0) ≠ some (Msg.cannotDeleteCurrent, initFS) ∧
      deleteNode initFS (some 0) = some (Msg.cannotDeleteRoot, initFS)) ∧
    (stInDocs.currentDir = some 1 ∧ Ancestor stInDocs.heap 0 1 ∧
      deleteNode stInDocs (some 0) ≠ some (Msg.cannotDeleteAncestorOfCurrent, stInDocs) ∧
      deleteNode stInDocs (some 0) = some (Msg.cannotDeleteRoot, stInDocs)) :=
  ⟨⟨by decide, by decide, by decide⟩,
    ⟨by decide, Relation.TransGen.single ⟨⟨nameDocs, false, some 0, some 2, none⟩, by decide, rfl⟩,
      by decide, by decide⟩⟩

/-- C4, amended. In every reachable state `deleteNode(entry)` fails with
`CannotDeleteRoot` when `entry` is the root; otherwise with
`CannotDeleteCurrent` when `entry` is the current location; otherwise with
`CannotDeleteAncestorOfCurrent` when `entry` is a proper ancestor of the
current location. In each case the state returned is the state before the
call: heap, root and current location are untouched. -/
theorem deleteNode_failures (s : FS) (hs : Reachable s) (q : Nat) :
    (s.root = some q → deleteNode s (some q) = some (Msg.cannotDeleteRoot, s)) ∧
    (s.root ≠ some q → s.currentDir = some q →
      deleteNode s (some q) = some (Msg.cannotDeleteCurrent, s)) ∧
    (s.root ≠ some q → ∀ c, s.currentDir = some c → Ancestor s.heap q c →
      deleteNode s (some q) = some (Msg.cannotDeleteAncestorOfCurrent, s)) := by
  obtain ⟨t, inv⟩ := hs.inv
  refine ⟨?_, ?_, ?_⟩
  · intro hr
    simp [deleteNode, hr]
  · intro hr hc
    have hr' : ¬ (some q = s.root) := fun e => hr e.symm
    simp [deleteNode, hr', hc]
  · intro hr c hc hanc
    obtain ⟨hne, hab⟩ := inv.ancestor_ne hanc
    obtain ⟨c', cn, h1c, h2c, _⟩ := inv.cur
    rw [hc] at h1c
    cases h1c
    have hcm := inv.mem_of_load h2c
    have hw := ancestorLoop_spec inv.rep inv.nodup hcm q
    rw [atOrAbove_iff inv.rep inv.nodup hcm] at hab
    have hr' : ¬ (some q = s.root) := fun e => hr e.symm
    have hc' : ¬ (some q = s.currentDir) := by
      rw [hc]; intro e; cases e; exact hne rfl
    simp only [deleteNode, hr', hc', if_false]
    rw [hc, hw]
    simp [hab]

/-- Witness of the amended C4: in `stDeep` the current location is `"sub"`
inside `"docs"`; deleting `"docs"` is refused. -/
theorem deleteNode_failures_witness :
    Reachable stDeep ∧
      deleteNode stDeep (some 1) = some (Msg.cannotDeleteAncestorOfCurrent, stDeep) :=
  ⟨reachable_stDeep, (deleteNode_failures stDeep reachable_stDeep 1).2.2 (by decide) 2 rfl
    (Relation.TransGen.single ⟨⟨nameSub, false, some 1, none, none⟩, by decide, rfl⟩)⟩

/-- C6 as stated fails for the root, which is a folder: `moveNode(root, root)`
reports `CannotMoveRoot`, not `CyclicMove`. -/
theorem moveNode_root_counterexample :
    initFS.root = some 0 ∧
      load initFS.heap 0 = some ⟨nameRoot, false, none, none, none⟩ ∧
      AtOrAbove initFS.heap 0 0 ∧
      moveNode initFS (some 0) (some 0) ≠ some (Msg.cyclicMove, initFS) ∧
      moveNode initFS (some 0) (some 0) = some (Msg.cannotMoveRoot, initFS) :=
  ⟨by decide, by decide, Relation.ReflTransGen.refl, by decide, by decide⟩

/-- C6, amended. In every reachable state, for every folder `a` other than the
root and every folder `b` that is `a` itself or a descendant of `a` (at any
depth), `moveNode(a, b)` fails with `CyclicMove`, and the state returned is
the state before the call. -/
theorem moveNode_cyclic (s : FS) (hs : Reachable s) (a b : Nat) (an bn : Node)
    (ha : load s.heap a = some an) (hb : load s.heap b = some bn)
    (haf : an.isFile = false) (hbf : bn.isFile = false) (hroot : s.root ≠ some a)
    (hdesc : AtOrAbove s.heap a b) :
    moveNode s (some a) (some b) = some (Msg.cyclicMove, s) := by
  obtain ⟨t, inv⟩ := hs.inv
  have hbm := inv.mem_of_load hb
  have hw := ancestorLoop_spec inv.rep inv.nodup hbm a
  rw [atOrAbove_iff inv.rep inv.nodup hbm] at hdesc
  have hr' : ¬ (some a = s.root) := fun e => hroot e.symm
  simp only [moveNode, hr', if_false, ha, hb, hbf, haf, hw, hdesc, decide_True,
    Bool.false_eq_true]

/-- Witness of the amended C6: moving `"docs"` into its subfolder `"sub"`. -/
theorem moveNode_cyclic_witness :
    Reachable stDocsSub ∧ AtOrAbove stDocsSub.heap 1 2 ∧
      moveNode stDocsSub (some 1) (some 2) = some (Msg.cyclicMove, stDocsSub) :=
  ⟨reachable_stDocsSub,
    Relation.ReflTransGen.single ⟨⟨nameSub, false, some 1, none, none⟩, by decide, rfl⟩,
    moveNode_cyclic stDocsSub reachable_stDocsSub 1 2 ⟨nameDocs, false, some 0, some 2, none⟩
      ⟨nameSub, false, some 1, none, none⟩ (by decide) (by decide) rfl rfl (by decide)
      (Relation.ReflTransGen.single ⟨⟨nameSub, false, some 1, none, none⟩, by decide, rfl⟩)⟩


/-- Removing the node at `q` from a sibling chain leaves no sibling named `nm`
exactly when `q` was the only sibling that carried this name. -/
theorem LT.lookup_removeSib_iff {sp : LT} (nd : sp.addrs.Nodup) {q : Nat} {nm : List Nat} :
    (LT.removeSib q sp).lookup nm = none ↔ ∀ y ∈ sp.pairs, y.2.2 = nm → y.1 = q := by
  induction sp with
  | nil => simp [LT.removeSib, LT.lookup, LT.pairs]
  | node b nmb fb fcb nsb _ ihns =>
    have nd' := nd
    simp only [LT.addrs, List.nodup_cons, List.nodup_append, List.mem_append, not_or] at nd'
    obtain ⟨⟨_, hbns⟩, _, ndns, _⟩ := nd'
    have hin : ∀ y ∈ nsb.pairs, y.1 ∈ nsb.addrs := by
      intro y hy
      apply LT.spine_subset
      rw [← LT.pairs_spine, List.mem_map]
      exact ⟨_, hy, rfl⟩
    by_cases hb : b = q
    · subst hb
      simp only [LT.removeSib, if_true, LT.pairs, List.mem_cons, forall_eq_or_imp,
        implies_true, true_and]
      rw [LT.lookup_eq_none_iff]
      constructor
      · intro h y hy e
        have hk : y.2 ∈ nsb.kids := by
          rw [← LT.pairs_kids, List.mem_map]
          exact ⟨y, hy, rfl⟩
        exact absurd e (h y.2 hk)
      · intro h e he e2
        rw [← LT.pairs_kids, List.mem_map] at he
        obtain ⟨y, hy, rfl⟩ := he
        exact hbns (h y hy e2 ▸ hin y hy)
    · simp only [LT.removeSib, hb, if_false, LT.lookup, LT.pairs, List.mem_cons,
        forall_eq_or_imp]
      by_cases h0 : strcmp nmb nm = 0
      · have e0 := strcmp_eq_zero.mp h0
        simp only [h0, if_true]
        constructor
        · intro h; cases h
        · intro h; exact (h.1 e0).elim
      · have hne : ¬ nmb = nm := fun e => h0 (by rw [e]; exact strcmp_self nm)
        simp only [h0, if_false, hne, false_implies, true_and]
        exact ihns ndns

/-- The children listed for `p` and the sibling chain of the tree below `p`
carry the same names at the same addresses. -/
theorem Inv.named_only_iff {s : FS} {t : LT} (inv : Inv s t) {p : Nat} (hpm : p ∈ t.addrs)
    {l : List (Nat × Node)} (hl : childList s.heap (some p) = some l) (q : Nat)
    (nm : List Nat) :
    (∀ y ∈ (t.sub p).children.pairs, y.2.2 = nm → y.1 = q) ↔
      ∀ x ∈ l, x.2.name = nm → x.1 = q := by
  obtain ⟨l', hl', hsp, _, hcell⟩ := childList_spec inv.rep inv.nodup hpm
  rw [hl] at hl'
  cases hl'
  obtain ⟨nmp, fp, fcp, nsp, esp⟩ := LT.sub_node hpm
  have rp := (inv.rep.cell_of_sub esp).2
  rw [esp] at hsp ⊢
  simp only [LT.children] at hsp ⊢
  constructor
  · intro h x hx e
    have h1 : x.1 ∈ fcp.spine := by
      rw [← hsp, List.mem_map]
      exact ⟨x, hx, rfl⟩
    rw [← LT.pairs_spine, List.mem_map] at h1
    obtain ⟨y, hy, hyx⟩ := h1
    obtain ⟨n, hn, hy2⟩ := rp.pairs_cell y hy
    rw [hyx, (hcell x hx).1] at hn
    cases hn
    rw [← hyx]
    apply h y hy
    rw [hy2]
    exact e
  · intro h y hy e
    have h1 : y.1 ∈ fcp.spine := by
      rw [← LT.pairs_spine, List.mem_map]
      exact ⟨y, hy, rfl⟩
    rw [← hsp, List.mem_map] at h1
    obtain ⟨x, hx, hxy⟩ := h1
    obtain ⟨n, hn, hy2⟩ := rp.pairs_cell y hy
    rw [← hxy, (hcell x hx).1] at hn
    cases hn
    rw [← hxy]
    apply h x hx
    rw [hy2] at e
    exact e

/-- In every reachable state, for every entry `q` that is neither the root,
nor the current location, nor an ancestor of the current location,
`deleteNode(q)` succeeds, leaves `root` and `currentDir` as they are, and
removes exactly `q` and its descendants: every entry `x` with `q` at or above
it is freed and no longer reached from root; every other entry is still
allocated and reached from root, with the same parent, name and kind.
Afterwards `findChild(formerParent, q.name)` reports not found exactly when no
other child of the former parent carried the stored name of `q`. -/
theorem deleteNode_subtree (s : FS) (hs : Reachable s) (q : Nat) (qn : Node)
    (hq : load s.heap q = some qn) (hroot : s.root ≠ some q) (hcur : s.currentDir ≠ some q)
    (hanc : ∀ c, s.currentDir = some c → ¬ Ancestor s.heap q c) :
    ∃ s' p l, deleteNode s (some q) = some (Msg.ok, s') ∧ qn.parent = some p ∧
      s'.root = s.root ∧ s'.currentDir = s.currentDir ∧
      childList s.heap (some p) = some l ∧
      (findChild s'.heap (some p) qn.name = some none ↔
        ∀ x ∈ l, x.2.name = qn.name → x.1 = q) ∧
      (∀ x, AtOrAbove s.heap q x →
        load s'.heap x = none ∧ ¬ ReachableFrom s'.heap s'.root x) ∧
      (∀ x n, load s.heap x = some n → ¬ AtOrAbove s.heap q x →
        ReachableFrom s'.heap s'.root x ∧
          ∃ n', load s'.heap x = some n' ∧ n'.parent = n.parent ∧ n'.name = n.name ∧
            n'.isFile = n.isFile) := by
  obtain ⟨t, inv⟩ := hs.inv
  have hanc' : ∀ c, s.currentDir = some c → ¬ AtOrAbove s.heap q c := by
    intro c hc hab
    unfold AtOrAbove at hab
    rcases Relation.reflTransGen_iff_eq_or_transGen.mp hab with h1 | h1
    · exact hcur (by rw [hc, h1])
    · exact hanc c hc h1
  obtain ⟨h', p, e', hqpar, hpm, hqs, inv', hmem, hsurv, hdead, _⟩ :=
    deleteNode_ok inv hq hroot hcur hanc'
  obtain ⟨l, hl, _⟩ := childList_spec inv.rep inv.nodup hpm
  refine ⟨_, p, l, e', hqpar, rfl, rfl, hl, ?_, ?_, ?_⟩
  · obtain ⟨nmp, fp, fcp, nsp, esp⟩ := LT.sub_node hpm
    have es' := LT.sub_atNode_self hpm (LT.removeSib q) esp
    have hfind := findChild_spec inv'.rep inv'.nodup (LT.mem_atNode_self hpm _) qn.name
    rw [es'] at hfind
    simp only [LT.children] at hfind
    rw [hfind, ← inv.named_only_iff hpm hl q qn.name, esp]
    simp only [LT.children, Option.some.injEq]
    have ndp := LT.sub_nodup inv.nodup p
    rw [esp] at ndp
    exact LT.lookup_removeSib_iff (LT.children_nodup ndp)
  · intro x hx
    refine ⟨hdead x hx, ?_⟩
    rw [inv'.reach_iff, hmem]
    exact fun h => h.2 hx
  · intro x n hx hnx
    obtain ⟨n', h1, h2, h3, h4⟩ := hsurv x n hx hnx
    refine ⟨?_, n', h1, h4, h2, h3⟩
    rw [inv'.reach_iff, hmem]
    exact ⟨inv.mem_of_load hx, hnx⟩

/-- C5, the code at the failing input. The state `stLong2` is reached by two
calls `createFolder(root, name)` with one name of 50 bytes; its root has the
children 1 and 2, both with the same stored name of 49 bytes. Entry 1 is not
the root, not the current location and not an ancestor of it, and
`deleteNode(1)` succeeds; but `findChild(root, name of 1)` afterwards does not
report not found: it returns entry 2. -/
theorem deleteNode_twin_found :
    createFolder initFS (some 0) nameLong = some (Msg.ok, stLong1) ∧
    createFolder stLong1 (some 0) nameLong = some (Msg.ok, stLong2) ∧
    load stLong2.heap 1 = some ⟨List.replicate 49 97, false, some 0, none, some 2⟩ ∧
    stLong2.root = some 0 ∧ stLong2.currentDir = some 0 ∧ ¬ Ancestor stLong2.heap 1 0 ∧
    deleteNode stLong2 (some 1) = some (Msg.ok, stLongDel) ∧
    findChild stLongDel.heap (some 0) (List.replicate 49 97) = some (some 2) := by
  refine ⟨by decide, by decide, by decide, rfl, rfl, ?_, by decide, by decide⟩
  intro hab
  obtain ⟨b, ⟨n, hn, hp⟩, _⟩ := Relation.TransGen.head'_iff.mp hab
  rw [show load stLong2.heap 0 = some ⟨nameRoot, false, none, some 1, none⟩ from
    by decide] at hn
  cases hn
  cases hp


/-- The parent of an entry does not lie in the subtree of that entry. -/
theorem Inv.parent_not_below {s : FS} {t : LT} (inv : Inv s t) {q d : Nat} {qn : Node}
    (hq : load s.heap q = some qn) (hp : qn.parent = some d) : ¬ AtOrAbove s.heap q d := by
  intro hab
  have h1 : Ancestor s.heap q q := Relation.TransGen.head' ⟨qn, hq, hp⟩ hab
  exact (inv.ancestor_ne h1).1 rfl

/-- The entry of a child read from the tree and from the heap. -/
theorem Inv.child_entry {s : FS} {t : LT} (inv : Inv s t) {q p : Nat} {qn : Node}
    (hq : load s.heap q = some qn) (hqs : q ∈ (t.sub p).children.spine) :
    (qn.isFile, qn.name) ∈ (t.sub p).children.kids := by
  have hpm : p ∈ t.addrs := by
    by_contra hn
    rw [LT.sub_of_not_mem hn] at hqs
    simp [LT.children, LT.spine] at hqs
  obtain ⟨nmp, fp, fcp, nsp, esp⟩ := LT.sub_node hpm
  have rp := (inv.rep.cell_of_sub esp).2
  rw [esp] at hqs ⊢
  simp only [LT.children] at hqs ⊢
  rw [← LT.pairs_spine, List.mem_map] at hqs
  obtain ⟨⟨q0, e0⟩, hy, hq0⟩ := hqs
  simp only at hq0
  subst hq0
  obtain ⟨n0, hn0, he0⟩ := rp.pairs_cell _ hy
  simp only at hn0 he0
  rw [hq] at hn0
  cases hn0
  rw [← LT.pairs_kids, List.mem_map]
  exact ⟨_, hy, he0⟩

/-- C7. In every reachable state, for every entry `q` other than the root and
every folder `d` that is neither `q` nor a descendant of `q` and has no child
named `q.name`, `moveNode(q, d)` succeeds and leaves `root` and `currentDir`
as they are. Afterwards `findChild(d, q.name)` returns `q` itself; the cell of
`q` keeps its name, its kind and its `firstChild` link and has `d` as parent;
every descendant of `q` has exactly the cell it had; the former parent has a
child sequence in which `q` does not occur; and the entries reached from root
are the same as before. -/
theorem moveNode_success (s : FS) (hs : Reachable s) (q d : Nat) (qn dn : Node)
    (hq : load s.heap q = some qn) (hd : load s.heap d = some dn) (hroot : s.root ≠ some q)
    (hdf : dn.isFile = false) (hnb : ¬ AtOrAbove s.heap q d) (l : List (Nat × Node))
    (hl : childList s.heap (some d) = some l) (hfresh : ∀ x ∈ l, x.2.name ≠ qn.name) :
    ∃ s' p, moveNode s (some q) (some d) = some (Msg.ok, s') ∧ qn.parent = some p ∧
      s'.root = s.root ∧ s'.currentDir = s.currentDir ∧
      findChild s'.heap (some d) qn.name = some (some q) ∧
      (∃ qn', load s'.heap q = some qn' ∧ qn'.name = qn.name ∧ qn'.isFile = qn.isFile ∧
        qn'.firstChild = qn.firstChild ∧ qn'.parent = some d) ∧
      (∀ x, Ancestor s.heap q x → load s'.heap x = load s.heap x) ∧
      (∃ l', childList s'.heap (some p) = some l' ∧ ∀ x ∈ l', x.1 ≠ q) ∧
      (∀ x, ReachableFrom s'.heap s'.root x ↔ ReachableFrom s.heap s.root x) := by
  obtain ⟨t, inv⟩ := hs.inv
  have hdm := inv.mem_of_load hd
  have hqm := inv.mem_of_load hq
  obtain ⟨l0, hl0, _, hk, _⟩ := childList_spec inv.rep inv.nodup hdm
  rw [hl] at hl0
  cases hl0
  have hfree : (t.sub d).children.lookup qn.name = none := by
    rw [LT.lookup_eq_none_iff, ← hk]
    intro e he
    rw [List.mem_map] at he
    obtain ⟨x, hx, rfl⟩ := he
    exact hfresh x hx
  obtain ⟨h', p, e', hqpar, hpm, hqs, inv2, hmem2, hkeep, hsub, _⟩ :=
    moveNode_ok inv hq hd hroot hdf hnb hfree
  obtain ⟨nd1, -, -, hmem1⟩ := LT.remove_tree inv.nodup inv.leaf inv.sorted hpm hqs
  have hdq : ¬ (d = q ∨ d ∈ (t.sub q).children.addrs) := by
    have := hnb
    rw [atOrAbove_iff_mem inv.rep inv.nodup hdm] at this
    exact this
  have hd1m : d ∈ (t.atNode p (LT.removeSib q)).addrs := (hmem1 d).mpr ⟨hdm, hdq⟩
  have hqd : q ≠ d := fun e => hdq (Or.inl e.symm)
  have hqp : q ≠ p := by
    intro e
    subst e
    exact LT.not_below_self inv.nodup q (LT.spine_subset _ q hqs)
  have hpd : p ≠ d := by
    intro e
    subst e
    exact LT.lookup_eq_none_iff.mp hfree _ (inv.child_entry hq hqs) rfl
  obtain ⟨qn', hqn', k1, k2, _, k4, k5⟩ := hkeep q qn hq
  refine ⟨_, p, e', hqpar, rfl, rfl, ?_, ⟨qn', hqn', k1, k2, k5 hqd hqp, k4 rfl⟩, ?_, ?_, ?_⟩
  · obtain ⟨nm0, f0, fc0, ns0, es0⟩ := LT.sub_node hd1m
    have es2 := LT.sub_atNode_self hd1m
      (LT.insertSib q qn.name qn.isFile (t.sub q).children) es0
    have hfind := findChild_spec inv2.rep inv2.nodup (LT.mem_atNode_self hd1m _) qn.name
    rw [es2] at hfind
    simp only [LT.children] at hfind
    rw [hfind, LT.lookup_insertSib (LT.lookup_eq_none_iff.mpr
      (moveNode_dest_fresh inv hd hnb hfree hpm hqs inv2 hkeep es0))]
  · intro x hx
    obtain ⟨hne, hab⟩ := inv.ancestor_ne hx
    have hxm : x ∈ t.addrs := by
      obtain ⟨b, ⟨n, hn, _⟩, _⟩ := Relation.TransGen.head'_iff.mp hx
      exact inv.mem_of_load hn
    rw [atOrAbove_iff_mem inv.rep inv.nodup hxm] at hab
    rcases hab with h1 | h1
    · exact absurd h1.symm hne
    · exact hsub x h1
  · have hpm2 := (hmem2 p).mpr hpm
    obtain ⟨l', hl', _, _, hcells⟩ := childList_spec inv2.rep inv2.nodup hpm2
    refine ⟨l', hl', ?_⟩
    intro x hx hxq
    obtain ⟨h1, h2⟩ := hcells x hx
    rw [hxq] at h1
    have : load h' q = some x.2 := h1
    rw [hqn'] at this
    cases this
    rw [k4 rfl] at h2
    cases h2
    exact hpd rfl
  · intro x
    rw [inv2.reach_iff, inv.reach_iff, hmem2]

/-- Witness of C7: moving `"readme.md"` into `"docs"` in the scenario tree. -/
theorem moveNode_success_witness :
    Reachable stScenario ∧
    ∃ s' p, moveNode stScenario (some 4) (some 1) = some (Msg.ok, s') ∧ some 0 = some p ∧
      s'.root = stScenario.root ∧ s'.currentDir = stScenario.currentDir ∧
      findChild s'.heap (some 1) nameReadme = some (some 4) ∧
      (∃ qn', load s'.heap 4 = some qn' ∧ qn'.name = nameReadme ∧ qn'.isFile = true ∧
        qn'.firstChild = none ∧ qn'.parent = some 1) ∧
      (∀ x, Ancestor stScenario.heap 4 x → load s'.heap x = load stScenario.heap x) ∧
      (∃ l', childList s'.heap (some p) = some l' ∧ ∀ x ∈ l', x.1 ≠ 4) ∧
      (∀ x, ReachableFrom s'.heap s'.root x ↔
        ReachableFrom stScenario.heap stScenario.root x) :=
  ⟨reachable_stScenario,
    moveNode_success stScenario reachable_stScenario 4 1 ⟨nameReadme, true, some 0, none, none⟩
      ⟨nameDocs, false, some 0, some 2, some 4⟩ (by decide) (by decide) (by decide) rfl
      (by
        intro hab
        unfold AtOrAbove at hab
        rcases Relation.ReflTransGen.cases_head hab with h1 | ⟨b, ⟨n, hn, hp⟩, hrest⟩
        · cases h1
        · rw [show load stScenario.heap 1 = some ⟨nameDocs, false, some 0, some 2, some 4⟩ from
            by decide] at hn
          cases hn
          cases hp
          rcases Relation.ReflTransGen.cases_head hrest with h2 | ⟨b2, ⟨n2, hn2, hp2⟩, _⟩
          · cases h2
          · rw [show load stScenario.heap 0 = some ⟨nameRoot, false, none, some 1, none⟩ from
              by decide] at hn2
            cases hn2
            cases hp2)
      [(2, ⟨nameA, true, some 1, none, some 3⟩), (3, ⟨nameB, true, some 1, none, none⟩)]
      (by decide) (by decide)⟩


theorem moveNode_collision {s : FS} {t : LT} (inv : Inv s t) {q d : Nat} {qn dn : Node}
    (hq : load s.heap q = some qn) (hd : load s.heap d = some dn) (hroot : s.root ≠ some q)
    (hdf : dn.isFile = false) (hpass : qn.isFile = true ∨ ¬ AtOrAbove s.heap q d)
    (hex : ∃ e ∈ (t.sub d).children.kids, e.2 = qn.name) :
    moveNode s (some q) (some d) = some (Msg.nameCollision, s) := by
  have hdm := inv.mem_of_load hd
  have hr' : ¬ (some q = s.root) := fun e => hroot e.symm
  have hwalk : (if qn.isFile = true then some false
      else ancestorLoop (s.heap.length + 1) s.heap (some d) q) = some false := by
    split
    · rfl
    · rename_i hnf
      rcases hpass with h1 | h1
      · exact absurd h1 hnf
      · rw [ancestorLoop_spec inv.rep inv.nodup hdm]
        rw [atOrAbove_iff inv.rep inv.nodup hdm] at h1
        simp [h1]
  have hfind := findChild_spec inv.rep inv.nodup hdm qn.name
  cases hl : (t.sub d).children.lookup qn.name with
  | none =>
    obtain ⟨e, he, hne⟩ := hex
    exact absurd hne (LT.lookup_eq_none_iff.mp hl e he)
  | some c =>
    rw [hl] at hfind
    simp only [moveNode, hr', if_false, hd, hq, hdf, Bool.false_eq_true, hwalk, hfind]

/-- C8. In every reachable state `moveNode(q, d)` fails with `CannotMoveRoot`
when `q` is the root; otherwise with `DestinationNotDirectory` when `d` is a
file; otherwise, when the check against a cyclic move passes (`q` is a file,
for which the check is skipped, or `d` is neither `q` nor a descendant of
`q`), with `NameCollision` when `d` has a child named `q.name`, in particular
when `d` is the present parent of `q`. In each case the state returned is the
state before the call. -/
theorem moveNode_failures (s : FS) (hs : Reachable s) (q d : Nat) (qn dn : Node)
    (hq : load s.heap q = some qn) (hd : load s.heap d = some dn) (l : List (Nat × Node))
    (hl : childList s.heap (some d) = some l) :
    (s.root = some q → moveNode s (some q) (some d) = some (Msg.cannotMoveRoot, s)) ∧
    (s.root ≠ some q → dn.isFile = true →
      moveNode s (some q) (some d) = some (Msg.destinationNotDirectory, s)) ∧
    (s.root ≠ some q → dn.isFile = false → (qn.isFile = true ∨ ¬ AtOrAbove s.heap q d) →
      (∃ x ∈ l, x.2.name = qn.name) →
      moveNode s (some q) (some d) = some (Msg.nameCollision, s)) ∧
    (s.root ≠ some q → dn.isFile = false → qn.parent = some d →
      moveNode s (some q) (some d) = some (Msg.nameCollision, s)) := by
  obtain ⟨t, inv⟩ := hs.inv
  have hdm := inv.mem_of_load hd
  obtain ⟨l0, hl0, _, hk, _⟩ := childList_spec inv.rep inv.nodup hdm
  rw [hl] at hl0
  cases hl0
  refine ⟨?_, ?_, ?_, ?_⟩
  · intro hr
    simp [moveNode, hr]
  · intro hr hdf
    have hr' : ¬ (some q = s.root) := fun e => hr e.symm
    simp [moveNode, hr', hd, hq, hdf]
  · intro hr hdf hpass hex
    apply moveNode_collision inv hq hd hr hdf hpass
    obtain ⟨x, hx, hxn⟩ := hex
    refine ⟨entryOf x, ?_, hxn⟩
    rw [← hk]
    exact List.mem_map_of_mem _ hx
  · intro hr hdf hpar
    obtain ⟨_, _, _, hqs⟩ := inv.parent_folder hq hpar
    exact moveNode_collision inv hq hd hr hdf (Or.inr (inv.parent_not_below hq hpar))
      ⟨_, inv.child_entry hq hqs, rfl⟩

/-- Witness of C8: moving `"readme.md"` to the root, its present parent. -/
theorem moveNode_failures_witness :
    Reachable stScenario ∧
      moveNode stScenario (some 4) (some 0) = some (Msg.nameCollision, stScenario) :=
  ⟨reachable_stScenario,
    (moveNode_failures stScenario reachable_stScenario 4 0
      ⟨nameReadme, true, some 0, none, none⟩ ⟨nameRoot, false, none, some 1, none⟩
      (by decide) (by decide)
      [(1, ⟨nameDocs, false, some 0, some 2, some 4⟩),
        (4, ⟨nameReadme, true, some 0, none, none⟩)] (by decide)).2.2.2 (by decide) rfl rfl⟩

theorem create_outcome {s : FS} (hs : Reachable s) {p : Nat} {pn : Node}
    (hp : load s.heap p = some pn) (isFile : Bool) (name : List Nat) {l : List (Nat × Node)}
    (hl : childList s.heap (some p) = some l) :
    ∃ m s', create isFile s (some p) name = some (m, s') ∧
      (m = Msg.notADirectory ↔ pn.isFile = true) ∧
      (m = Msg.nameCollision ↔ (pn.isFile = false ∧ ∃ x ∈ l, x.2.name = name)) ∧
      (m = Msg.ok ↔ (pn.isFile = false ∧ ∀ x ∈ l, x.2.name ≠ name)) ∧
      (m ≠ Msg.ok → s' = s) ∧
      (m = Msg.ok → s'.heap.length = s.heap.length + 1) := by
  obtain ⟨t, inv⟩ := hs.inv
  have hpm := inv.mem_of_load hp
  obtain ⟨l0, hl0, _, hk, _⟩ := childList_spec inv.rep inv.nodup hpm
  rw [hl] at hl0
  cases hl0
  have hiff : (t.sub p).children.lookup name = none ↔ ∀ x ∈ l, x.2.name ≠ name := by
    rw [LT.lookup_eq_none_iff, ← hk]
    constructor
    · intro h x hx
      exact h (entryOf x) (List.mem_map_of_mem _ hx)
    · intro h e he
      rw [List.mem_map] at he
      obtain ⟨x, hx, rfl⟩ := he
      exact h x hx
  cases hf : pn.isFile with
  | true =>
    refine ⟨Msg.notADirectory, s, create_notADirectory hp hf isFile name, ?_⟩
    simp
  | false =>
    cases hlk : (t.sub p).children.lookup name with
    | some c =>
      have hex : ∃ x ∈ l, x.2.name = name := by
        by_contra hn
        have : (t.sub p).children.lookup name = none :=
          hiff.mpr (fun x hx e => hn ⟨x, hx, e⟩)
        rw [hlk] at this
        cases this
      have hnall : ¬ ∀ x ∈ l, x.2.name ≠ name := by
        obtain ⟨x, hx, e⟩ := hex
        exact fun h => h x hx e
      refine ⟨Msg.nameCollision, s, create_nameCollision inv hp hf isFile name hlk,
        Iff.intro ?_ ?_, Iff.intro (fun _ => ⟨rfl, hex⟩) (fun _ => rfl),
        Iff.intro ?_ (fun h => absurd h.2 hnall), fun _ => rfl, ?_⟩
      · intro h; cases h
      · intro h; cases h
      · intro h; cases h
      · intro h; cases h
    | none =>
      have hall := hiff.mp hlk
      have hnex : ¬ ∃ x ∈ l, x.2.name = name := by
        rintro ⟨x, hx, e⟩
        exact hall x hx e
      obtain ⟨h', e', hlen, _, _⟩ := create_ok inv hp hf isFile name hlk
      refine ⟨Msg.ok, _, e', Iff.intro ?_ ?_, Iff.intro ?_ (fun h => absurd h.2 hnex),
        Iff.intro (fun _ => ⟨rfl, hall⟩) (fun _ => rfl), fun h => absurd rfl h, fun _ => hlen⟩
      · intro h; cases h
      · intro h; cases h
      · intro h; cases h

/-- C9. In every reachable state, for every allocated `parent`,
`createFolder(parent, name)` returns, and it fails with `NotADirectory`
exactly when `parent` is a file, fails with `NameCollision` exactly when
`parent` is a folder that has a child named `name`, and succeeds exactly in
the remaining case; on a failure the state returned is the state before the
call, on success one cell has been added. The same holds of `createFile`. -/
theorem create_outcomes (s : FS) (hs : Reachable s) (p : Nat) (pn : Node)
    (hp : load s.heap p = some pn) (name : List Nat) (l : List (Nat × Node))
    (hl : childList s.heap (some p) = some l) :
    (∃ m s', createFolder s (some p) name = some (m, s') ∧
      (m = Msg.notADirectory ↔ pn.isFile = true) ∧
      (m = Msg.nameCollision ↔ (pn.isFile = false ∧ ∃ x ∈ l, x.2.name = name)) ∧
      (m = Msg.ok ↔ (pn.isFile = false ∧ ∀ x ∈ l, x.2.name ≠ name)) ∧
      (m ≠ Msg.ok → s' = s) ∧
      (m = Msg.ok → s'.heap.length = s.heap.length + 1)) ∧
    (∃ m s', createFile s (some p) name = some (m, s') ∧
      (m = Msg.notADirectory ↔ pn.isFile = true) ∧
      (m = Msg.nameCollision ↔ (pn.isFile = false ∧ ∃ x ∈ l, x.2.name = name)) ∧
      (m = Msg.ok ↔ (pn.isFile = false ∧ ∀ x ∈ l, x.2.name ≠ name)) ∧
      (m ≠ Msg.ok → s' = s) ∧
      (m = Msg.ok → s'.heap.length = s.heap.length + 1)) :=
  ⟨create_outcome hs hp false name hl, create_outcome hs hp true name hl⟩

/-- Witness of C9: creating `"a.txt"` once more in `"docs"` of the scenario tree. -/
theorem create_outcomes_witness :
    Reachable stScenario ∧
    (∃ m s', createFolder stScenario (some 1) nameA = some (m, s') ∧
      (m = Msg.notADirectory ↔ false = true) ∧
      (m = Msg.nameCollision ↔ (false = false ∧
        ∃ x ∈ [((2 : Nat), (⟨nameA, true, some 1, none, some 3⟩ : Node)),
          (3, ⟨nameB, true, some 1, none, none⟩)], x.2.name = nameA)) ∧
      (m = Msg.ok ↔ (false = false ∧
        ∀ x ∈ [((2 : Nat), (⟨nameA, true, some 1, none, some 3⟩ : Node)),
          (3, ⟨nameB, true, some 1, none, none⟩)], x.2.name ≠ nameA)) ∧
      (m ≠ Msg.ok → s' = stScenario) ∧
      (m = Msg.ok → s'.heap.length = stScenario.heap.length + 1)) ∧
    (∃ m s', createFile stScenario (some 1) nameA = some (m, s') ∧
      (m = Msg.notADirectory ↔ false = true) ∧
      (m = Msg.nameCollision ↔ (false = false ∧
        ∃ x ∈ [((2 : Nat), (⟨nameA, true, some 1, none, some 3⟩ : Node)),
          (3, ⟨nameB, true, some 1, none, none⟩)], x.2.name = nameA)) ∧
      (m = Msg.ok ↔ (false = false ∧
        ∀ x ∈ [((2 : Nat), (⟨nameA, true, some 1, none, some 3⟩ : Node)),
          (3, ⟨nameB, true, some 1, none, none⟩)], x.2.name ≠ nameA)) ∧
      (m ≠ Msg.ok → s' = stScenario) ∧
      (m = Msg.ok → s'.heap.length = stScenario.heap.length + 1)) :=
  ⟨reachable_stScenario,
    create_outcomes stScenario reachable_stScenario 1 ⟨nameDocs, false, some 0, some 2, some 4⟩
      (by decide) nameA
      [(2, ⟨nameA, true, some 1, none, some 3⟩), (3, ⟨nameB, true, some 1, none, none⟩)]
      (by decide)⟩

/-- C10 as stated fails: in the scenario tree the search for `"a"` started at
root does not return the single path `"/docs/a.txt"`. -/
theorem search_scenario_counterexample :
    createFolder initFS (some 0) nameDocs = some (Msg.ok, stDocs) ∧
    createFile stDocs (some 1) nameA = some (Msg.ok, stDocsA) ∧
    createFile stDocsA (some 1) nameB = some (Msg.ok, stDocsAB) ∧
    createFile stDocsAB (some 0) nameReadme = some (Msg.ok, stScenario) ∧
    handleSearch stScenario [97] ≠ some [(true, pathDocsA)] := by
  decide

/-- C10, amended. In the scenario tree, built by the four create calls from the
initial state, the search for `"a"` started at root returns two results, in
this order: the file `"/root/docs/a.txt"` and the file `"/root/readme.md"`.
The paths start with the name of the root entry, `"root"`, and the name
`"readme.md"` contains the byte `a`. -/
theorem search_scenario :
    createFolder initFS (some 0) nameDocs = some (Msg.ok, stDocs) ∧
    createFile stDocs (some 1) nameA = some (Msg.ok, stDocsA) ∧
    createFile stDocsA (some 1) nameB = some (Msg.ok, stDocsAB) ∧
    createFile stDocsAB (some 0) nameReadme = some (Msg.ok, stScenario) ∧
    handleSearch stScenario [97] = some [(true, pathRootDocsA), (true, pathRootReadme)] := by
  decide

/-! ## The current directory -/

/-- What `findChildLoop` returns, read off the walk along the same chain: the
first child that carries the name. -/
theorem findChildLoop_find {h : Heap} {name : List Nat} :
    ∀ (fuel : Nat) (p : Ptr) (l : List (Nat × Node)), siblingsFrom fuel h p = some l →
      findChildLoop fuel h p name =
        some ((l.find? (fun x => decide (x.2.name = name))).map (fun x => x.1)) := by
  intro fuel
  induction fuel with
  | zero => intro p l e; simp [siblingsFrom] at e
  | succ k ih =>
    intro p l e
    cases p with
    | none =>
      simp only [siblingsFrom, Option.some.injEq] at e
      subst e
      simp [findChildLoop]
    | some c =>
      simp only [siblingsFrom] at e
      cases hc : load h c with
      | none => simp [hc] at e
      | some n =>
        simp only [hc] at e
        cases hr : siblingsFrom k h n.nextSibling with
        | none => simp [hr] at e
        | some l' =>
          simp only [hr, Option.some.injEq] at e
          subst e
          simp only [findChildLoop, hc, List.find?_cons]
          by_cases hn : n.name = name
          · simp [hn, strcmp_self]
          · have h0 : ¬ strcmp n.name name = 0 := fun e0 => hn (strcmp_eq_zero.mp e0)
            simp [hn, h0, ih _ _ hr]

/-- The call `findChild(p, name)` returns the first child of `p` named `name`. -/
theorem findChild_find {h : Heap} {p : Nat} {l : List (Nat × Node)}
    (e : childList h (some p) = some l) (name : List Nat) :
    findChild h (some p) name =
      some ((l.find? (fun x => decide (x.2.name = name))).map (fun x => x.1)) := by
  simp only [childList] at e
  simp only [findChild]
  cases hp : load h p with
  | none => simp [hp] at e
  | some pn =>
    simp only [hp] at e
    exact findChildLoop_find _ _ _ e

/-- In a list ordered by `R`, the first element with a property stands at or
before every element with that property. -/
theorem find_pairwise {α : Type} {R : α → α → Prop} {p : α → Bool} :
    ∀ {l : List α}, l.Pairwise R → ∀ {x y : α}, l.find? p = some y → x ∈ l → p x = true →
      y = x ∨ R y x := by
  intro l
  induction l with
  | nil => intro _ x y _ hx; simp at hx
  | cons a l ih =>
    intro hp x y hf hx hpx
    rw [List.pairwise_cons] at hp
    rw [List.find?_cons] at hf
    cases hpa : p a with
    | true =>
      simp only [hpa, Option.some.injEq] at hf
      subst hf
      rcases List.mem_cons.mp hx with h1 | h1
      · exact Or.inl h1.symm
      · exact Or.inr (hp.1 x h1)
    | false =>
      simp only [hpa] at hf
      rcases List.mem_cons.mp hx with h1 | h1
      · subst h1
        rw [hpa] at hpx
        cases hpx
      · exact ih hp.2 hf h1 hpx

/-- The addresses along a sibling chain are pairwise distinct. -/
theorem LT.spine_nodup {t : LT} (nd : t.addrs.Nodup) : t.spine.Nodup := by
  induction t with
  | nil => simp [LT.spine]
  | node a nm f fc ns _ ihns =>
    simp only [LT.addrs, List.nodup_cons, List.nodup_append, List.mem_append, not_or] at nd
    obtain ⟨⟨_, hans⟩, _, ndns, _⟩ := nd
    simp only [LT.spine, List.nodup_cons]
    exact ⟨fun h => hans (LT.spine_subset _ _ h), ihns ndns⟩

/-- The root is at or above every entry of the tree. -/
theorem Inv.root_above {s : FS} {t : LT} (inv : Inv s t) {r x : Nat} (hr : s.root = some r)
    (hx : x ∈ t.addrs) : AtOrAbove s.heap r x := by
  obtain ⟨r', nm, fc, e1, e2⟩ := inv.root
  rw [hr] at e1
  cases e1
  rw [atOrAbove_iff_mem inv.rep inv.nodup hx]
  subst e2
  simp only [LT.addrs, List.mem_cons, List.mem_append] at hx
  simp only [LT.sub, if_true, LT.children]
  rcases hx with h1 | h1 | h1
  · exact Or.inl h1
  · exact Or.inr h1
  · simp [LT.addrs] at h1

/-- C17. Navigator invariant: in every state reached from the initial one
(current location at root) by calls of `createFolder`, `createFile`,
`deleteNode`, `moveNode` and `changeDirectory`, whatever they return, the
current location is an allocated cell (not one freed by a deletion) that is a
folder, it is reached from root through the child and sibling links, and the
parent links lead from it up to root. -/
theorem navigator_invariant (s : FS) (hs : Reachable s) :
    ∃ c cn r, s.currentDir = some c ∧ s.root = some r ∧ load s.heap c = some cn ∧
      cn.isFile = false ∧ ReachableFrom s.heap s.root c ∧ AtOrAbove s.heap r c := by
  obtain ⟨t, inv⟩ := hs.inv
  obtain ⟨c, cn, h1, h2, h3⟩ := inv.cur
  obtain ⟨r, rn, hr, _⟩ := inv.root_folder
  have hcm := inv.mem_of_load h2
  exact ⟨c, cn, r, h1, hr, h2, h3, (inv.reach_iff c).mpr hcm, inv.root_above hr hcm⟩

/-- Witness of C17: the state `stDeep`, whose current location is `"sub"`. -/
theorem navigator_invariant_witness :
    Reachable stDeep ∧
    ∃ c cn r, stDeep.currentDir = some c ∧ stDeep.root = some r ∧
      load stDeep.heap c = some cn ∧ cn.isFile = false ∧
      ReachableFrom stDeep.heap stDeep.root c ∧ AtOrAbove stDeep.heap r c :=
  ⟨reachable_stDeep, navigator_invariant stDeep reachable_stDeep⟩

/-- C18. Parent/child consistency: in every reachable state the root is the
only entry without a parent; every other allocated entry has a parent link to
an entry in whose child sequence it occurs exactly once; an entry that occurs
in the child sequence of `p` has its parent link set to `p`, so it occurs in
no other child sequence; and the parent links lead from every allocated entry
up to root in finitely many steps. -/
theorem parent_child_consistency (s : FS) (hs : Reachable s) :
    ∃ r, s.root = some r ∧
      (∀ x n, load s.heap x = some n → (n.parent = none ↔ x = r)) ∧
      (∀ x n, load s.heap x = some n → x ≠ r →
        ∃ p l, n.parent = some p ∧ childList s.heap (some p) = some l ∧
          (l.map (fun y => y.1)).count x = 1) ∧
      (∀ x p l, childList s.heap (some p) = some l → x ∈ l.map (fun y => y.1) →
        ∃ n, load s.heap x = some n ∧ n.parent = some p) ∧
      (∀ x n, load s.heap x = some n → AtOrAbove s.heap r x) := by
  obtain ⟨t, inv⟩ := hs.inv
  obtain ⟨r, rn, hr, hrn, _, hrp, _⟩ := inv.root_folder
  refine ⟨r, hr, ?_, ?_, ?_, ?_⟩
  · intro x n hx
    constructor
    · intro hp
      by_contra hne
      have hroot : s.root ≠ some x := by
        rw [hr]; intro e; cases e; exact hne rfl
      obtain ⟨p, h1, _⟩ := inv.parent_of_nonroot hx hroot
      rw [hp] at h1
      cases h1
    · intro e
      subst e
      rw [hrn] at hx
      cases hx
      exact hrp
  · intro x n hx hne
    have hroot : s.root ≠ some x := by
      rw [hr]; intro e; cases e; exact hne rfl
    obtain ⟨p, h1, _, hpm, hxs⟩ := inv.parent_of_nonroot hx hroot
    obtain ⟨l, hl, hsp, _, _⟩ := childList_spec inv.rep inv.nodup hpm
    refine ⟨p, l, h1, hl, ?_⟩
    rw [hsp]
    exact List.count_eq_one_of_mem
      (LT.spine_nodup (LT.children_nodup (LT.sub_nodup inv.nodup p))) hxs
  · intro x p l hl hx
    have hpl : ∃ pn, load s.heap p = some pn := by
      simp only [childList] at hl
      cases hp : load s.heap p with
      | none => simp [hp] at hl
      | some pn => exact ⟨pn, rfl⟩
    obtain ⟨pn, hp⟩ := hpl
    obtain ⟨l', hl', _, _, hcells⟩ := childList_spec inv.rep inv.nodup (inv.mem_of_load hp)
    rw [hl] at hl'
    cases hl'
    rw [List.mem_map] at hx
    obtain ⟨y, hy, rfl⟩ := hx
    exact ⟨y.2, hcells y hy⟩
  · intro x n hx
    exact inv.root_above hr (inv.mem_of_load hx)

/-- Witness of C18: the scenario tree. -/
theorem parent_child_consistency_witness :
    Reachable stScenario ∧
    ∃ r, stScenario.root = some r ∧
      (∀ x n, load stScenario.heap x = some n → (n.parent = none ↔ x = r)) ∧
      (∀ x n, load stScenario.heap x = some n → x ≠ r →
        ∃ p l, n.parent = some p ∧ childList stScenario.heap (some p) = some l ∧
          (l.map (fun y => y.1)).count x = 1) ∧
      (∀ x p l, childList stScenario.heap (some p) = some l → x ∈ l.map (fun y => y.1) →
        ∃ n, load stScenario.heap x = some n ∧ n.parent = some p) ∧
      (∀ x n, load stScenario.heap x = some n → AtOrAbove stScenario.heap r x) :=
  ⟨reachable_stScenario, parent_child_consistency stScenario reachable_stScenario⟩

/-- C19. Kind invariant: in every reachable state every file has a `NULL`
`firstChild` link and an empty child sequence, and the root is an allocated
cell and a folder. -/
theorem kind_invariant (s : FS) (hs : Reachable s) :
    (∀ x n, load s.heap x = some n → n.isFile = true →
      n.firstChild = none ∧ childList s.heap (some x) = some []) ∧
    ∃ r rn, s.root = some r ∧ load s.heap r = some rn ∧ rn.isFile = false := by
  obtain ⟨t, inv⟩ := hs.inv
  constructor
  · intro x n hx hf
    obtain ⟨fc, ns, e, _, hfc, _⟩ := inv.folder_of_load hx
    have hl := inv.leaf.ofSub x
    rw [e] at hl
    have hnil : fc = LT.nil := hl.1 hf
    subst hnil
    have h0 : n.firstChild = none := hfc
    refine ⟨h0, ?_⟩
    simp [childList, hx, h0, siblingsFrom]
  · obtain ⟨r, rn, hr, hrn, hrf, _⟩ := inv.root_folder
    exact ⟨r, rn, hr, hrn, hrf⟩

/-- Witness of C19: the scenario tree, with its three files. -/
theorem kind_invariant_witness :
    Reachable stScenario ∧
    (∀ x n, load stScenario.heap x = some n → n.isFile = true →
      n.firstChild = none ∧ childList stScenario.heap (some x) = some []) ∧
    ∃ r rn, stScenario.root = some r ∧ load stScenario.heap r = some rn ∧ rn.isFile = false :=
  ⟨reachable_stScenario, kind_invariant stScenario reachable_stScenario⟩

/-- The call `changeDirectory` leaves heap and root as they are, and a call
that fails returns the state it was given. -/
theorem changeDirectory_frame {s s' : FS} {name : List Nat} {m : Msg}
    (e : changeDirectory s name = some (m, s')) :
    s'.heap = s.heap ∧ s'.root = s.root ∧ (m ≠ Msg.ok → s' = s) := by
  unfold changeDirectory at e
  split at e
  · cases e; simp
  · split at e
    · split at e
      · cases e
      · split at e
        · split at e
          · cases e
          · cases e; simp
        · cases e; simp
    · split at e
      · split at e
        · cases e
        · cases e; simp
      · split at e
        · cases e
        · cases e; simp
        · split at e
          · cases e
          · split at e
            · cases e; simp
            · split at e
              · cases e
              · cases e; simp

/-- C15. In every reachable state, with `c` the current location, `r` the root
and `l` the child sequence of `c`: the target `".."` fails with
`AlreadyAtRoot` when `c` is the root and otherwise sets the current location
to the parent of `c`; the target `"/"` sets the current location to root; any
other target fails with `NotFound` when no child of `c` carries that name, and
otherwise, for the first child in stored order that carries it, fails with
`NotADirectory` when that child is a file and sets the current location to
that child when it is a folder. The two special targets are decided before any
lookup among the children. Heap and root are never changed, and a failing call
returns the state it was given. -/
theorem changeDirectory_behaviour (s : FS) (hs : Reachable s) (target : List Nat) :
    ∃ c cn r l, s.currentDir = some c ∧ load s.heap c = some cn ∧ s.root = some r ∧
      childList s.heap (some c) = some l ∧
      (target = [46, 46] →
        (c = r → changeDirectory s target = some (Msg.alreadyAtRoot, s)) ∧
        (c ≠ r → ∃ p, cn.parent = some p ∧
          changeDirectory s target = some (Msg.ok, { s with currentDir := some p }))) ∧
      (target = [47] →
        changeDirectory s target = some (Msg.ok, { s with currentDir := some r })) ∧
      (target ≠ [46, 46] → target ≠ [47] →
        ((∀ x ∈ l, x.2.name ≠ target) → changeDirectory s target = some (Msg.notFound, s)) ∧
        (∀ x, l.find? (fun y => decide (y.2.name = target)) = some x →
          (x.2.isFile = true → changeDirectory s target = some (Msg.notADirectory, s)) ∧
          (x.2.isFile = false →
            changeDirectory s target = some (Msg.ok, { s with currentDir := some x.1 })))) ∧
      (∀ m s', changeDirectory s target = some (m, s') →
        s'.heap = s.heap ∧ s'.root = s.root ∧ (m ≠ Msg.ok → s' = s)) := by
  obtain ⟨t, inv⟩ := hs.inv
  obtain ⟨c, cn, hc, hcn, _⟩ := inv.cur
  obtain ⟨r, rn, hr, hrn, _, hrp, hrm⟩ := inv.root_folder
  have hcm := inv.mem_of_load hcn
  obtain ⟨l, hl, _, _, hcells⟩ := childList_spec inv.rep inv.nodup hcm
  refine ⟨c, cn, r, l, hc, hcn, hr, hl, ?_, ?_, ?_, fun m s' e => changeDirectory_frame e⟩
  · intro ht
    subst ht
    constructor
    · intro e
      subst e
      rw [hrn] at hcn
      cases hcn
      simp [changeDirectory, hc, strcmp_self, hrn, hrp]
    · intro hne
      have hroot : s.root ≠ some c := by
        rw [hr]; intro e; cases e; exact hne rfl
      obtain ⟨p, h1, _, hpm, _⟩ := inv.parent_of_nonroot hcn hroot
      obtain ⟨res, hres⟩ := getFullPath_returns inv.rep inv.nodup hpm
      exact ⟨p, h1, by simp [changeDirectory, hc, strcmp_self, hcn, h1, hres]⟩
  · intro ht
    subst ht
    obtain ⟨res, hres⟩ := getFullPath_returns inv.rep inv.nodup hrm
    have h0 : ¬ strcmp [47] [46, 46] = 0 := by decide
    simp [changeDirectory, hc, h0, strcmp_self, hr, hres]
  · intro h1 h2
    have h1' : ¬ strcmp target [46, 46] = 0 := fun e => h1 (strcmp_eq_zero.mp e)
    have h2' : ¬ strcmp target [47] = 0 := fun e => h2 (strcmp_eq_zero.mp e)
    have hfind := findChild_find hl target
    constructor
    · intro hno
      have : l.find? (fun y => decide (y.2.name = target)) = none := by
        rw [List.find?_eq_none]
        intro x hx
        simpa using hno x hx
      rw [this] at hfind
      simp [changeDirectory, hc, h1', h2', hfind]
    · intro x hx
      rw [hx] at hfind
      have hxl := List.mem_of_find?_eq_some hx
      obtain ⟨hxc, _⟩ := hcells x hxl
      constructor
      · intro hf
        simp [changeDirectory, hc, h1', h2', hfind, hxc, hf]
      · intro hf
        obtain ⟨res, hres⟩ :=
          getFullPath_returns inv.rep inv.nodup (inv.mem_of_load hxc)
        simp [changeDirectory, hc, h1', h2', hfind, hxc, hf, hres]

/-- Witness of C15: the target `"docs"` in the state `stDocsSub`, whose
current location is the root. -/
theorem changeDirectory_behaviour_witness :
    Reachable stDocsSub ∧ changeDirectory stDocsSub nameDocs = some (Msg.ok, stInDocs) :=
  ⟨reachable_stDocsSub, by
    obtain ⟨c, cn, r, l, hc, hcn, hr, hl, _, _, h3, _⟩ :=
      changeDirectory_behaviour stDocsSub reachable_stDocsSub nameDocs
    have e1 : c = 0 := by
      have : stDocsSub.currentDir = some 0 := rfl
      rw [hc] at this
      exact Option.some.inj this
    subst e1
    have e2 : l = [(1, ⟨nameDocs, false, some 0, some 2, none⟩)] := by
      have : childList stDocsSub.heap (some 0) =
          some [(1, ⟨nameDocs, false, some 0, some 2, none⟩)] := by decide
      rw [hl] at this
      exact Option.some.inj this
    subst e2
    exact ((h3 (by decide) (by decide)).2 (1, ⟨nameDocs, false, some 0, some 2, none⟩)
      (by decide)).2 rfl⟩

/-- C16. In every reachable state, for every folder `x` in the child sequence
of the current location whose name is neither `".."` nor `"/"`, the call
`changeDirectory(x.name)` succeeds and moves the current location to a folder
child carrying that name, and the call `changeDirectory("..")` that follows
succeeds and returns the state before the two calls: the current location is
what it was. -/
theorem changeDirectory_round_trip (s : FS) (hs : Reachable s) (c : Nat)
    (l : List (Nat × Node)) (x : Nat × Node) (hc : s.currentDir = some c)
    (hl : childList s.heap (some c) = some l) (hx : x ∈ l) (hfolder : x.2.isFile = false)
    (h1 : x.2.name ≠ [46, 46]) (h2 : x.2.name ≠ [47]) :
    ∃ y s1, y ∈ l ∧ y.2.name = x.2.name ∧ y.2.isFile = false ∧
      s1 = { s with currentDir := some y.1 } ∧
      changeDirectory s x.2.name = some (Msg.ok, s1) ∧
      changeDirectory s1 [46, 46] = some (Msg.ok, s) := by
  obtain ⟨t, inv⟩ := hs.inv
  obtain ⟨c', cn, hc', hcn, _⟩ := inv.cur
  rw [hc] at hc'
  cases hc'
  have hcm := inv.mem_of_load hcn
  obtain ⟨l', hl', _, hk, hcells⟩ := childList_spec inv.rep inv.nodup hcm
  rw [hl] at hl'
  cases hl'
  have hsorted : l.Pairwise (fun a b => entryLe (entryOf a) (entryOf b)) := by
    have := LT.sorted_pairwise (inv.sorted.ofSub c).children
    rw [← hk, List.pairwise_map] at this
    exact this
  have hfind := findChild_find hl x.2.name
  cases hy : l.find? (fun y => decide (y.2.name = x.2.name)) with
  | none =>
    rw [List.find?_eq_none] at hy
    exact absurd (by simp) (hy x hx)
  | some y =>
    rw [hy] at hfind
    have hyl := List.mem_of_find?_eq_some hy
    have hyn : y.2.name = x.2.name := by simpa using List.find?_some hy
    have hyf : y.2.isFile = false := by
      rcases find_pairwise hsorted hy hx (by simp) with e | e
      · rw [e]; exact hfolder
      · cases hb : y.2.isFile with
        | false => rfl
        | true =>
          have := e.1 hb
          simp only [entryOf] at this
          rw [hfolder] at this
          cases this
    obtain ⟨hyc, hyp⟩ := hcells y hyl
    obtain ⟨res, hres⟩ := getFullPath_returns inv.rep inv.nodup (inv.mem_of_load hyc)
    obtain ⟨res2, hres2⟩ := getFullPath_returns inv.rep inv.nodup hcm
    have h1' : ¬ strcmp x.2.name [46, 46] = 0 := fun e => h1 (strcmp_eq_zero.mp e)
    have h2' : ¬ strcmp x.2.name [47] = 0 := fun e => h2 (strcmp_eq_zero.mp e)
    refine ⟨y, _, hyl, hyn, hyf, rfl, ?_, ?_⟩
    · simp [changeDirectory, hc, h1', h2', hfind, hyc, hyf, hres]
    · have hs : ({ s with currentDir := some c } : FS) = s := by
        cases s
        simp only at hc
        subst hc
        rfl
      simp [changeDirectory, strcmp_self, hyc, hyp, hres2, hs]

/-- Witness of C16: from root into `"docs"` and back to root. -/
theorem changeDirectory_round_trip_witness :
    Reachable stDocsSub ∧
    ∃ y s1, y ∈ [((1 : Nat), (⟨nameDocs, false, some 0, some 2, none⟩ : Node))] ∧
      y.2.name = nameDocs ∧ y.2.isFile = false ∧
      s1 = { stDocsSub with currentDir := some y.1 } ∧
      changeDirectory stDocsSub nameDocs = some (Msg.ok, s1) ∧
      changeDirectory s1 [46, 46] = some (Msg.ok, stDocsSub) :=
  ⟨reachable_stDocsSub,
    changeDirectory_round_trip stDocsSub reachable_stDocsSub 0
      [(1, ⟨nameDocs, false, some 0, some 2, none⟩)] (1, ⟨nameDocs, false, some 0, some 2, none⟩)
      rfl (by decide) (by decide) rfl (by decide) (by decide)⟩

/-! ## Path texts -/

/-- A cut of the first part of a text does not show after a cut of the whole. -/
theorem take_take_append (k : Nat) (a b : List Nat) :
    ((a.take k) ++ b).take k = (a ++ b).take k := by
  by_cases hk : a.length ≤ k
  · rw [List.take_of_length_le hk]
  · have hk' : k ≤ a.length := by omega
    rw [List.take_append_eq_append_take, List.take_append_eq_append_take, List.take_take,
      Nat.min_self, List.length_take, Nat.min_eq_left hk']
    simp [Nat.sub_eq_zero_of_le hk']

/-- A cut of the last part of a text does not show after a cut of the whole. -/
theorem take_append_take (k : Nat) (a b : List Nat) :
    (a ++ b.take k).take k = (a ++ b).take k := by
  rw [List.take_append_eq_append_take, List.take_append_eq_append_take, List.take_take]
  congr 1
  congr 1
  omega

theorem joinPath_append (a b : List (List Nat)) : joinPath (a ++ b) = joinPath a ++ joinPath b := by
  simp [joinPath]

theorem joinPath_single (nm : List Nat) : joinPath [nm] = 47 :: nm := by
  simp [joinPath]

/-- The names already collected stay at the end of the result. -/
theorem namesLoop_acc {h : Heap} :
    ∀ (fuel : Nat) (p : Ptr) (acc : List (List Nat)),
      namesLoop fuel h p acc = (namesLoop fuel h p []).map (fun l => l ++ acc) := by
  intro fuel
  induction fuel with
  | zero => intro p acc; simp [namesLoop]
  | succ k ih =>
    intro p acc
    cases p with
    | none => simp [namesLoop]
    | some c =>
      simp only [namesLoop]
      cases hc : load h c with
      | none => simp
      | some n =>
        simp only []
        rw [ih n.parent (n.name :: acc), ih n.parent [n.name]]
        cases namesLoop k h n.parent [] with
        | none => simp
        | some l => simp

/-- The text built by the loop of `getFullPath` is the cut of the joined names
of the chain, followed by the text the loop started with. -/
theorem getFullPathLoop_names {h : Heap} :
    ∀ (fuel : Nat) (p : Ptr) (temp : List Nat) (names : List (List Nat)),
      temp.length ≤ MAX_PATH_LENGTH - 1 → namesLoop fuel h p [] = some names →
      getFullPathLoop fuel h p temp =
        some ((joinPath names ++ temp).take (MAX_PATH_LENGTH - 1)) := by
  intro fuel
  induction fuel with
  | zero => intro p temp names _ e; simp [namesLoop] at e
  | succ k ih =>
    intro p temp names ht e
    cases p with
    | none =>
      simp only [namesLoop, Option.some.injEq] at e
      subst e
      simp only [getFullPathLoop, joinPath, List.flatMap_nil, List.nil_append]
      rw [List.take_of_length_le ht]
    | some c =>
      simp only [namesLoop] at e
      cases hc : load h c with
      | none => simp [hc] at e
      | some n =>
        simp only [hc] at e
        rw [namesLoop_acc] at e
        cases hr : namesLoop k h n.parent [] with
        | none => simp [hr] at e
        | some l =>
          simp only [hr, Option.map_some', Option.some.injEq] at e
          subst e
          simp only [getFullPathLoop, hc]
          rw [ih n.parent _ l (List.length_take_le _ _) hr, take_append_take, joinPath_append,
            joinPath_single]
          simp

/-- The names collected on the way from `x` up to the top of a shape. -/
theorem namesLoop_path {h : Heap} {par : Ptr} {t : LT} (r : Rep h par t) {x : Nat}
    (hx : x ∈ t.addrs) (fuel : Nat) (acc : List (List Nat)) :
    namesLoop (fuel + (t.path x).length) h (some x) acc =
      namesLoop fuel h par (t.names x ++ acc) := by
  induction t generalizing par fuel acc with
  | nil => simp [LT.addrs] at hx
  | node b nm f fc ns ihfc ihns =>
    simp only [LT.addrs, List.mem_cons, List.mem_append] at hx
    by_cases hb : b = x
    · subst hb
      simp only [LT.path, LT.names, if_true, List.length_singleton, namesLoop, r.1,
        List.singleton_append]
    · by_cases hfc : x ∈ fc.addrs
      · simp only [LT.path, LT.names, hb, hfc, if_true, if_false, List.length_append,
          List.length_singleton]
        have e2 : fuel + ((fc.path x).length + 1) = fuel + 1 + (fc.path x).length := by omega
        rw [e2, ihfc r.2.1 hfc (fuel + 1) acc]
        simp only [namesLoop, r.1, List.cons_append]
      · have hns : x ∈ ns.addrs := by
          rcases hx with h1 | h1 | h1
          · exact absurd h1.symm hb
          · exact absurd h1 hfc
          · exact h1
        simp only [LT.path, LT.names, hb, hfc, if_false]
        exact ihns r.2.2 hns fuel acc

/-- The chain of names of a node of the tree, read from the heap. -/
theorem chainNames_spec {h : Heap} {t : LT} (r : Rep h none t) (nd : t.addrs.Nodup) {x : Nat}
    (hx : x ∈ t.addrs) : chainNames h x = some (t.names x) := by
  have h1 := LT.path_length_le t x
  have h2 := Rep.size_le r nd
  have e : h.length + 1 = (h.length - (t.path x).length) + 1 + (t.path x).length := by omega
  simp only [chainNames]
  rw [e, namesLoop_path r hx]
  simp [namesLoop]

/-- The text `getFullPath` returns: the joined names of the chain, cut to the
size of the buffer. -/
theorem getFullPath_spec {h : Heap} {t : LT} (r : Rep h none t) (nd : t.addrs.Nodup) {x : Nat}
    (hx : x ∈ t.addrs) :
    getFullPath h (some x) = some (some ((joinPath (t.names x)).take (MAX_PATH_LENGTH - 1))) := by
  have e := chainNames_spec r nd hx
  simp only [chainNames] at e
  simp only [getFullPath]
  rw [getFullPathLoop_names _ _ [] _ (by simp) e]
  simp

/-- Among siblings with distinct names, the lookup of a name finds the sibling
that carries it. -/
theorem LT.lookup_of_unique {sp : LT} (hu : sp.Forall uniqueAt) {y : Nat × (Bool × List Nat)}
    (hy : y ∈ sp.pairs) : sp.lookup y.2.2 = some y.1 := by
  induction sp with
  | nil => simp [LT.pairs] at hy
  | node b nmb fb fcb nsb _ ihns =>
    simp only [LT.pairs, List.mem_cons] at hy
    rcases hy with h1 | h1
    · subst h1
      simp [LT.lookup, strcmp_self]
    · have hk : y.2 ∈ nsb.kids := by
        rw [← LT.pairs_kids, List.mem_map]
        exact ⟨y, h1, rfl⟩
      have hne : ¬ strcmp nmb y.2.2 = 0 := fun e => hu.1 y.2 hk (strcmp_eq_zero.mp e).symm
      simp only [LT.lookup, hne, if_false]
      exact ihns hu.2.2 h1

/-- Successive calls of `findChild` along the names of the chain that leads
from a folder down to a node below it end at that node. -/
theorem resolve_names {h : Heap} {t : LT} (r : Rep h none t) (nd : t.addrs.Nodup) :
    ∀ (f : LT) (p : Nat), (∀ a ∈ f.addrs, t.sub a = f.sub a) → f.addrs.Nodup →
      f.Forall uniqueAt → (∀ y ∈ f.pairs, findChild h (some p) y.2.2 = some (some y.1)) →
      ∀ e ∈ f.addrs, resolve h (some p) (f.names e) = some (some e) := by
  intro f
  induction f with
  | nil => intro p _ _ _ _ e he; simp [LT.addrs] at he
  | node b nm fl fc ns ihfc ihns =>
    intro p hK ndf hu hH e he
    have ndf' := ndf
    simp only [LT.addrs, List.nodup_cons, List.nodup_append, List.mem_append, not_or] at ndf'
    obtain ⟨⟨hbfc, hbns⟩, ndfc, ndns, hdis⟩ := ndf'
    have hhead : findChild h (some p) nm = some (some b) :=
      hH (b, (fl, nm)) (by simp [LT.pairs])
    simp only [LT.addrs, List.mem_cons, List.mem_append] at he
    by_cases hb : b = e
    · subst hb
      simp [LT.names, resolve, hhead]
    · by_cases hfc : e ∈ fc.addrs
      · simp only [LT.names, hb, hfc, if_true, if_false, resolve, hhead]
        have hsb : t.sub b = LT.node b nm fl fc ns := by
          rw [hK b (by simp [LT.addrs])]
          simp [LT.sub]
        have hbm : b ∈ t.addrs := by
          by_contra hn
          rw [LT.sub_of_not_mem hn] at hsb
          cases hsb
        apply ihfc b
        · intro a ha
          rw [hK a (by simp [LT.addrs, ha])]
          have hba : ¬ b = a := fun e0 => hbfc (e0 ▸ ha)
          simp [LT.sub, hba, ha]
        · exact ndfc
        · exact hu.2.1
        · intro y hy
          rw [findChild_spec r nd hbm, hsb]
          simp only [LT.children]
          rw [LT.lookup_of_unique hu.2.1 hy]
        · exact hfc
      · have hns : e ∈ ns.addrs := by
          rcases he with h1 | h1 | h1
          · exact absurd h1.symm hb
          · exact absurd h1 hfc
          · exact h1
        simp only [LT.names, hb, hfc, if_false]
        apply ihns p
        · intro a ha
          rw [hK a (by simp [LT.addrs, ha])]
          have hba : ¬ b = a := fun e0 => hbns (e0 ▸ ha)
          have hafc : a ∉ fc.addrs := fun h1 => hdis h1 ha
          simp [LT.sub, hba, hafc]
        · exact ndns
        · exact hu.2.2
        · intro y hy
          exact hH y (by simp [LT.pairs, hy])
        · exact hns

/-- A shape in which every sibling chain carries pairwise-distinct names has
no node with a later sibling of its own name. -/
theorem LT.unique_of_sub : ∀ (f : LT), f.addrs.Nodup →
    f.kids.Pairwise (fun x y => x.2 ≠ y.2) →
    (∀ a ∈ f.addrs, (f.sub a).children.kids.Pairwise (fun x y => x.2 ≠ y.2)) →
    f.Forall uniqueAt := by
  intro f
  induction f with
  | nil => intro _ _ _; trivial
  | node b nm fl fc ns ihfc ihns =>
    intro nd hk hsub
    have nd' := nd
    simp only [LT.addrs, List.nodup_cons, List.nodup_append, List.mem_append, not_or] at nd'
    obtain ⟨⟨hbfc, hbns⟩, ndfc, ndns, hdis⟩ := nd'
    simp only [LT.kids, List.pairwise_cons] at hk
    refine ⟨fun e he => (hk.1 e he).symm, ?_, ?_⟩
    · apply ihfc ndfc
      · have := hsub b (by simp [LT.addrs])
        simpa [LT.sub, LT.children] using this
      · intro a ha
        have := hsub a (by simp [LT.addrs, ha])
        have hba : ¬ b = a := fun e0 => hbfc (e0 ▸ ha)
        simpa [LT.sub, hba, ha] using this
    · apply ihns ndns hk.2
      intro a ha
      have := hsub a (by simp [LT.addrs, ha])
      have hba : ¬ b = a := fun e0 => hbns (e0 ▸ ha)
      have hafc : a ∉ fc.addrs := fun h1 => hdis h1 ha
      simpa [LT.sub, hba, hafc] using this

/-- A well-formed state in which the children of every entry carry
pairwise-distinct stored names holds a tree with distinct sibling names. -/
theorem Inv.unique_of_distinct {s : FS} {t : LT} (inv : Inv s t)
    (hd : ∀ p l, childList s.heap (some p) = some l → (l.map (fun x => x.2.name)).Nodup) :
    t.Forall uniqueAt := by
  apply LT.unique_of_sub t inv.nodup
  · obtain ⟨r, nm, fc, _, ht⟩ := inv.root
    rw [ht]
    simp [LT.kids]
  · intro a ha
    obtain ⟨l, hl, _, hk, _⟩ := childList_spec inv.rep inv.nodup ha
    rw [← hk, List.pairwise_map]
    exact List.pairwise_map.mp (hd a l hl)

/-- Where the children of every entry carry pairwise-distinct stored names:
for every entry `e` reached from root of a reachable state, the walk up the
parent links from `e` ends at root and yields the names of the chain, the name
of the root first; the text `getFullPath(e)` is `"/"` and a name for every name
of that chain, joined and cut to 499 bytes; and successive calls of
`findChild`, starting at root, with the names of the chain below root, return
`e` itself. -/
theorem round_trip_of_distinct (s : FS) (hs : Reachable s)
    (hd : ∀ p l, childList s.heap (some p) = some l → (l.map (fun x => x.2.name)).Nodup)
    (e : Nat) (he : ReachableFrom s.heap s.root e) :
    ∃ r rn names, s.root = some r ∧ load s.heap r = some rn ∧
      chainNames s.heap e = some (rn.name :: names) ∧
      resolve s.heap s.root names = some (some e) ∧
      getFullPath s.heap (some e) =
        some (some ((joinPath (rn.name :: names)).take (MAX_PATH_LENGTH - 1))) := by
  obtain ⟨t, inv⟩ := hs.inv
  have hu := inv.unique_of_distinct hd
  have hem : e ∈ t.addrs := (inv.reach_iff e).mp he
  obtain ⟨r, nmr, fc, hr, ht⟩ := inv.root
  have hrep := inv.rep
  have hnd := inv.nodup
  have hchain := chainNames_spec hrep hnd hem
  have hpath := getFullPath_spec hrep hnd hem
  have hrm : r ∈ t.addrs := by rw [ht]; simp [LT.addrs]
  have hrn : load s.heap r = some ⟨nmr, false, none, fc.ptr, none⟩ := by
    have := hrep
    rw [ht] at this
    exact this.1
  have hnd' := hnd
  rw [ht] at hnd'
  simp only [LT.addrs, List.nodup_cons, List.nodup_append, List.mem_append, not_or] at hnd'
  obtain ⟨⟨hrfc, _⟩, ndfc, _, _⟩ := hnd'
  have hnames : ∃ names, t.names e = nmr :: names ∧
      resolve s.heap (some r) names = some (some e) := by
    by_cases hre : r = e
    · subst hre
      refine ⟨[], ?_, rfl⟩
      rw [ht]
      simp [LT.names]
    · have hefc : e ∈ fc.addrs := by
        rw [ht] at hem
        simp only [LT.addrs, List.mem_cons, List.mem_append] at hem
        rcases hem with h1 | h1 | h1
        · exact absurd h1.symm hre
        · exact h1
        · simp at h1
      refine ⟨fc.names e, ?_, ?_⟩
      · rw [ht]
        simp [LT.names, hre, hefc]
      · have hu' := hu
        rw [ht] at hu'
        apply resolve_names hrep hnd fc r
        · intro a ha
          have hra : ¬ r = a := fun e0 => hrfc (e0 ▸ ha)
          rw [ht]
          simp [LT.sub, hra, ha]
        · exact ndfc
        · exact hu'.2.1
        · intro y hy
          rw [findChild_spec hrep hnd hrm]
          have : (t.sub r).children = fc := by
            rw [ht]
            simp [LT.sub, LT.children]
          rw [this, LT.lookup_of_unique hu'.2.1 hy]
        · exact hefc
  obtain ⟨names, hn, hres⟩ := hnames
  rw [hn] at hchain hpath
  exact ⟨r, _, names, hr, hrn, hchain, by rw [hr]; exact hres, hpath⟩

/-- C14, the code at the failing input. In the state `stLong2`, reached by two
calls `createFolder(root, name)` with one name of 50 bytes, entry 2 is reached
from root; the chain from root down to it carries the names `"root"` and the
49 stored bytes, and `getFullPath(2)` is `"/root/"` followed by these bytes.
Starting at root, `findChild` with the name below root returns entry 1, the
first child of that name, and not entry 2. -/
theorem round_trip_twin :
    createFolder initFS (some 0) nameLong = some (Msg.ok, stLong1) ∧
    createFolder stLong1 (some 0) nameLong = some (Msg.ok, stLong2) ∧
    ReachableFrom stLong2.heap stLong2.root 2 ∧
    chainNames stLong2.heap 2 = some [nameRoot, List.replicate 49 97] ∧
    getFullPath stLong2.heap (some 2) =
      some (some (47 :: nameRoot ++ 47 :: List.replicate 49 97)) ∧
    resolve stLong2.heap stLong2.root [List.replicate 49 97] = some (some 1) :=
  ⟨by decide, by decide,
    ⟨0, rfl, Relation.ReflTransGen.tail
      (Relation.ReflTransGen.single
        ⟨⟨nameRoot, false, none, some 1, none⟩, by decide, Or.inl rfl⟩)
      ⟨⟨List.replicate 49 97, false, some 0, none, some 2⟩, by decide, Or.inr rfl⟩⟩,
    by decide, by decide, by decide⟩

/-! ## Depth-first search -/

/-- The loop of `searchDFS` over a sibling chain prints the lines of the shape. -/
theorem searchChildren_spec {h : Heap} {par : Ptr} (t : LT) (fuel : Nat)
    (hfuel : 2 * t.addrs.length + 1 ≤ fuel) (r : Rep h par t) (hl : t.Forall leafAt)
    (name pre : List Nat) :
    searchChildren fuel h t.ptr name pre = some (t.dfs name pre) := by
  induction t generalizing par fuel pre with
  | nil =>
    cases fuel with
    | zero => simp at hfuel
    | succ k => simp [searchChildren, LT.ptr_nil, LT.dfs]
  | node c nm f fc ns ihfc ihns =>
    simp only [LT.addrs, List.length_cons, List.length_append] at hfuel
    cases fuel with
    | zero => simp at hfuel
    | succ k =>
      cases k with
      | zero => omega
      | succ k' =>
        have e1 := ihfc k' (by omega) r.2.1 hl.2.1 ((pre ++ 47 :: nm).take (MAX_PATH_LENGTH - 1))
        have e2 := ihns (k' + 1) (by omega) r.2.2 hl.2.2 pre
        simp only [LT.ptr_node, searchChildren, r.1, searchDFS]
        cases hf : f with
        | true =>
          have hnil : fc = LT.nil := hl.1 hf
          subst hnil
          simp only [if_true, e2, LT.dfs]
          simp
        | false =>
          simp only [Bool.false_eq_true, if_false, e1, e2, LT.dfs]

/-- The call `searchDFS(root, name, "")` prints the lines of the tree. -/
theorem handleSearch_spec {s : FS} {t : LT} (inv : Inv s t) (name : List Nat) :
    handleSearch s name = some (t.dfs name []) := by
  obtain ⟨r, nm, fc, hr, ht⟩ := inv.root
  have hrep := inv.rep
  have hleaf := inv.leaf
  have hsz := Rep.size_le inv.rep inv.nodup
  subst ht
  simp only [LT.addrs, List.length_cons, List.length_append, List.length_nil] at hsz
  have e1 := searchChildren_spec fc (2 * s.heap.length + 1) (by omega) hrep.2.1 hleaf.2.1 name
    (([] ++ 47 :: nm).take (MAX_PATH_LENGTH - 1))
  unfold handleSearch
  rw [hr]
  have hcell := hrep.1
  simp only [searchDFS, hcell, Bool.false_eq_true, if_false, e1, LT.dfs]
  simp

/-- The lines of a shape, entry by entry: one line for every node whose name
contains the query, in the order of the addresses, with the joined names of
its chain as path. -/
theorem LT.dfs_eq {h : Heap} (name : List Nat) :
    ∀ (f : LT) (par : Ptr) (N : List (List Nat)), Rep h par f → f.addrs.Nodup →
      f.dfs name ((joinPath N).take (MAX_PATH_LENGTH - 1)) =
        (f.addrs.filter (matchesAt h name)).map
          (fun a => (kindAt h a, (joinPath (N ++ f.names a)).take (MAX_PATH_LENGTH - 1))) := by
  intro f
  induction f with
  | nil => intro par N _ _; simp [LT.dfs, LT.addrs]
  | node b nm fl fc ns ihfc ihns =>
    intro par N r nd
    have nd' := nd
    simp only [LT.addrs, List.nodup_cons, List.nodup_append, List.mem_append, not_or] at nd'
    obtain ⟨⟨hbfc, hbns⟩, ndfc, ndns, hdis⟩ := nd'
    have hpre : ((joinPath N).take (MAX_PATH_LENGTH - 1) ++ 47 :: nm).take (MAX_PATH_LENGTH - 1) =
        (joinPath (N ++ [nm])).take (MAX_PATH_LENGTH - 1) := by
      rw [take_take_append, joinPath_append, joinPath_single]
    have hmb : matchesAt h name b = strstr nm name := by simp [matchesAt, r.1]
    have hkb : kindAt h b = fl := by simp [kindAt, r.1]
    simp only [LT.dfs, hpre, LT.addrs, List.filter_cons, List.filter_append, hmb]
    rw [ihfc (some b) (N ++ [nm]) r.2.1 ndfc, ihns par N r.2.2 ndns]
    have e1 : (fc.addrs.filter (matchesAt h name)).map
          (fun a => (kindAt h a, (joinPath (N ++ [nm] ++ fc.names a)).take (MAX_PATH_LENGTH - 1))) =
        (fc.addrs.filter (matchesAt h name)).map
          (fun a => (kindAt h a,
            (joinPath (N ++ (LT.node b nm fl fc ns).names a)).take (MAX_PATH_LENGTH - 1))) := by
      apply List.map_congr_left
      intro a ha
      have hafc : a ∈ fc.addrs := (List.mem_filter.mp ha).1
      have hba : ¬ b = a := fun e0 => hbfc (e0 ▸ hafc)
      simp [LT.names, hba, hafc]
    have e2 : (ns.addrs.filter (matchesAt h name)).map
          (fun a => (kindAt h a, (joinPath (N ++ ns.names a)).take (MAX_PATH_LENGTH - 1))) =
        (ns.addrs.filter (matchesAt h name)).map
          (fun a => (kindAt h a,
            (joinPath (N ++ (LT.node b nm fl fc ns).names a)).take (MAX_PATH_LENGTH - 1))) := by
      apply List.map_congr_left
      intro a ha
      have hans : a ∈ ns.addrs := (List.mem_filter.mp ha).1
      have hba : ¬ b = a := fun e0 => hbns (e0 ▸ hans)
      have hafc : a ∉ fc.addrs := fun h1 => hdis h1 hans
      simp [LT.names, hba, hafc]
    rw [e1, e2]
    cases hs : strstr nm name with
    | true => simp [LT.names, hkb]
    | false => simp

/-- In the list of addresses of a shape, the nodes below `x` follow `x` directly. -/
theorem LT.addrs_split {t : LT} {x : Nat} (hx : x ∈ t.addrs) :
    ∃ l1 l2, t.addrs = l1 ++ x :: ((t.sub x).children.addrs ++ l2) := by
  induction t with
  | nil => simp [LT.addrs] at hx
  | node b nm f fc ns ihfc ihns =>
    simp only [LT.addrs, List.mem_cons, List.mem_append] at hx
    by_cases hb : b = x
    · subst hb
      exact ⟨[], ns.addrs, by simp [LT.addrs, LT.sub, LT.children]⟩
    · by_cases hfc : x ∈ fc.addrs
      · obtain ⟨l1, l2, e⟩ := ihfc hfc
        refine ⟨b :: l1, l2 ++ ns.addrs, ?_⟩
        simp only [LT.addrs, LT.sub, hb, hfc, if_true, if_false]
        rw [e]
        simp
      · have hns : x ∈ ns.addrs := by
          rcases hx with h1 | h1 | h1
          · exact absurd h1.symm hb
          · exact absurd h1 hfc
          · exact h1
        obtain ⟨l1, l2, e⟩ := ihns hns
        refine ⟨b :: (fc.addrs ++ l1), l2, ?_⟩
        simp only [LT.addrs, LT.sub, hb, hfc, if_false]
        rw [e]
        simp

/-- A node comes before every node below it. -/
theorem LT.above_before {t : LT} {x y : Nat} (hx : x ∈ t.addrs)
    (hy : y ∈ (t.sub x).children.addrs) : List.Sublist [x, y] t.addrs := by
  obtain ⟨l1, l2, e⟩ := LT.addrs_split hx
  rw [e]
  apply List.Sublist.trans _ (List.sublist_append_right _ _)
  apply List.Sublist.cons₂
  exact List.Sublist.trans (List.singleton_sublist.mpr hy) (List.sublist_append_left _ _)

/-- The nodes at and below a sibling come before the nodes at and below a later sibling. -/
theorem LT.siblings_before {f : LT} (nd : f.addrs.Nodup) {a b x y : Nat}
    (hab : List.Sublist [a, b] f.spine)
    (hx : x = a ∨ x ∈ (f.sub a).children.addrs) (hy : y = b ∨ y ∈ (f.sub b).children.addrs) :
    List.Sublist [x, y] f.addrs := by
  induction f with
  | nil => simp [LT.spine] at hab
  | node c nm fl fc ns _ ihns =>
    have nd' := nd
    simp only [LT.addrs, List.nodup_cons, List.nodup_append, List.mem_append, not_or] at nd'
    obtain ⟨⟨hcfc, hcns⟩, ndfc, ndns, hdis⟩ := nd'
    have hsub : ∀ z ∈ ns.addrs, (LT.node c nm fl fc ns).sub z = ns.sub z := by
      intro z hz
      have hcz : ¬ c = z := fun e0 => hcns (e0 ▸ hz)
      have hzfc : z ∉ fc.addrs := fun h1 => hdis h1 hz
      simp [LT.sub, hcz, hzfc]
    simp only [LT.spine] at hab
    simp only [LT.addrs]
    cases hab with
    | cons _ h =>
      have ha : a ∈ ns.addrs := LT.spine_subset _ _ (h.subset (by simp))
      have hb : b ∈ ns.addrs := LT.spine_subset _ _ (h.subset (by simp))
      rw [hsub a ha] at hx
      rw [hsub b hb] at hy
      have := ihns ndns h hx hy
      exact List.Sublist.trans this
        (List.Sublist.trans (List.sublist_append_right _ _) (List.sublist_cons_self _ _))
    | cons₂ _ h =>
      have hb : b ∈ ns.addrs := LT.spine_subset _ _ (h.subset (by simp))
      rw [hsub b hb] at hy
      have hy' : y ∈ ns.addrs := by
        rcases hy with h1 | h1
        · rw [h1]; exact hb
        · exact LT.sub_children_subset _ h1
      have hx' : x ∈ a :: fc.addrs := by
        simp only [LT.sub, if_true, LT.children] at hx
        rcases hx with h1 | h1
        · simp [h1]
        · simp [h1]
      have := List.Sublist.append (List.singleton_sublist.mpr hx') (List.singleton_sublist.mpr hy')
      simpa using this

/-- The children of a node and everything below them stand together in the
list of addresses of a shape. -/
theorem LT.children_sublist {t : LT} {p : Nat} (hp : p ∈ t.addrs) :
    List.Sublist (t.sub p).children.addrs t.addrs := by
  obtain ⟨l1, l2, e⟩ := LT.addrs_split hp
  rw [e]
  apply List.Sublist.trans _ (List.sublist_append_right _ _)
  exact List.Sublist.trans (List.sublist_append_left _ _) (List.sublist_cons_self _ _)

/-- The lines of `searchDFS` started at root, entry by entry. -/
theorem handleSearch_entries {s : FS} {t : LT} (inv : Inv s t) (name : List Nat) :
    handleSearch s name = some ((t.addrs.filter (matchesAt s.heap name)).map
      (fun a => (kindAt s.heap a, (joinPath (t.names a)).take (MAX_PATH_LENGTH - 1)))) := by
  rw [handleSearch_spec inv name]
  have := LT.dfs_eq name t none [] inv.rep inv.nodup
  simp only [joinPath, List.flatMap_nil, List.take_nil, List.nil_append] at this
  rw [this]
  rfl

/-- Two elements with a property keep their order when the others are filtered out. -/
theorem pair_filter {l : List Nat} {x y : Nat} (p : Nat → Bool) (h : List.Sublist [x, y] l)
    (hx : p x = true) (hy : p y = true) : List.Sublist [x, y] (l.filter p) := by
  have := h.filter p
  simpa [List.filter_cons, hx, hy] using this

/-- The line printed for an entry of the tree: its kind and the text of
`getFullPath`, which is the cut of the joined names of its chain. -/
theorem Inv.lines_forall {s : FS} {t : LT} (inv : Inv s t) {es : List Nat}
    (hes : ∀ e ∈ es, e ∈ t.addrs) :
    List.Forall₂ (fun ln e => ∃ n names, load s.heap e = some n ∧ ln.1 = n.isFile ∧
        chainNames s.heap e = some names ∧
        ln.2 = (joinPath names).take (MAX_PATH_LENGTH - 1) ∧
        getFullPath s.heap (some e) = some (some ln.2))
      (es.map (fun a => (kindAt s.heap a, (joinPath (t.names a)).take (MAX_PATH_LENGTH - 1))))
      es := by
  rw [List.forall₂_map_left_iff, List.forall₂_same]
  intro e he
  have hem := hes e he
  obtain ⟨n, hn⟩ := inv.rep.live hem
  exact ⟨n, t.names e, hn, by simp [kindAt, hn], chainNames_spec inv.rep inv.nodup hem, rfl,
    getFullPath_spec inv.rep inv.nodup hem⟩

/-- The entries whose name contains the query, in the order of the addresses
of the tree. -/
theorem Inv.mem_matching {s : FS} {t : LT} (inv : Inv s t) (q : List Nat) (e : Nat) :
    e ∈ t.addrs.filter (matchesAt s.heap q) ↔
      ReachableFrom s.heap s.root e ∧ ∃ n, load s.heap e = some n ∧ strstr n.name q = true := by
  rw [List.mem_filter, inv.reach_iff]
  constructor
  · rintro ⟨h1, h2⟩
    obtain ⟨n, hn⟩ := inv.rep.live h1
    refine ⟨h1, n, hn, ?_⟩
    simpa [matchesAt, hn] using h2
  · rintro ⟨h1, n, hn, h2⟩
    exact ⟨h1, by simp [matchesAt, hn, h2]⟩

/-- The order of the addresses of the tree is a pre-order: an entry stands
before the entries below it, and the entries at and below a child stand before
those at and below a later child of the same parent. -/
theorem Inv.preorder {s : FS} {t : LT} (inv : Inv s t) :
    (∀ x y, x ∈ t.addrs → y ∈ t.addrs → Ancestor s.heap x y → List.Sublist [x, y] t.addrs) ∧
    (∀ p l a b x y, childList s.heap (some p) = some l →
      List.Sublist [a, b] (l.map (fun z => z.1)) → x ∈ t.addrs → y ∈ t.addrs →
      AtOrAbove s.heap a x → AtOrAbove s.heap b y → List.Sublist [x, y] t.addrs) := by
  constructor
  · intro x y hx hy hanc
    obtain ⟨hne, hab⟩ := inv.ancestor_ne hanc
    rw [atOrAbove_iff_mem inv.rep inv.nodup hy] at hab
    rcases hab with h1 | h1
    · exact absurd h1.symm hne
    · exact LT.above_before hx h1
  · intro p l a b x y hl hab hx hy hax hby
    have hpl : ∃ pn, load s.heap p = some pn := by
      simp only [childList] at hl
      cases hp : load s.heap p with
      | none => simp [hp] at hl
      | some pn => exact ⟨pn, rfl⟩
    obtain ⟨pn, hp⟩ := hpl
    have hpm := inv.mem_of_load hp
    obtain ⟨l', hl', hsp, _, _⟩ := childList_spec inv.rep inv.nodup hpm
    rw [hl] at hl'
    cases hl'
    rw [hsp] at hab
    have ha : a ∈ (t.sub p).children.addrs := LT.spine_subset _ _ (hab.subset (by simp))
    have hb : b ∈ (t.sub p).children.addrs := LT.spine_subset _ _ (hab.subset (by simp))
    rw [atOrAbove_iff_mem inv.rep inv.nodup hx, ← LT.children_sub inv.nodup ha] at hax
    rw [atOrAbove_iff_mem inv.rep inv.nodup hy, ← LT.children_sub inv.nodup hb] at hby
    have := LT.siblings_before (LT.children_nodup (LT.sub_nodup inv.nodup p)) hab hax hby
    exact this.trans (LT.children_sublist hpm)

/-- C12. In every reachable state and for every query, `searchDFS` started at
root returns, and its lines stand one for one against a list `es` of entries:
each line gives the kind of its entry and the text `getFullPath` returns for
it; `es` has no entry twice and holds exactly the entries reached from root
(files and folders, the root included) whose own name contains the query, so
that a folder that does not match is still searched; and `es` is in
pre-order: an entry stands before every entry below it, and for two children
of one parent, the entries at and below the child that comes first in the
stored child sequence stand before those at and below the other. -/
theorem searchDFS_preorder (s : FS) (hs : Reachable s) (q : List Nat) :
    ∃ lines es, handleSearch s q = some lines ∧
      List.Forall₂ (fun ln e => ∃ n, load s.heap e = some n ∧ ln.1 = n.isFile ∧
        getFullPath s.heap (some e) = some (some ln.2)) lines es ∧
      es.Nodup ∧
      (∀ e, e ∈ es ↔ ReachableFrom s.heap s.root e ∧
        ∃ n, load s.heap e = some n ∧ strstr n.name q = true) ∧
      (∀ x y, x ∈ es → y ∈ es → Ancestor s.heap x y → List.Sublist [x, y] es) ∧
      (∀ p l a b x y, childList s.heap (some p) = some l →
        List.Sublist [a, b] (l.map (fun z => z.1)) → x ∈ es → y ∈ es →
        AtOrAbove s.heap a x → AtOrAbove s.heap b y → List.Sublist [x, y] es) := by
  obtain ⟨t, inv⟩ := hs.inv
  have hsub : ∀ e ∈ t.addrs.filter (matchesAt s.heap q), e ∈ t.addrs :=
    fun e he => (List.mem_filter.mp he).1
  refine ⟨_, t.addrs.filter (matchesAt s.heap q), handleSearch_entries inv q, ?_,
    inv.nodup.filter _, inv.mem_matching q, ?_, ?_⟩
  · apply (inv.lines_forall hsub).imp
    rintro ln e ⟨n, names, h1, h2, _, _, h5⟩
    exact ⟨n, h1, h2, h5⟩
  · intro x y hx hy hanc
    exact pair_filter _ (inv.preorder.1 x y (hsub x hx) (hsub y hy) hanc)
      (List.mem_filter.mp hx).2 (List.mem_filter.mp hy).2
  · intro p l a b x y hl hab hx hy hax hby
    exact pair_filter _ (inv.preorder.2 p l a b x y hl hab (hsub x hx) (hsub y hy) hax hby)
      (List.mem_filter.mp hx).2 (List.mem_filter.mp hy).2

/-- Witness of C12: the query `"a"` on the scenario tree. -/
theorem searchDFS_preorder_witness :
    Reachable stScenario ∧
    ∃ lines es, handleSearch stScenario [97] = some lines ∧
      List.Forall₂ (fun ln e => ∃ n, load stScenario.heap e = some n ∧ ln.1 = n.isFile ∧
        getFullPath stScenario.heap (some e) = some (some ln.2)) lines es ∧
      es.Nodup ∧
      (∀ e, e ∈ es ↔ ReachableFrom stScenario.heap stScenario.root e ∧
        ∃ n, load stScenario.heap e = some n ∧ strstr n.name [97] = true) ∧
      (∀ x y, x ∈ es → y ∈ es → Ancestor stScenario.heap x y → List.Sublist [x, y] es) ∧
      (∀ p l a b x y, childList stScenario.heap (some p) = some l →
        List.Sublist [a, b] (l.map (fun z => z.1)) → x ∈ es → y ∈ es →
        AtOrAbove stScenario.heap a x → AtOrAbove stScenario.heap b y →
        List.Sublist [x, y] es) :=
  ⟨reachable_stScenario, searchDFS_preorder stScenario reachable_stScenario [97]⟩

/-! ## Breadth-first search -/

/-- The nodes of a shape, sibling by sibling: each with the nodes below it. -/
theorem LT.spine_blocks {f : LT} (nd : f.addrs.Nodup) : f.spine.flatMap f.block = f.addrs := by
  induction f with
  | nil => simp [LT.spine, LT.addrs]
  | node b nm fl fc ns _ ihns =>
    have nd' := nd
    simp only [LT.addrs, List.nodup_cons, List.nodup_append, List.mem_append, not_or] at nd'
    obtain ⟨⟨hbfc, hbns⟩, ndfc, ndns, hdis⟩ := nd'
    have hcongr : ns.spine.flatMap (LT.node b nm fl fc ns).block = ns.spine.flatMap ns.block := by
      apply List.flatMap_congr
      intro c hc
      have hcn := LT.spine_subset _ _ hc
      have hbc : ¬ b = c := fun e0 => hbns (e0 ▸ hcn)
      have hcfc : c ∉ fc.addrs := fun h1 => hdis h1 hcn
      simp [LT.block, LT.sub, hbc, hcfc]
    simp only [LT.spine, List.flatMap_cons, hcongr, ihns ndns, LT.addrs]
    simp [LT.block, LT.sub, LT.children]

/-- The children of a node, each with the nodes below it, are the nodes below
the node. -/
theorem LT.kids_blocks {t : LT} (nd : t.addrs.Nodup) (a : Nat) :
    (t.sub a).children.spine.flatMap t.block = (t.sub a).children.addrs := by
  have hnd := LT.children_nodup (LT.sub_nodup nd a)
  rw [← LT.spine_blocks hnd]
  apply List.flatMap_congr
  intro c hc
  have hcn := LT.spine_subset _ _ hc
  simp [LT.block, LT.children_sub nd hcn]

theorem LT.weight_nil (t : LT) : t.weight [] = 0 := by simp [LT.weight]

theorem LT.weight_cons (t : LT) (a : Nat) (P : List Nat) :
    t.weight (a :: P) = (t.sub a).children.addrs.length + 1 + t.weight P := by
  simp [LT.weight, LT.block]
  omega

theorem LT.weight_append (t : LT) (P R : List Nat) :
    t.weight (P ++ R) = t.weight P + t.weight R := by
  simp [LT.weight]

theorem LT.weight_kids {t : LT} (nd : t.addrs.Nodup) (a : Nat) :
    t.weight (t.sub a).children.spine = (t.sub a).children.addrs.length := by
  simp [LT.weight, LT.kids_blocks nd a]

theorem LT.length_le_weight (t : LT) (P : List Nat) : P.length ≤ t.weight P := by
  induction P with
  | nil => simp
  | cons a P ih => rw [LT.weight_cons]; simp only [List.length_cons]; omega

/-- The inner loop of `searchBFS` appends the children to the queue, and has
no defined result when they do not fit. -/
theorem enqueueLoop_spec {h : Heap} {par : Ptr} (sp : LT) (fuel : Nat) (queue : List Nat)
    (hfuel : sp.spine.length < fuel) (r : Rep h par sp) (hq : queue.length ≤ QUEUE_SLOTS) :
    enqueueLoop fuel h sp.ptr queue =
      if queue.length + sp.spine.length ≤ QUEUE_SLOTS then some (queue ++ sp.spine) else none := by
  induction sp generalizing fuel queue with
  | nil =>
    cases fuel with
    | zero => simp at hfuel
    | succ k => simp [enqueueLoop, LT.ptr_nil, LT.spine, hq]
  | node b nm fl fc ns _ ihns =>
    simp only [LT.spine, List.length_cons] at hfuel
    cases fuel with
    | zero => simp at hfuel
    | succ k =>
      simp only [LT.ptr_node, enqueueLoop, LT.spine, List.length_cons]
      by_cases hlt : queue.length < QUEUE_SLOTS
      · have hq' : (queue ++ [b]).length ≤ QUEUE_SLOTS := by simp; omega
        simp only [hlt, if_true, r.1]
        rw [ihns k (queue ++ [b]) (by omega) r.2.2 hq']
        simp only [List.length_append, List.length_singleton, List.append_assoc,
          List.singleton_append]
        have : queue.length + 1 + ns.spine.length = queue.length + (ns.spine.length + 1) := by
          omega
        rw [this]
      · have : ¬ queue.length + (ns.spine.length + 1) ≤ QUEUE_SLOTS := by omega
        simp [hlt, this]

/-- One turn of the outer loop of `searchBFS`, the head of the waiting part of
the queue being the node `a` of the tree: the line for `a` is printed when its
name matches, and the children of `a` join the queue, if they fit. -/
theorem bfsLoop_step {s : FS} {t : LT} (inv : Inv s t) (q : List Nat) (k : Nat)
    (done P : List Nat) {a : Nat} (ha : a ∈ t.addrs)
    (hq : (done ++ a :: P).length ≤ QUEUE_SLOTS) :
    bfsLoop (k + 1) s.heap (done ++ a :: P) done.length q =
      if (done ++ a :: P).length + (t.sub a).children.spine.length ≤ QUEUE_SLOTS then
        (bfsLoop k s.heap ((done ++ [a]) ++ (P ++ (t.sub a).children.spine))
          (done ++ [a]).length q).map
          (fun x => ((if matchesAt s.heap q a then
              [(kindAt s.heap a, (joinPath (t.names a)).take (MAX_PATH_LENGTH - 1))]
            else []) ++ x.1, x.2.1, x.2.2))
      else none := by
  obtain ⟨nm, f, fc, ns, e⟩ := LT.sub_node ha
  obtain ⟨hcell, rfc⟩ := inv.rep.cell_of_sub e
  have hpath := getFullPath_spec inv.rep inv.nodup ha
  have hleaf := inv.leaf.ofSub a
  rw [e] at hleaf
  have hlt : done.length < (done ++ a :: P).length := by simp
  have hget : (done ++ a :: P).get? done.length = some a := by
    rw [List.get?_eq_getElem?, List.getElem?_append_right (Nat.le_refl _)]
    simp
  have hm : matchesAt s.heap q a = strstr nm q := by simp [matchesAt, hcell]
  have hk : kindAt s.heap a = f := by simp [kindAt, hcell]
  have hndfc : fc.addrs.Nodup := by
    have := LT.children_nodup (LT.sub_nodup inv.nodup a)
    rw [e] at this
    exact this
  have hfuel : fc.spine.length < s.heap.length + 1 := by
    have h1 := LT.spine_length_le fc
    have h2 := Rep.size_le rfc hndfc
    omega
  have hl : (done ++ [a]).length = done.length + 1 := by simp
  rw [bfsLoop]
  simp only [hlt, if_true, hget, hcell, hpath, e, LT.children, hm, hk]
  have hq' : (done ++ a :: P).length ≤ QUEUE_SLOTS := hq
  have hassoc : ∀ l : List Nat, done ++ a :: P ++ l = done ++ [a] ++ (P ++ l) := by
    intro l; simp
  cases hf : f with
  | true =>
    have hnil : fc = LT.nil := hleaf.1 hf
    subst hnil
    simp only [if_true, LT.spine, List.length_nil, Nat.add_zero, hq', List.append_nil]
    have h0 := hassoc []
    simp only [List.append_nil] at h0
    rw [← h0]
    cases hs : strstr nm q with
    | true => simp only [if_true, hl]
    | false => simp only [Bool.false_eq_true, if_false, hl]
  | false =>
    simp only [Bool.false_eq_true, if_false]
    rw [enqueueLoop_spec fc _ _ hfuel rfc hq']
    by_cases hfit : (done ++ a :: P).length + fc.spine.length ≤ QUEUE_SLOTS
    · simp only [hfit, if_true]
      rw [← hassoc]
      cases hs : strstr nm q with
      | true => simp only [if_true, hl]
      | false => simp only [Bool.false_eq_true, if_false, hl]
    · simp only [hfit, if_false]
      cases hs : strstr nm q with
      | true => simp
      | false => simp

/-- The outer loop of `searchBFS`, started on a queue whose waiting part `P`
consists of nodes of the tree, when everything at and below these nodes fits
into the array: the nodes are visited in the order `LT.bfs`, each visited node
is in the final queue, and the loop ends with `front` at the end of the queue. -/
theorem bfsLoop_spec {s : FS} {t : LT} (inv : Inv s t) (q : List Nat) :
    ∀ (n : Nat) (done P : List Nat) (fuel : Nat), (∀ a ∈ P, a ∈ t.addrs) → t.weight P ≤ n →
      done.length + t.weight P ≤ QUEUE_SLOTS → n < fuel →
      bfsLoop fuel s.heap (done ++ P) done.length q =
        some (((t.bfs n P).filter (matchesAt s.heap q)).map
            (fun a => (kindAt s.heap a, (joinPath (t.names a)).take (MAX_PATH_LENGTH - 1))),
          done ++ t.bfs n P, done.length + (t.bfs n P).length) := by
  intro n
  induction n with
  | zero =>
    intro done P fuel _ hw _ hfuel
    have hP : P = [] := by
      have := LT.length_le_weight t P
      exact List.length_eq_zero.mp (by omega)
    subst hP
    cases fuel with
    | zero => omega
    | succ k => rw [bfsLoop]; simp [LT.bfs]
  | succ n ih =>
    intro done P fuel hmem hw hfit hfuel
    cases fuel with
    | zero => omega
    | succ k =>
      cases P with
      | nil => rw [bfsLoop]; simp [LT.bfs]
      | cons a P =>
        have ha : a ∈ t.addrs := hmem a (by simp)
        rw [LT.weight_cons] at hw hfit
        have h1 := LT.length_le_weight t P
        have h2 := LT.spine_length_le (t.sub a).children
        have hq : (done ++ a :: P).length ≤ QUEUE_SLOTS := by
          simp only [List.length_append, List.length_cons]; omega
        have hc : (done ++ a :: P).length + (t.sub a).children.spine.length ≤ QUEUE_SLOTS := by
          simp only [List.length_append, List.length_cons]; omega
        rw [bfsLoop_step inv q k done P ha hq]
        simp only [hc, if_true]
        have hmem' : ∀ x ∈ P ++ (t.sub a).children.spine, x ∈ t.addrs := by
          intro x hx
          rcases List.mem_append.mp hx with h3 | h3
          · exact hmem x (by simp [h3])
          · exact LT.sub_children_subset _ (LT.spine_subset _ _ h3)
        have hw' : t.weight (P ++ (t.sub a).children.spine) =
            t.weight P + (t.sub a).children.addrs.length := by
          rw [LT.weight_append, LT.weight_kids inv.nodup]
        rw [ih (done ++ [a]) (P ++ (t.sub a).children.spine) k hmem' (by omega)
          (by simp only [List.length_append, List.length_singleton]; omega) (by omega)]
        simp only [Option.map_some', LT.bfs, List.filter_cons, List.length_append,
          List.length_singleton, List.length_cons, List.append_assoc, List.singleton_append]
        cases hm : matchesAt s.heap q a with
        | true => simp; omega
        | false => simp; omega

/-- The same loop when what is at and below the waiting nodes does not fit
into the array: the run has no defined result. -/
theorem bfsLoop_overflow {s : FS} {t : LT} (inv : Inv s t) (q : List Nat) :
    ∀ (fuel : Nat) (done P : List Nat), (∀ a ∈ P, a ∈ t.addrs) →
      done.length + P.length ≤ QUEUE_SLOTS → QUEUE_SLOTS < done.length + t.weight P →
      bfsLoop fuel s.heap (done ++ P) done.length q = none := by
  intro fuel
  induction fuel with
  | zero => intro done P _ _ _; rfl
  | succ k ih =>
    intro done P hmem hlen hw
    cases P with
    | nil =>
      rw [LT.weight_nil] at hw
      simp only [List.length_nil] at hlen
      omega
    | cons a P =>
      have ha : a ∈ t.addrs := hmem a (by simp)
      have hq : (done ++ a :: P).length ≤ QUEUE_SLOTS := by
        simp only [List.length_append]; exact hlen
      rw [bfsLoop_step inv q k done P ha hq]
      split
      · rename_i hc
        have hmem' : ∀ x ∈ P ++ (t.sub a).children.spine, x ∈ t.addrs := by
          intro x hx
          rcases List.mem_append.mp hx with h3 | h3
          · exact hmem x (by simp [h3])
          · exact LT.sub_children_subset _ (LT.spine_subset _ _ h3)
        rw [ih (done ++ [a]) (P ++ (t.sub a).children.spine) hmem']
        · rfl
        · simp only [List.length_append, List.length_cons, List.length_singleton,
            List.length_nil] at hc ⊢
          omega
        · rw [LT.weight_append, LT.weight_kids inv.nodup]
          rw [LT.weight_cons] at hw
          simp only [List.length_append, List.length_singleton]
          omega
      · rfl

/-- The order of a queue goes through the nodes at and below the waiting
nodes, each once. -/
theorem LT.bfs_perm {t : LT} (nd : t.addrs.Nodup) :
    ∀ (n : Nat) (P : List Nat), (∀ a ∈ P, a ∈ t.addrs) → t.weight P ≤ n →
      (t.bfs n P).Perm (P.flatMap t.block) := by
  intro n
  induction n with
  | zero =>
    intro P _ hw
    have hP : P = [] := by
      have := LT.length_le_weight t P
      exact List.length_eq_zero.mp (by omega)
    subst hP
    simp [LT.bfs]
  | succ n ih =>
    intro P hmem hw
    cases P with
    | nil => simp [LT.bfs]
    | cons a P =>
      have hmem' : ∀ x ∈ P ++ (t.sub a).children.spine, x ∈ t.addrs := by
        intro x hx
        rcases List.mem_append.mp hx with h3 | h3
        · exact hmem x (by simp [h3])
        · exact LT.sub_children_subset _ (LT.spine_subset _ _ h3)
      rw [LT.weight_cons] at hw
      have hw' : t.weight (P ++ (t.sub a).children.spine) ≤ n := by
        rw [LT.weight_append, LT.weight_kids nd]; omega
      have := ih (P ++ (t.sub a).children.spine) hmem' hw'
      rw [List.flatMap_append, LT.kids_blocks nd] at this
      simp only [LT.bfs, List.flatMap_cons, LT.block, List.cons_append]
      exact List.Perm.cons a (this.trans List.perm_append_comm)

/-- The level order goes through the nodes of a shape, each once. -/
theorem LT.levelOrder_perm {t : LT} (nd : t.addrs.Nodup) : t.levelOrder.Perm t.addrs := by
  have hw : t.weight t.spine = t.addrs.length := by
    simp [LT.weight, LT.spine_blocks nd]
  have := LT.bfs_perm nd t.addrs.length t.spine (LT.spine_subset t) (by omega)
  have hb : t.spine.flatMap t.block = t.addrs := by
    have := LT.spine_blocks nd
    exact this
  rw [hb] at this
  exact this

/-- The entries of the tree are the allocated cells. -/
theorem Inv.entries_perm {s : FS} {t : LT} (inv : Inv s t) : t.addrs.Perm (entries s.heap) := by
  have hnd : (entries s.heap).Nodup := (List.nodup_range _).filter _
  rw [List.perm_ext_iff_of_nodup inv.nodup hnd]
  intro a
  simp only [entries, List.mem_filter, List.mem_range]
  constructor
  · intro ha
    obtain ⟨n, hn⟩ := inv.rep.live ha
    exact ⟨load_lt hn, by simp [hn]⟩
  · rintro ⟨_, h2⟩
    cases hn : load s.heap a with
    | none => simp [hn] at h2
    | some n => exact inv.mem_of_load hn

theorem Inv.count {s : FS} {t : LT} (inv : Inv s t) :
    t.addrs.length = (entries s.heap).length :=
  inv.entries_perm.length_eq

/-- The top sibling chain of the tree is the root alone. -/
theorem Inv.spine_root {s : FS} {t : LT} (inv : Inv s t) :
    ∃ r, s.root = some r ∧ t.spine = [r] := by
  obtain ⟨r, nm, fc, hr, ht⟩ := inv.root
  exact ⟨r, hr, by rw [ht]; simp [LT.spine]⟩

/-- The run of `searchBFS` on a tree that fits into the array: the entries are
visited in level order, the line of every visited entry whose name matches is
printed, the final queue holds the visited entries, and the number of turns of
the loop is their number. -/
theorem searchBFSRun_spec {s : FS} {t : LT} (inv : Inv s t) (q : List Nat)
    (hsize : t.addrs.length ≤ QUEUE_SLOTS) :
    searchBFSRun s.heap s.root q =
      some ((t.levelOrder.filter (matchesAt s.heap q)).map
          (fun a => (kindAt s.heap a, (joinPath (t.names a)).take (MAX_PATH_LENGTH - 1))),
        t.levelOrder, t.levelOrder.length) := by
  obtain ⟨r, hr, hsp⟩ := inv.spine_root
  have hw : t.weight t.spine = t.addrs.length := by
    simp [LT.weight, LT.spine_blocks inv.nodup]
  have := bfsLoop_spec inv q t.addrs.length [] t.spine (QUEUE_SLOTS + 1) (LT.spine_subset t)
    (by omega) (by simp only [List.length_nil]; omega) (by omega)
  simp only [List.nil_append, List.length_nil, Nat.zero_add] at this
  simp only [searchBFSRun, hr]
  rw [← hsp, this]
  rfl

/-- The run of `searchBFS` on a tree of more entries than the array has
slots: some write `queue[rear++]` falls outside the array, and the run has no
defined result. -/
theorem searchBFSRun_overflow {s : FS} {t : LT} (inv : Inv s t) (q : List Nat)
    (hsize : QUEUE_SLOTS < t.addrs.length) : searchBFSRun s.heap s.root q = none := by
  obtain ⟨r, hr, hsp⟩ := inv.spine_root
  have hw : t.weight t.spine = t.addrs.length := by
    simp [LT.weight, LT.spine_blocks inv.nodup]
  have := bfsLoop_overflow inv q (QUEUE_SLOTS + 1) [] t.spine (LT.spine_subset t)
    (by rw [hsp]; simp [QUEUE_SLOTS]) (by simp only [List.length_nil]; omega)
  simp only [List.nil_append, List.length_nil] at this
  simp only [searchBFSRun, hr]
  rw [← hsp, this]

/-- On a tree that fits into the array of `searchBFS`, the two searches print
the same lines, each as often as the other. -/
theorem search_same_lines {s : FS} (hs : Reachable s) (q : List Nat)
    (hsize : (entries s.heap).length ≤ QUEUE_SLOTS) :
    ∃ r1 r2, handleSearch s q = some r1 ∧ searchBFS s.heap s.root q = some r2 ∧
      r1.Perm r2 := by
  obtain ⟨t, inv⟩ := hs.inv
  rw [← inv.count] at hsize
  have e2 : searchBFS s.heap s.root q = some ((t.levelOrder.filter (matchesAt s.heap q)).map
      (fun a => (kindAt s.heap a, (joinPath (t.names a)).take (MAX_PATH_LENGTH - 1)))) := by
    simp only [searchBFS, searchBFSRun_spec inv q hsize, Option.map_some']
  exact ⟨_, _, handleSearch_entries inv q, e2,
    (((LT.levelOrder_perm inv.nodup).symm).filter _).map _⟩

/-! ## A chain of nested folders -/

/-- A create call on a folder that has no children. -/
theorem create_in_empty {s : FS} {p : Nat} {pn : Node} (hp : load s.heap p = some pn)
    (hf : pn.isFile = false) (hc : pn.firstChild = none) (isFile : Bool) (name : List Nat) :
    create isFile s (some p) name = some (Msg.ok, FS.mk
      (store (store (s.heap ++ [some ⟨name.take (MAX_NAME_LENGTH - 1), isFile, none, none, none⟩])
        s.heap.length ⟨name.take (MAX_NAME_LENGTH - 1), isFile, some p, none, none⟩)
        p { pn with firstChild := some s.heap.length }) s.root s.currentDir) := by
  have hlt := load_lt hp
  have hne : s.heap.length ≠ p := by omega
  have h1 : load (s.heap ++ [some ⟨name.take (MAX_NAME_LENGTH - 1), isFile, none, none, none⟩])
      s.heap.length = some ⟨name.take (MAX_NAME_LENGTH - 1), isFile, none, none, none⟩ :=
    load_push_self _ _
  have h2 : load (store (s.heap ++
      [some ⟨name.take (MAX_NAME_LENGTH - 1), isFile, none, none, none⟩])
      s.heap.length ⟨name.take (MAX_NAME_LENGTH - 1), isFile, some p, none, none⟩) p =
      some pn := by
    rw [load_store_ne _ hne, load_push_lt _ hlt, hp]
  simp only [create, hp, hf, Bool.false_eq_true, if_false, findChild, hc, findChildLoop,
    createNode, addChild, assign, h1, h2]

/-- The chain of `n + 1` nested folders: it has `n + 1` cells, all allocated,
the last one a folder without children, and it is a reachable state. -/
theorem chainFS_spec (n : Nat) :
    (chainFS n).heap.length = n + 1 ∧ (∀ a, a < n + 1 → (load (chainFS n).heap a).isSome) ∧
      (∃ c, load (chainFS n).heap n = some c ∧ c.isFile = false ∧ c.firstChild = none) ∧
      Reachable (chainFS n) ∧ (chainFS n).root = some 0 ∧
      ∃ c0, load (chainFS n).heap 0 = some c0 ∧ c0.name = nameRoot := by
  induction n with
  | zero =>
    refine ⟨by decide, ?_, ⟨⟨nameRoot, false, none, none, none⟩, by decide, rfl, rfl⟩,
      Reachable.init, rfl, ⟨⟨nameRoot, false, none, none, none⟩, by decide, rfl⟩⟩
    intro a ha
    have : a = 0 := by omega
    subst this
    decide
  | succ n ih =>
    obtain ⟨hlen, hall, ⟨c, hc, hcf, hcc⟩, hreach, hroot, c0, hc0, hn0⟩ := ih
    have hcr := create_in_empty hc hcf hcc false nameOneA
    have hdef : chainFS (n + 1) = FS.mk
        (store (store ((chainFS n).heap ++
          [some ⟨nameOneA.take (MAX_NAME_LENGTH - 1), false, none, none, none⟩])
          (chainFS n).heap.length ⟨nameOneA.take (MAX_NAME_LENGTH - 1), false, some n, none, none⟩)
          n { c with firstChild := some (chainFS n).heap.length })
        (chainFS n).root (chainFS n).currentDir := by
      have : createFolder (chainFS n) (some n) nameOneA = _ := hcr
      simp only [chainFS, this]
    have hstep : Step (chainFS n) (chainFS (n + 1)) := by
      rw [hdef]
      exact Step.createFolder (some n) nameOneA hcr
    have hlt : ∀ x : Option Node, n < ((chainFS n).heap ++ [x]).length := by
      intro x; simp only [List.length_append, List.length_singleton, hlen]; omega
    have hlt2 : ∀ x : Option Node,
        (chainFS n).heap.length < ((chainFS n).heap ++ [x]).length := by
      intro x; simp
    refine ⟨?_, ?_, ?_, Reachable.step hreach hstep, by rw [hdef]; exact hroot, ?_⟩
    · rw [hdef]
      simp [length_store, hlen]
    · intro a ha
      rw [hdef]
      simp only
      by_cases h1 : a = n
      · subst h1
        rw [load_store_self _ (by rw [length_store]; exact hlt _)]
        rfl
      · rw [load_store_ne _ (Ne.symm h1)]
        by_cases h2 : a = (chainFS n).heap.length
        · subst h2
          rw [load_store_self _ (hlt2 _)]
          rfl
        · rw [load_store_ne _ (Ne.symm h2), load_push_lt _ (by omega)]
          exact hall a (by omega)
    · rw [hdef]
      simp only
      have h1 : n ≠ n + 1 := by omega
      refine ⟨⟨nameOneA.take (MAX_NAME_LENGTH - 1), false, some n, none, none⟩, ?_, rfl, rfl⟩
      rw [load_store_ne _ h1, ← hlen]
      exact load_store_self _ (hlt2 _)
    · rw [hdef]
      simp only
      by_cases h1 : n = 0
      · subst h1
        rw [hc] at hc0
        cases hc0
        exact ⟨_, load_store_self _ (by rw [length_store]; exact hlt _), hn0⟩
      · have h2 : (chainFS n).heap.length ≠ 0 := by omega
        rw [load_store_ne _ h1, load_store_ne _ h2, load_push_lt _ (by omega)]
        exact ⟨c0, hc0, hn0⟩

/-- The chain of `n + 1` nested folders has `n + 1` entries. -/
theorem chainFS_entries (n : Nat) : (entries (chainFS n).heap).length = n + 1 := by
  obtain ⟨hlen, hall, _⟩ := chainFS_spec n
  have : entries (chainFS n).heap = List.range (chainFS n).heap.length := by
    simp only [entries]
    rw [List.filter_eq_self]
    intro a ha
    rw [List.mem_range, hlen] at ha
    exact hall a ha
  rw [this, List.length_range, hlen]

/-- The state `chainFS n` holds a tree of `n + 1` entries. -/
theorem chainFS_size (n : Nat) :
    ∃ t, Inv (chainFS n) t ∧ t.addrs.length = n + 1 := by
  obtain ⟨_, _, _, hreach, _⟩ := chainFS_spec n
  obtain ⟨t, inv⟩ := hreach.inv
  exact ⟨t, inv, by rw [inv.count, chainFS_entries]⟩

/-- On a chain of more nested folders than the array of `searchBFS` has
slots, `searchDFS` started at root returns for every query, and for the query
`"root"` its lines hold the folder `"/root"`, while `searchBFS` started at
root has no defined result for any query. -/
theorem chainFS_search (n : Nat) (hn : QUEUE_SLOTS ≤ n) :
    Reachable (chainFS n) ∧ (entries (chainFS n).heap).length = n + 1 ∧
    (∀ q, ∃ r, handleSearch (chainFS n) q = some r) ∧
    (∃ r, handleSearch (chainFS n) nameRoot = some r ∧ (false, 47 :: nameRoot) ∈ r) ∧
    (∀ q, searchBFSRun (chainFS n).heap (chainFS n).root q = none) ∧
    (∀ q, searchBFS (chainFS n).heap (chainFS n).root q = none) := by
  obtain ⟨_, _, _, hreach, hroot, c0, hc0, hn0⟩ := chainFS_spec n
  obtain ⟨t, inv, hsize⟩ := chainFS_size n
  have hbig : QUEUE_SLOTS < t.addrs.length := by omega
  refine ⟨hreach, chainFS_entries n, fun q => ⟨_, handleSearch_entries inv q⟩,
    ⟨_, handleSearch_entries inv nameRoot, ?_⟩, fun q => searchBFSRun_overflow inv q hbig, ?_⟩
  · obtain ⟨r, nm, fc, hr, ht⟩ := inv.root
    rw [hroot] at hr
    cases hr
    have hcell : load (chainFS n).heap 0 = some ⟨nm, false, none, fc.ptr, none⟩ := by
      have := inv.rep
      rw [ht] at this
      exact this.1
    rw [hc0] at hcell
    cases hcell
    simp only at hn0
    subst hn0
    rw [List.mem_map]
    refine ⟨0, ?_, ?_⟩
    · rw [List.mem_filter]
      refine ⟨inv.mem_of_load hc0, ?_⟩
      simp only [matchesAt, hc0]
      decide
    · have hnames : t.names 0 = [nameRoot] := by rw [ht]; simp [LT.names]
      simp only [kindAt, hc0, hnames, joinPath_single]
      decide
  · intro q
    simp [searchBFS, searchBFSRun_overflow inv q hbig]

/-- C11, the code at the failing input. The chain of 1001 nested folders (root
and 1000 folders `"a"`, each inside the one before) is a reachable state with
1001 entries. On it `searchDFS` started at root returns for every query, and
for the query `"root"` its lines hold the folder `"/root"`; `searchBFS`
started at root has no defined result for any query: when the folder at depth
999 is taken from the queue, its child is written to `queue[1000]`, outside
the array `Node *queue[1000]`. -/
theorem search_chain_overflow :
    Reachable (chainFS 1000) ∧ (entries (chainFS 1000).heap).length = 1000 + 1 ∧
    (∀ q, ∃ r, handleSearch (chainFS 1000) q = some r) ∧
    (∃ r, handleSearch (chainFS 1000) nameRoot = some r ∧ (false, 47 :: nameRoot) ∈ r) ∧
    (∀ q, searchBFS (chainFS 1000).heap (chainFS 1000).root q = none) :=
  ⟨(chainFS_search 1000 (Nat.le_refl 1000)).1, (chainFS_search 1000 (Nat.le_refl 1000)).2.1,
    (chainFS_search 1000 (Nat.le_refl 1000)).2.2.1,
    (chainFS_search 1000 (Nat.le_refl 1000)).2.2.2.1,
    (chainFS_search 1000 (Nat.le_refl 1000)).2.2.2.2.2⟩

/-- C13, the code at the failing input. For every chain of more than 1000
nested folders, a reachable state, the run of `searchBFS` started at root has
no defined result, whatever the query: the loop writes past the last slot of
the array `queue`, so that no order of its lines is defined. -/
theorem searchBFS_chain_undefined (k : Nat) (q : List Nat) :
    Reachable (chainFS (1000 + k)) ∧
    (entries (chainFS (1000 + k)).heap).length = 1000 + k + 1 ∧
    searchBFSRun (chainFS (1000 + k)).heap (chainFS (1000 + k)).root q = none :=
  ⟨(chainFS_search (1000 + k) (Nat.le_add_right 1000 k)).1,
    (chainFS_search (1000 + k) (Nat.le_add_right 1000 k)).2.1,
    (chainFS_search (1000 + k) (Nat.le_add_right 1000 k)).2.2.2.2.1 q⟩

/-- The empty query is contained in every name. -/
theorem strstr_nil (nm : List Nat) : strstr nm [] = true := by
  cases nm <;> simp [strstr, startsWith]

/-- C20. In every reachable state and for every query, the lines of
`searchDFS(root, q, "")` stand one for one against the entries reached from
root whose name contains the query, and the path text of each line, built
from root downward, is the text `getFullPath` builds for that entry from the
entry upward: both are `"/"` and a name for every name on the chain from root
to the entry, joined and cut to 499 bytes. Whenever `searchBFS` returns, the
path texts of its lines are the same texts for the same entries. The empty
query is contained in every name, so that with it every entry has a line. -/
theorem search_paths_agree (s : FS) (hs : Reachable s) (q : List Nat) :
    (∃ lines es, handleSearch s q = some lines ∧
      List.Forall₂ (fun ln e => ∃ names, chainNames s.heap e = some names ∧
        ln.2 = (joinPath names).take (MAX_PATH_LENGTH - 1) ∧
        getFullPath s.heap (some e) = some (some ln.2)) lines es ∧
      (∀ e, e ∈ es ↔ ReachableFrom s.heap s.root e ∧
        ∃ n, load s.heap e = some n ∧ strstr n.name q = true)) ∧
    (∀ lines, searchBFS s.heap s.root q = some lines →
      ∃ es, List.Forall₂ (fun ln e => ∃ names, chainNames s.heap e = some names ∧
        ln.2 = (joinPath names).take (MAX_PATH_LENGTH - 1) ∧
        getFullPath s.heap (some e) = some (some ln.2)) lines es ∧
      (∀ e, e ∈ es ↔ ReachableFrom s.heap s.root e ∧
        ∃ n, load s.heap e = some n ∧ strstr n.name q = true)) ∧
    (∀ nm, strstr nm [] = true) := by
  obtain ⟨t, inv⟩ := hs.inv
  refine ⟨?_, ?_, strstr_nil⟩
  · have hsub : ∀ e ∈ t.addrs.filter (matchesAt s.heap q), e ∈ t.addrs :=
      fun e he => (List.mem_filter.mp he).1
    refine ⟨_, t.addrs.filter (matchesAt s.heap q), handleSearch_entries inv q, ?_,
      inv.mem_matching q⟩
    apply (inv.lines_forall hsub).imp
    rintro ln e ⟨n, names, _, _, h3, h4, h5⟩
    exact ⟨names, h3, h4, h5⟩
  · intro lines hl
    by_cases hsize : t.addrs.length ≤ QUEUE_SLOTS
    · simp only [searchBFS, searchBFSRun_spec inv q hsize, Option.map_some',
        Option.some.injEq] at hl
      subst hl
      have hperm := LT.levelOrder_perm inv.nodup
      have hsub : ∀ e ∈ t.levelOrder.filter (matchesAt s.heap q), e ∈ t.addrs :=
        fun e he => hperm.subset (List.mem_filter.mp he).1
      refine ⟨t.levelOrder.filter (matchesAt s.heap q), ?_, ?_⟩
      · apply (inv.lines_forall hsub).imp
        rintro ln e ⟨n, names, _, _, h3, h4, h5⟩
        exact ⟨names, h3, h4, h5⟩
      · intro e
        rw [← inv.mem_matching q e, List.mem_filter, List.mem_filter, hperm.mem_iff]
    · have : QUEUE_SLOTS < t.addrs.length := by omega
      simp [searchBFS, searchBFSRun_overflow inv q this] at hl

/-- Witness of C20: the query `"a"` on the scenario tree. -/
theorem search_paths_agree_witness :
    Reachable stScenario ∧
    (∃ lines es, handleSearch stScenario [97] = some lines ∧
      List.Forall₂ (fun ln e => ∃ names, chainNames stScenario.heap e = some names ∧
        ln.2 = (joinPath names).take (MAX_PATH_LENGTH - 1) ∧
        getFullPath stScenario.heap (some e) = some (some ln.2)) lines es ∧
      (∀ e, e ∈ es ↔ ReachableFrom stScenario.heap stScenario.root e ∧
        ∃ n, load stScenario.heap e = some n ∧ strstr n.name [97] = true)) ∧
    (∀ lines, searchBFS stScenario.heap stScenario.root [97] = some lines →
      ∃ es, List.Forall₂ (fun ln e => ∃ names, chainNames stScenario.heap e = some names ∧
        ln.2 = (joinPath names).take (MAX_PATH_LENGTH - 1) ∧
        getFullPath stScenario.heap (some e) = some (some ln.2)) lines es ∧
      (∀ e, e ∈ es ↔ ReachableFrom stScenario.heap stScenario.root e ∧
        ∃ n, load stScenario.heap e = some n ∧ strstr n.name [97] = true)) ∧
    (∀ nm, strstr nm [] = true) :=
  ⟨reachable_stScenario, search_paths_agree stScenario reachable_stScenario [97]⟩

/-! ## Level order -/

/-- The nodes at and below a list of nodes are these nodes and what is at and
below their children. -/
theorem LT.weight_level {t : LT} (nd : t.addrs.Nodup) (Q : List Nat) :
    t.weight Q = Q.length + t.weight (Q.flatMap (fun x => (t.sub x).children.spine)) := by
  induction Q with
  | nil => simp [LT.weight_nil]
  | cons a Q ih =>
    rw [LT.weight_cons, List.flatMap_cons, LT.weight_append, LT.weight_kids nd, ih]
    simp only [List.length_cons]
    omega

/-- The order of a queue does not depend on fuel it does not use. -/
theorem LT.bfs_fuel {t : LT} (nd : t.addrs.Nodup) :
    ∀ (n m : Nat) (P : List Nat), t.weight P ≤ n → t.weight P ≤ m → t.bfs n P = t.bfs m P := by
  intro n
  induction n with
  | zero =>
    intro m P hn _
    have hP : P = [] := by
      have := LT.length_le_weight t P
      exact List.length_eq_zero.mp (by omega)
    subst hP
    cases m <;> simp [LT.bfs]
  | succ n ih =>
    intro m P hn hm
    cases P with
    | nil => cases m <;> simp [LT.bfs]
    | cons a P =>
      rw [LT.weight_cons] at hn hm
      cases m with
      | zero => omega
      | succ m =>
        have hw : t.weight (P ++ (t.sub a).children.spine) =
            t.weight P + (t.sub a).children.addrs.length := by
          rw [LT.weight_append, LT.weight_kids nd]
        simp only [LT.bfs]
        rw [ih m _ (by omega) (by omega)]

/-- A queue visits the waiting nodes before the children of any of them. -/
theorem LT.bfs_level {t : LT} (nd : t.addrs.Nodup) :
    ∀ (Q : List Nat) (n : Nat) (R : List Nat), t.weight (Q ++ R) ≤ n →
      t.bfs n (Q ++ R) =
        Q ++ t.bfs (n - Q.length) (R ++ Q.flatMap (fun x => (t.sub x).children.spine)) := by
  intro Q
  induction Q with
  | nil => intro n R _; simp
  | cons a Q ih =>
    intro n R hw
    rw [List.cons_append, LT.weight_cons] at hw
    cases n with
    | zero => omega
    | succ n =>
      have hw' : t.weight (Q ++ (R ++ (t.sub a).children.spine)) ≤ n := by
        rw [LT.weight_append, LT.weight_append, LT.weight_kids nd]
        rw [LT.weight_append] at hw
        omega
      have e1 : t.bfs (n + 1) (a :: (Q ++ R)) =
          a :: t.bfs n (Q ++ (R ++ (t.sub a).children.spine)) := by
        rw [LT.bfs, List.append_assoc]
      rw [List.cons_append, e1, ih n (R ++ (t.sub a).children.spine) hw']
      simp

/-- The order of a queue is level by level. -/
theorem LT.bfs_levels {t : LT} (nd : t.addrs.Nodup) :
    ∀ (n : Nat) (P : List Nat), t.weight P ≤ n → t.bfs n P = (t.levels n P).flatten := by
  intro n
  induction n with
  | zero => intro P _; simp [LT.bfs, LT.levels]
  | succ n ih =>
    intro P hw
    cases P with
    | nil => simp [LT.bfs, LT.levels]
    | cons a P =>
      have h1 := LT.bfs_level nd (a :: P) (n + 1) [] (by simpa using hw)
      simp only [List.append_nil, List.nil_append] at h1
      have h2 := LT.weight_level nd (a :: P)
      simp only [List.length_cons] at h2
      rw [h1, LT.bfs_fuel nd _ n _ (by simp only [List.length_cons]; omega) (by omega),
        ih _ (by omega)]
      simp [LT.levels]

/-- The levels hold nodes of the tree only. -/
theorem LT.levels_subset {t : LT} :
    ∀ (n : Nat) (P : List Nat), (∀ a ∈ P, a ∈ t.addrs) →
      ∀ l ∈ t.levels n P, ∀ a ∈ l, a ∈ t.addrs := by
  intro n
  induction n with
  | zero => intro P _ l hl; simp [LT.levels] at hl
  | succ n ih =>
    intro P hP l hl
    cases P with
    | nil => simp [LT.levels] at hl
    | cons a P =>
      simp only [LT.levels, List.mem_cons] at hl
      rcases hl with h1 | h1
      · subst h1; exact hP
      · apply ih _ _ l h1
        intro x hx
        rw [List.mem_flatMap] at hx
        obtain ⟨y, _, hy⟩ := hx
        exact LT.sub_children_subset _ (LT.spine_subset _ _ hy)

/-- The first of the levels below a list is the list. -/
theorem LT.levels_head (t : LT) (n : Nat) (P : List Nat) :
    ∀ l ∈ (t.levels n P).head?, l = P := by
  intro l hl
  cases n with
  | zero => simp [LT.levels] at hl
  | succ n =>
    cases P with
    | nil => simp [LT.levels] at hl
    | cons a P =>
      simp only [LT.levels, List.head?_cons, Option.mem_def, Option.some.injEq] at hl
      exact hl.symm

/-- The chain of names of a node of the top sibling chain is its own name. -/
theorem LT.names_spine {f : LT} (nd : f.addrs.Nodup) {c : Nat} (hc : c ∈ f.spine) :
    (f.names c).length = 1 := by
  induction f with
  | nil => simp [LT.spine] at hc
  | node b nm fl fc ns _ ihns =>
    have nd' := nd
    simp only [LT.addrs, List.nodup_cons, List.nodup_append, List.mem_append, not_or] at nd'
    obtain ⟨⟨hbfc, hbns⟩, ndfc, ndns, hdis⟩ := nd'
    simp only [LT.spine, List.mem_cons] at hc
    by_cases hb : b = c
    · simp [LT.names, hb]
    · have hcs : c ∈ ns.spine := by
        rcases hc with h1 | h1
        · exact absurd h1.symm hb
        · exact h1
      have hcn := LT.spine_subset _ _ hcs
      have hcfc : c ∉ fc.addrs := fun h1 => hdis h1 hcn
      simp only [LT.names, hb, hcfc, if_false]
      exact ihns ndns hcs

/-- The chain of names of a child is one longer than that of its parent. -/
theorem LT.names_child {t : LT} (nd : t.addrs.Nodup) {a c : Nat} (ha : a ∈ t.addrs)
    (hc : c ∈ (t.sub a).children.spine) : (t.names c).length = (t.names a).length + 1 := by
  induction t with
  | nil => simp [LT.addrs] at ha
  | node b nm fl fc ns ihfc ihns =>
    have nd' := nd
    simp only [LT.addrs, List.nodup_cons, List.nodup_append, List.mem_append, not_or] at nd'
    obtain ⟨⟨hbfc, hbns⟩, ndfc, ndns, hdis⟩ := nd'
    simp only [LT.addrs, List.mem_cons, List.mem_append] at ha
    by_cases hb : b = a
    · subst hb
      simp only [LT.sub, if_true, LT.children] at hc
      have hcfc := LT.spine_subset _ _ hc
      have hbc : ¬ b = c := fun e0 => hbfc (e0 ▸ hcfc)
      simp only [LT.names, hbc, hcfc, if_true, if_false, List.length_cons, List.length_nil]
      rw [LT.names_spine ndfc hc]
    · by_cases hfc : a ∈ fc.addrs
      · simp only [LT.sub, hb, hfc, if_true, if_false] at hc
        have hcfc : c ∈ fc.addrs := LT.sub_children_subset _ (LT.spine_subset _ _ hc)
        have hbc : ¬ b = c := fun e0 => hbfc (e0 ▸ hcfc)
        simp only [LT.names, hb, hbc, hfc, hcfc, if_true, if_false, List.length_cons]
        rw [ihfc ndfc hfc hc]
      · have hns : a ∈ ns.addrs := by
          rcases ha with h1 | h1 | h1
          · exact absurd h1.symm hb
          · exact absurd h1 hfc
          · exact h1
        simp only [LT.sub, hb, hfc, if_false] at hc
        have hcns : c ∈ ns.addrs := LT.sub_children_subset _ (LT.spine_subset _ _ hc)
        have hbc : ¬ b = c := fun e0 => hbns (e0 ▸ hcns)
        have hcfc : c ∉ fc.addrs := fun h1 => hdis h1 hcns
        simp only [LT.names, hb, hbc, hfc, hcfc, if_false]
        exact ihns ndns hns hc

/-- The children of an entry of the tree, read from the heap. -/
theorem Inv.kidsOf_eq {s : FS} {t : LT} (inv : Inv s t) {a : Nat} (ha : a ∈ t.addrs) :
    kidsOf s.heap a = (t.sub a).children.spine := by
  obtain ⟨l, hl, hsp, _, _⟩ := childList_spec inv.rep inv.nodup ha
  simp only [kidsOf, hl, hsp]

/-- Every level consists of the children of the nodes of the level before it,
parent by parent, each in stored order. -/
theorem Inv.levels_chain {s : FS} {t : LT} (inv : Inv s t) :
    ∀ (n : Nat) (P : List Nat), (∀ a ∈ P, a ∈ t.addrs) →
      List.Chain' (fun l l1 => l1 = l.flatMap (kidsOf s.heap)) (t.levels n P) := by
  intro n
  induction n with
  | zero => intro P _; simp [LT.levels]
  | succ n ih =>
    intro P hP
    cases P with
    | nil => simp [LT.levels]
    | cons a P =>
      have hcongr : (a :: P).flatMap (fun x => (t.sub x).children.spine) =
          (a :: P).flatMap (kidsOf s.heap) := by
        apply List.flatMap_congr
        intro x hx
        rw [inv.kidsOf_eq (hP x hx)]
      have hP1 : ∀ x ∈ (a :: P).flatMap (fun x => (t.sub x).children.spine), x ∈ t.addrs := by
        intro x hx
        rw [List.mem_flatMap] at hx
        obtain ⟨y, _, hy⟩ := hx
        exact LT.sub_children_subset _ (LT.spine_subset _ _ hy)
      simp only [LT.levels]
      rw [List.chain'_cons']
      refine ⟨?_, ih _ hP1⟩
      intro y hy
      rw [LT.levels_head t n _ y hy, hcongr]

/-- The nodes of the level `k` below a list of nodes of one depth lie `k`
deeper than these. -/
theorem LT.levels_depth {t : LT} (nd : t.addrs.Nodup) :
    ∀ (n : Nat) (P : List Nat) (d : Nat),
      (∀ a ∈ P, a ∈ t.addrs ∧ (t.names a).length = d + 1) →
      ∀ (k : Nat) (l : List Nat), (t.levels n P)[k]? = some l →
        ∀ e ∈ l, (t.names e).length = d + k + 1 := by
  intro n
  induction n with
  | zero => intro P d _ k l hl; simp [LT.levels] at hl
  | succ n ih =>
    intro P d hP k l hl
    cases P with
    | nil => simp [LT.levels] at hl
    | cons a P =>
      simp only [LT.levels] at hl
      cases k with
      | zero =>
        simp only [List.getElem?_cons_zero, Option.some.injEq] at hl
        subst hl
        intro e he
        exact (hP e he).2
      | succ k =>
        simp only [List.getElem?_cons_succ] at hl
        have := ih _ (d + 1) (by
          intro x hx
          rw [List.mem_flatMap] at hx
          obtain ⟨y, hy, hxy⟩ := hx
          obtain ⟨hym, hyl⟩ := hP y hy
          exact ⟨LT.sub_children_subset _ (LT.spine_subset _ _ hxy),
            by rw [LT.names_child nd hym hxy, hyl]⟩) k l hl
        intro e he
        rw [this e he]
        omega

/-- On a tree that fits into the array of `searchBFS`, the lines come level
by level: they stand one for one against the matching entries of the levels
in turn, the first level being the root alone and every other level the
children of the entries of the level before it, parent by parent, each in
stored order; the entries of level `k` have depth `k`, and the levels together
hold every entry once. -/
theorem searchBFS_level_order {s : FS} (hs : Reachable s) (q : List Nat)
    (hsize : (entries s.heap).length ≤ QUEUE_SLOTS) :
    ∃ r lines levels, s.root = some r ∧ searchBFS s.heap s.root q = some lines ∧
      List.Forall₂ (fun ln e => ∃ n, load s.heap e = some n ∧ ln.1 = n.isFile ∧
        getFullPath s.heap (some e) = some (some ln.2)) lines
        (levels.flatten.filter (matchesAt s.heap q)) ∧
      levels.head? = some [r] ∧
      List.Chain' (fun l l1 => l1 = l.flatMap (kidsOf s.heap)) levels ∧
      (∀ k l, levels[k]? = some l → ∀ e ∈ l, depthOf s.heap e = some k) ∧
      levels.flatten.Perm (entries s.heap) := by
  obtain ⟨t, inv⟩ := hs.inv
  rw [← inv.count] at hsize
  obtain ⟨r, hr, hsp⟩ := inv.spine_root
  have hrm : r ∈ t.addrs := LT.spine_subset _ _ (by rw [hsp]; simp)
  have hw : t.weight t.spine = t.addrs.length := by
    simp [LT.weight, LT.spine_blocks inv.nodup]
  have hlev : t.levelOrder = (t.levels t.addrs.length t.spine).flatten := by
    simp only [LT.levelOrder]
    exact LT.bfs_levels inv.nodup _ _ (by omega)
  have hperm := LT.levelOrder_perm inv.nodup
  have hspm : ∀ a ∈ t.spine, a ∈ t.addrs := LT.spine_subset t
  have e2 : searchBFS s.heap s.root q = some ((t.levelOrder.filter (matchesAt s.heap q)).map
      (fun a => (kindAt s.heap a, (joinPath (t.names a)).take (MAX_PATH_LENGTH - 1)))) := by
    simp only [searchBFS, searchBFSRun_spec inv q hsize, Option.map_some']
  have hsub : ∀ e ∈ t.levelOrder.filter (matchesAt s.heap q), e ∈ t.addrs :=
    fun e he => hperm.subset (List.mem_filter.mp he).1
  refine ⟨r, _, t.levels t.addrs.length t.spine, hr, e2, ?_, ?_, inv.levels_chain _ _ hspm,
    ?_, ?_⟩
  · rw [← hlev]
    apply (inv.lines_forall hsub).imp
    rintro ln e ⟨n, names, h1, h2, _, _, h5⟩
    exact ⟨n, h1, h2, h5⟩
  · have hpos : 0 < t.addrs.length := List.length_pos_of_mem hrm
    obtain ⟨m, hm⟩ : ∃ m, t.addrs.length = m + 1 := ⟨t.addrs.length - 1, by omega⟩
    rw [hm, hsp]
    simp [LT.levels]
  · intro k l hl e he
    have h0 : ∀ a ∈ t.spine, a ∈ t.addrs ∧ (t.names a).length = 0 + 1 :=
      fun a ha => ⟨hspm a ha, by rw [LT.names_spine inv.nodup ha]⟩
    have hd := LT.levels_depth inv.nodup _ _ 0 h0 k l hl e he
    have hem : e ∈ t.addrs :=
      LT.levels_subset _ _ hspm l (List.getElem?_mem hl) e he
    simp only [depthOf, chainNames_spec inv.rep inv.nodup hem, Option.map_some', hd]
    congr 1
    omega
  · rw [← hlev]
    exact hperm.trans inv.entries_perm

/-! ## The queue of `searchBFS` -/

/-- C21. In every reachable state whose tree has at most 1000 entries, and for
every query, the run of `searchBFS` started at root is defined, that is, no
write `queue[rear++]` and no read `queue[front++]` leaves the array. The final
queue holds every entry of the tree exactly once, so that `rear`, its length,
is the number of entries and at most 1000; and the loop ends with `front`
equal to `rear`, after as many turns as the tree has entries. -/
theorem searchBFS_queue_bounds (s : FS) (hs : Reachable s) (q : List Nat)
    (hsize : (entries s.heap).length ≤ QUEUE_SLOTS) :
    ∃ lines queue front, searchBFSRun s.heap s.root q = some (lines, queue, front) ∧
      queue.Perm (entries s.heap) ∧
      (∀ e n, load s.heap e = some n → queue.count e = 1) ∧
      (∀ e, e ∈ queue → ReachableFrom s.heap s.root e) ∧
      queue.length ≤ QUEUE_SLOTS ∧ front = queue.length ∧
      front = (entries s.heap).length := by
  obtain ⟨t, inv⟩ := hs.inv
  have hsize' : t.addrs.length ≤ QUEUE_SLOTS := by rw [inv.count]; exact hsize
  have hperm := LT.levelOrder_perm inv.nodup
  have hnd : t.levelOrder.Nodup := hperm.nodup_iff.mpr inv.nodup
  have hlen : t.levelOrder.length = (entries s.heap).length := by
    rw [hperm.length_eq, inv.count]
  refine ⟨_, t.levelOrder, t.levelOrder.length, searchBFSRun_spec inv q hsize',
    hperm.trans inv.entries_perm, ?_, ?_, by rw [hlen]; exact hsize, rfl, hlen⟩
  · intro e n he
    exact List.count_eq_one_of_mem hnd (hperm.mem_iff.mpr (inv.mem_of_load he))
  · intro e he
    exact (inv.reach_iff e).mpr (hperm.mem_iff.mp he)

/-- Witness of C21: the scenario tree, of five entries. -/
theorem searchBFS_queue_bounds_witness :
    Reachable stScenario ∧ (entries stScenario.heap).length ≤ QUEUE_SLOTS ∧
    ∃ lines queue front,
      searchBFSRun stScenario.heap stScenario.root [97] = some (lines, queue, front) ∧
      queue.Perm (entries stScenario.heap) ∧
      (∀ e n, load stScenario.heap e = some n → queue.count e = 1) ∧
      (∀ e, e ∈ queue → ReachableFrom stScenario.heap stScenario.root e) ∧
      queue.length ≤ QUEUE_SLOTS ∧ front = queue.length ∧
      front = (entries stScenario.heap).length :=
  ⟨reachable_stScenario, by decide,
    searchBFS_queue_bounds stScenario reachable_stScenario [97] (by decide)⟩

/-! ## What a create call leaves as it is -/

/-- The cells `addChild(d, c)` may write: `c`, `d` and the children of `d`. -/
theorem addChild_frame {h : Heap} {t : LT} (r : Rep h none t) (nd : t.addrs.Nodup) {d : Nat}
    (hd : d ∈ t.addrs) {c : Nat} {nm : List Nat} {f : Bool} {k : LT} {par0 : Ptr}
    (hc : load h c = some ⟨nm, f, par0, k.ptr, none⟩) (rk : Rep h (some c) k)
    (hct : c ∉ t.addrs) (hck : c ∉ k.addrs) (hkt : ∀ a ∈ k.addrs, a ∉ t.addrs) :
    ∃ h', addChild h (some d) (some c) = some h' ∧
      ∀ a, a ≠ c → a ≠ d → a ∉ (t.sub d).children.spine → load h' a = load h a := by
  obtain ⟨nmd, fd, fcd, nsd, esub⟩ := LT.sub_node hd
  have rs := r.toSub d
  have nds := LT.sub_nodup nd d
  rw [esub] at rs nds
  have nds' := nds
  simp only [LT.addrs, List.nodup_cons, List.nodup_append, List.mem_append, not_or] at nds'
  obtain ⟨⟨hdfc, _⟩, ndfc, _, _⟩ := nds'
  have hcd : c ≠ d := fun e => hct (e ▸ hd)
  have hfcsub : ∀ a ∈ fcd.addrs, a ∈ t.addrs := by
    intro a ha
    apply @LT.sub_children_subset t d a
    rw [esub]; exact ha
  have hclt := load_lt hc
  obtain ⟨h1, eh1⟩ : ∃ x, x = store h c ⟨nm, f, some d, k.ptr, none⟩ := ⟨_, rfl⟩
  have hh1 : assign h c (fun x => { x with parent := some d }) = some h1 := by
    simp [assign, hc, eh1]
  have rk1 : Rep h1 (some c) k := by
    rw [eh1]; exact rk.frame (fun a ha => load_store_ne _ (ne_of_mem_of_not_mem ha hck).symm)
  have hc1 : load h1 c = some ⟨nm, f, some d, k.ptr, none⟩ := by
    rw [eh1]; exact load_store_self _ hclt
  have hd1 : load h1 d = some ⟨nmd, fd, t.parOf d none, fcd.ptr, nsd.ptr⟩ := by
    rw [eh1, load_store_ne _ hcd]; exact rs.1
  have hfr1 : ∀ a, a ≠ c → load h1 a = load h a := by
    intro a hac; rw [eh1]; exact load_store_ne _ (Ne.symm hac)
  have hdk : d ∉ k.addrs := fun hm => hkt d hm hd
  cases fcd with
  | nil =>
    refine ⟨store h1 d ⟨nmd, fd, t.parOf d none, some c, nsd.ptr⟩, ?_, ?_⟩
    · simp only [addChild, hh1]
      simp only [hd1, LT.ptr_nil, assign]
    · intro a hac had _
      rw [load_store_ne _ (Ne.symm had), hfr1 a hac]
  | node b nmb fb fcb nsb =>
    have hfuel : (LT.node b nmb fb fcb nsb).spine.length < h1.length + 1 := by
      have := LT.spine_length_le (LT.node b nmb fb fcb nsb)
      have := Rep.size_le rs.2.1 ndfc
      have hlen1 : h1.length = h.length := by rw [eh1]; exact length_store _ _ _
      omega
    obtain ⟨h', e, _, _, _, hfr⟩ := addChildLoop_spec (LT.node b nmb fb fcb nsb) none
      (h1.length + 1) hfuel (rs.2.1.frame (fun a ha =>
        hfr1 a (ne_of_mem_of_not_mem (hfcsub a ha) hct))) rk1 hc1 _ hd1 rfl
      (by simp) ndfc hcd (fun hm => hct (hfcsub c hm)) hck hdfc hdk
      (fun a ha hm => hkt a ha (hfcsub a hm))
    simp only [linkCell] at hfr
    refine ⟨h', ?_, ?_⟩
    · simp only [addChild, hh1]
      simp only [hd1, LT.ptr_node]
      exact e
    · intro a hac had hsp
      rw [esub] at hsp
      rw [hfr a hac had hsp]
      exact hfr1 a hac

/-- The sorted insertion puts the new node at one position of the chain. -/
theorem LT.insertSib_spine (c : Nat) (nm : List Nat) (f : Bool) (k sp : LT) :
    ∃ i, (LT.insertSib c nm f k sp).spine = sp.spine.take i ++ c :: sp.spine.drop i := by
  induction sp with
  | nil => exact ⟨0, by simp [LT.insertSib, LT.spine]⟩
  | node b nmb fb fcb nsb _ ihns =>
    by_cases hb : insertsBefore ⟨nm, f, none, none, none⟩ ⟨nmb, fb, none, none, none⟩ = true
    · exact ⟨0, by simp [LT.insertSib, hb, LT.spine]⟩
    · obtain ⟨i, hi⟩ := ihns
      exact ⟨i + 1, by simp [LT.insertSib, hb, LT.spine, hi]⟩

/-- The lookup of another name is not affected by the insertion. -/
theorem LT.lookup_insertSib_ne {c : Nat} {nm : List Nat} {f : Bool} {k sp : LT} {n : List Nat}
    (hn : n ≠ nm) : (LT.insertSib c nm f k sp).lookup n = sp.lookup n := by
  have h0 : ¬ strcmp nm n = 0 := fun e => hn (strcmp_eq_zero.mp e).symm
  induction sp with
  | nil => simp [LT.insertSib, LT.lookup, h0]
  | node b nmb fb fcb nsb _ ihns =>
    by_cases hb : insertsBefore ⟨nm, f, none, none, none⟩ ⟨nmb, fb, none, none, none⟩ = true
    · simp [LT.insertSib, hb, LT.lookup, h0]
    · simp only [LT.insertSib, hb, LT.lookup, ihns]

/-- Two sibling chains that start at the same cell and whose cells carry the
same `nextSibling` links in two heaps consist of the same cells. -/
theorem Rep.spine_eq {h h1 : Heap} :
    ∀ (sp sp1 : LT) (par par1 : Ptr), Rep h par sp → Rep h1 par1 sp1 → sp.ptr = sp1.ptr →
      (∀ a ∈ sp.spine, ∀ n n1, load h a = some n → load h1 a = some n1 →
        n1.nextSibling = n.nextSibling) →
      sp1.spine = sp.spine := by
  intro sp
  induction sp with
  | nil =>
    intro sp1 par par1 _ _ hp _
    cases sp1 with
    | nil => rfl
    | node b _ _ _ _ => simp [LT.ptr_nil, LT.ptr_node] at hp
  | node a nm f fc ns _ ihns =>
    intro sp1 par par1 r r1 hp hns
    cases sp1 with
    | nil => simp [LT.ptr_nil, LT.ptr_node] at hp
    | node b nmb fb fcb nsb =>
      simp only [LT.ptr_node, Option.some.injEq] at hp
      subst hp
      have h2 := hns a (by simp [LT.spine]) _ _ r.1 r1.1
      simp only at h2
      simp only [LT.spine, List.cons.injEq, true_and]
      apply ihns nsb par par1 r.2.2 r1.2.2 h2.symm
      intro x hx n n1 e e1
      exact hns x (by simp [LT.spine, hx]) n n1 e e1

/-- The call of `addChild` inside a successful create call. -/
theorem create_addChild {s s' : FS} {isFile : Bool} {p : Nat} {name : List Nat}
    (hok : create isFile s (some p) name = some (Msg.ok, s')) :
    ∃ pn, load s.heap p = some pn ∧ pn.isFile = false ∧
      findChild s.heap (some p) name = some none ∧
      s' = FS.mk s'.heap s.root s.currentDir ∧
      addChild (s.heap ++ [some ⟨name.take (MAX_NAME_LENGTH - 1), isFile, none, none, none⟩])
        (some p) (some s.heap.length) = some s'.heap := by
  simp only [create] at hok
  cases hp : load s.heap p with
  | none => simp [hp] at hok
  | some pn =>
    simp only [hp] at hok
    cases hf : pn.isFile with
    | true => simp [hf] at hok
    | false =>
      simp only [hf, Bool.false_eq_true, if_false] at hok
      cases hfind : findChild s.heap (some p) name with
      | none => simp [hfind] at hok
      | some res =>
        cases res with
        | some x => simp [hfind] at hok
        | none =>
          simp only [hfind, createNode] at hok
          cases hadd : addChild
              (s.heap ++ [some ⟨name.take (MAX_NAME_LENGTH - 1), isFile, none, none, none⟩])
              (some p) (some s.heap.length) with
          | none => simp [hadd] at hok
          | some h2 =>
            simp only [hadd, Option.some.injEq, Prod.mk.injEq, true_and] at hok
            subst hok
            exact ⟨pn, rfl, hf, rfl, rfl, rfl⟩

/-- The child sequence of a new entry is empty, as is that of a free cell. -/
theorem kidsOf_empty {h : Heap} {x : Nat}
    (hx : load h x = none ∨ ∃ n, load h x = some n ∧ n.firstChild = none) : kidsOf h x = [] := by
  rcases hx with h1 | ⟨n, h1, h2⟩
  · simp [kidsOf, childList, h1]
  · simp [kidsOf, childList, h1, h2, siblingsFrom]

/-- What a successful create call on `p` changes and what it leaves as it is. -/
theorem create_frame {s s' : FS} (hs : Reachable s) {isFile : Bool} {p : Nat}
    {name : List Nat} {l : List (Nat × Node)}
    (hok : create isFile s (some p) name = some (Msg.ok, s'))
    (hl : childList s.heap (some p) = some l) :
    ∃ cn l1 l2 l3, s'.root = s.root ∧ s'.currentDir = s.currentDir ∧
      load s.heap s.heap.length = none ∧ load s'.heap s.heap.length = some cn ∧
      cn.name = name.take (MAX_NAME_LENGTH - 1) ∧ cn.isFile = isFile ∧ cn.parent = some p ∧
      cn.firstChild = none ∧
      l = l1 ++ l2 ∧ childList s'.heap (some p) = some l3 ∧
      l3.map (fun x => x.1) = l1.map (fun x => x.1) ++ s.heap.length :: l2.map (fun x => x.1) ∧
      (∀ x ∈ l, ∃ n, load s'.heap x.1 = some n ∧ n.name = x.2.name ∧ n.isFile = x.2.isFile ∧
        n.parent = x.2.parent ∧ n.firstChild = x.2.firstChild) ∧
      (∀ x ∈ l, ∀ a, Ancestor s.heap x.1 a → load s'.heap a = load s.heap a) ∧
      (∀ pn, load s.heap p = some pn → ∃ pn1, load s'.heap p = some pn1 ∧
        pn1.name = pn.name ∧ pn1.isFile = pn.isFile ∧ pn1.parent = pn.parent ∧
        pn1.nextSibling = pn.nextSibling) ∧
      (∀ a, a ≠ p → a ≠ s.heap.length → a ∉ l.map (fun x => x.1) →
        load s'.heap a = load s.heap a) ∧
      (∀ x, x ≠ p → kidsOf s'.heap x = kidsOf s.heap x) ∧
      (∀ n, n ≠ name.take (MAX_NAME_LENGTH - 1) →
        findChild s'.heap (some p) n = findChild s.heap (some p) n) := by
  obtain ⟨t, inv⟩ := hs.inv
  obtain ⟨pn, hp, hf, hfind, hs', hadd⟩ := create_addChild hok
  have hpm := inv.mem_of_load hp
  have hfree : (t.sub p).children.lookup name = none := by
    have := findChild_spec inv.rep inv.nodup hpm name
    rw [hfind] at this
    exact (Option.some.inj this).symm
  obtain ⟨h1, e1, _, inv1, _⟩ := create_ok inv hp hf isFile name hfree
  rw [hok] at e1
  have es : s' = { s with heap := h1 } := by simpa using e1
  subst es
  simp only at hadd
  obtain ⟨nmp, fp, fc, nsp, esp⟩ := LT.sub_node hpm
  have es2 := LT.sub_atNode_self hpm
    (LT.insertSib s.heap.length (name.take (MAX_NAME_LENGTH - 1)) isFile LT.nil) esp
  have hpm2 : p ∈ (t.atNode p
      (LT.insertSib s.heap.length (name.take (MAX_NAME_LENGTH - 1)) isFile LT.nil)).addrs :=
    LT.mem_atNode_self hpm _
  have hct : s.heap.length ∉ t.addrs := by
    intro hm
    obtain ⟨n, hn⟩ := inv.rep.live hm
    rw [load_length] at hn
    cases hn
  have hfr0 : ∀ a, a ≠ s.heap.length →
      load (s.heap ++ [some ⟨name.take (MAX_NAME_LENGTH - 1), isFile, none, none, none⟩]) a =
        load s.heap a := fun a ha => load_push_ne _ ha
  have r0 : Rep (s.heap ++ [some ⟨name.take (MAX_NAME_LENGTH - 1), isFile, none, none, none⟩])
      none t := inv.rep.frame (fun a ha => hfr0 a (ne_of_mem_of_not_mem ha hct))
  have hc0 : load (s.heap ++ [some ⟨name.take (MAX_NAME_LENGTH - 1), isFile, none, none, none⟩])
      s.heap.length = some ⟨name.take (MAX_NAME_LENGTH - 1), isFile, none, LT.nil.ptr, none⟩ :=
    load_push_self _ _
  obtain ⟨h2, e2, hfr⟩ := addChild_frame r0 inv.nodup hpm hc0 (k := LT.nil) trivial hct
    (by simp [LT.addrs]) (by simp [LT.addrs])
  rw [hadd] at e2
  cases e2
  have hkeep := addChild_keeps hadd
  have hframe : ∀ a, a ≠ p → a ≠ s.heap.length → a ∉ (t.sub p).children.spine →
      load h1 a = load s.heap a := by
    intro a hap hac hsp
    rw [hfr a hac hap hsp, hfr0 a hac]
  have hkeep2 : ∀ a n, load s.heap a = some n → ∃ n1, load h1 a = some n1 ∧
      n1.name = n.name ∧ n1.isFile = n.isFile ∧ n1.parent = n.parent ∧
      (a ≠ p → n1.firstChild = n.firstChild) := by
    intro a n ha
    have hac : a ≠ s.heap.length := fun e => by
      rw [e, load_length] at ha
      cases ha
    obtain ⟨n1, k1, k2, k3, k4, _, k6⟩ := hkeep a n (by rw [hfr0 a hac]; exact ha)
    exact ⟨n1, k1, k2, k3, k4 hac, k6⟩
  obtain ⟨l0, hl0, hsp0, _, hcells0⟩ := childList_spec inv.rep inv.nodup hpm
  rw [hl] at hl0
  cases hl0
  obtain ⟨l3, hl3, hsp3, _, _⟩ := childList_spec inv1.rep inv1.nodup hpm2
  rw [esp] at hsp0 hframe
  rw [es2] at hsp3
  simp only [LT.children] at hsp0 hsp3 hframe
  obtain ⟨i, hi⟩ := LT.insertSib_spine s.heap.length (name.take (MAX_NAME_LENGTH - 1)) isFile
    LT.nil fc
  obtain ⟨nx, hcell, _⟩ := (inv1.rep.cell_of_sub es2).2.insertSib_cell
  have hpcell := (inv.rep.cell_of_sub esp).1
  have hpcell1 := (inv1.rep.cell_of_sub es2).1
  have hpkeep : ∀ pn0, load s.heap p = some pn0 → ∃ pn1, load h1 p = some pn1 ∧
      pn1.name = pn0.name ∧ pn1.isFile = pn0.isFile ∧ pn1.parent = pn0.parent ∧
      pn1.nextSibling = pn0.nextSibling := by
    intro pn0 hp0
    obtain ⟨n1, k1, k2, k3, k4, _⟩ := hkeep2 p pn0 hp0
    refine ⟨n1, k1, k2, k3, k4, ?_⟩
    rw [hpcell1] at k1
    rw [hpcell] at hp0
    cases k1
    cases hp0
    rfl
  have hchild : ∀ x ∈ l, x.1 ∈ t.addrs ∧ load s.heap x.1 = some x.2 ∧ x.2.parent = some p := by
    intro x hx
    obtain ⟨h1x, h2x⟩ := hcells0 x hx
    exact ⟨inv.mem_of_load h1x, h1x, h2x⟩
  have hnotchild : ∀ a n, load s.heap a = some n → n.parent ≠ some p → a ∉ fc.spine := by
    intro a n ha hne hm
    rw [← hsp0, List.mem_map] at hm
    obtain ⟨x, hx, rfl⟩ := hm
    obtain ⟨_, h1x, h2x⟩ := hchild x hx
    rw [ha] at h1x
    cases h1x
    exact hne h2x
  refine ⟨_, l.take i, l.drop i, l3, rfl, rfl, load_length _, hcell, rfl, rfl, rfl, rfl,
    (List.take_append_drop i l).symm, hl3, ?_, ?_, ?_, hpkeep, ?_, ?_, ?_⟩
  · rw [hsp3, hi, ← hsp0, List.map_take, List.map_drop]
  · intro x hx
    obtain ⟨hxm, h1x, _⟩ := hchild x hx
    have hxp : x.1 ≠ p := by
      intro e
      have : p ∈ fc.spine := by
        rw [← hsp0, List.mem_map]
        exact ⟨x, hx, e⟩
      have hb := LT.not_below_self inv.nodup p
      rw [esp] at hb
      exact hb (LT.spine_subset _ _ this)
    obtain ⟨n1, k1, k2, k3, k4, k5⟩ := hkeep2 x.1 x.2 h1x
    exact ⟨n1, k1, k2, k3, k4, k5 hxp⟩
  · intro x hx a hanc
    obtain ⟨hxm, h1x, h2x⟩ := hchild x hx
    have hnb := inv.parent_not_below h1x h2x
    obtain ⟨b, ⟨n, hn, hnp⟩, hrest⟩ := Relation.TransGen.head'_iff.mp hanc
    apply hframe a
    · intro e
      subst e
      exact hnb (inv.ancestor_ne hanc).2
    · intro e
      rw [e, load_length] at hn
      cases hn
    · intro hm
      rw [← hsp0, List.mem_map] at hm
      obtain ⟨y, hy, hya⟩ := hm
      obtain ⟨_, h1y, h2y⟩ := hchild y hy
      rw [hya, hn] at h1y
      cases h1y
      rw [h2y] at hnp
      cases hnp
      exact hnb hrest
  · intro a hap hac hal
    rw [hsp0] at hal
    exact hframe a hap hac hal
  · intro x hxp
    by_cases hxm : x ∈ t.addrs
    · obtain ⟨nmx, fx, fcx, nsx, esx⟩ := LT.sub_node hxm
      obtain ⟨hxcell, rx⟩ := inv.rep.cell_of_sub esx
      obtain ⟨n1, k1, _, _, _, k5⟩ := hkeep2 x _ hxcell
      have hxm1 := inv1.mem_of_load k1
      obtain ⟨nmy, fy, fcy, nsy, esy⟩ := LT.sub_node hxm1
      obtain ⟨hycell, ry⟩ := inv1.rep.cell_of_sub esy
      rw [hycell] at k1
      cases k1
      have hptr : fcx.ptr = fcy.ptr := (k5 hxp).symm
      rw [inv1.kidsOf_eq hxm1, inv.kidsOf_eq hxm, esx, esy]
      simp only [LT.children]
      apply Rep.spine_eq fcx fcy (some x) (some x) rx ry hptr
      intro a ha n n1 hn hn1
      have hax : n.parent = some x := by
        have hrx : Rep s.heap (some x) fcx := rx
        obtain ⟨n0, h0, h0p⟩ := hrx.spine_parent ha
        rw [hn] at h0
        cases h0
        exact h0p
      by_cases hap : a = p
      · subst hap
        obtain ⟨pn1, q1, _, _, _, q5⟩ := hpkeep n hn
        rw [hn1] at q1
        cases q1
        exact q5
      · have hac : a ≠ s.heap.length := fun e => by
          rw [e, load_length] at hn
          cases hn
        have hne : n.parent ≠ some p := by
          rw [hax]
          intro e
          exact hxp (Option.some.inj e)
        rw [hframe a hap hac (hnotchild a n hn hne), hn] at hn1
        cases hn1
        rfl
    · by_cases hxc : x = s.heap.length
      · subst hxc
        rw [kidsOf_empty (Or.inl (load_length _)),
          kidsOf_empty (Or.inr ⟨_, hcell, rfl⟩)]
      · have hx0 : load s.heap x = none := inv.dead x hxm
        have hx1 : load h1 x = none := by
          rw [hframe x hxp hxc]
          · exact hx0
          · intro hm
            apply hxm
            apply @LT.sub_children_subset t p x
            rw [esp]
            exact LT.spine_subset _ _ hm
        rw [kidsOf_empty (Or.inl hx0), kidsOf_empty (Or.inl hx1)]
  · intro n hn
    rw [findChild_spec inv1.rep inv1.nodup hpm2, findChild_spec inv.rep inv.nodup hpm, es2, esp]
    simp only [LT.children]
    rw [LT.lookup_insertSib_ne hn]

/-- C22. In every reachable state, a successful `createFolder` or `createFile`
on `p` (the flag `isFile` says which) leaves `root` and `currentDir` as they
are and allocates one cell, the new entry: it carries the name given (cut to
49 bytes) and the kind created, has `p` as parent and no children. The child
sequence of `p` afterwards is the former one with the new entry put in at one
position. Every former child keeps its name, kind, parent link and
`firstChild` link, and every cell below a former child is unchanged; `p`
keeps everything but its `firstChild` link; every cell other than `p`, the
new cell and the former children of `p` is unchanged; the child sequence of
every entry other than `p` is the same; and `findChild(p, n)` returns what it
returned before for every name `n` other than the stored name of the new
entry. -/
theorem create_changes_one_sequence (s s1 : FS) (hs : Reachable s) (isFile : Bool) (p : Nat)
    (name : List Nat) (l : List (Nat × Node))
    (hok : (isFile = false ∧ createFolder s (some p) name = some (Msg.ok, s1)) ∨
      (isFile = true ∧ createFile s (some p) name = some (Msg.ok, s1)))
    (hl : childList s.heap (some p) = some l) :
    ∃ cn l1 l2 l3, s1.root = s.root ∧ s1.currentDir = s.currentDir ∧
      load s.heap s.heap.length = none ∧ load s1.heap s.heap.length = some cn ∧
      cn.name = name.take (MAX_NAME_LENGTH - 1) ∧ cn.isFile = isFile ∧ cn.parent = some p ∧
      cn.firstChild = none ∧
      l = l1 ++ l2 ∧ childList s1.heap (some p) = some l3 ∧
      l3.map (fun x => x.1) = l1.map (fun x => x.1) ++ s.heap.length :: l2.map (fun x => x.1) ∧
      (∀ x ∈ l, ∃ n, load s1.heap x.1 = some n ∧ n.name = x.2.name ∧ n.isFile = x.2.isFile ∧
        n.parent = x.2.parent ∧ n.firstChild = x.2.firstChild) ∧
      (∀ x ∈ l, ∀ a, Ancestor s.heap x.1 a → load s1.heap a = load s.heap a) ∧
      (∀ pn, load s.heap p = some pn → ∃ pn1, load s1.heap p = some pn1 ∧
        pn1.name = pn.name ∧ pn1.isFile = pn.isFile ∧ pn1.parent = pn.parent ∧
        pn1.nextSibling = pn.nextSibling) ∧
      (∀ a, a ≠ p → a ≠ s.heap.length → a ∉ l.map (fun x => x.1) →
        load s1.heap a = load s.heap a) ∧
      (∀ x, x ≠ p → kidsOf s1.heap x = kidsOf s.heap x) ∧
      (∀ n, n ≠ name.take (MAX_NAME_LENGTH - 1) →
        findChild s1.heap (some p) n = findChild s.heap (some p) n) := by
  have hcreate : create isFile s (some p) name = some (Msg.ok, s1) := by
    rcases hok with ⟨h1, h2⟩ | ⟨h1, h2⟩
    · rw [h1]; exact h2
    · rw [h1]; exact h2
  exact create_frame hs hcreate hl

/-- Witness of C22: the call `createFile(docs, "b.txt")` that leads from
`stDocsA` to `stDocsAB`. -/
theorem create_changes_one_sequence_witness :
    Reachable stDocsA ∧ createFile stDocsA (some 1) nameB = some (Msg.ok, stDocsAB) ∧
    childList stDocsA.heap (some 1) = some [(2, ⟨nameA, true, some 1, none, none⟩)] ∧
    ∃ cn l1 l2 l3, stDocsAB.root = stDocsA.root ∧ stDocsAB.currentDir = stDocsA.currentDir ∧
      load stDocsA.heap stDocsA.heap.length = none ∧
      load stDocsAB.heap stDocsA.heap.length = some cn ∧
      cn.name = nameB.take (MAX_NAME_LENGTH - 1) ∧ cn.isFile = true ∧ cn.parent = some 1 ∧
      cn.firstChild = none ∧
      [((2 : Nat), (⟨nameA, true, some 1, none, none⟩ : Node))] = l1 ++ l2 ∧
      childList stDocsAB.heap (some 1) = some l3 ∧
      l3.map (fun x => x.1) =
        l1.map (fun x => x.1) ++ stDocsA.heap.length :: l2.map (fun x => x.1) ∧
      (∀ x ∈ [((2 : Nat), (⟨nameA, true, some 1, none, none⟩ : Node))],
        ∃ n, load stDocsAB.heap x.1 = some n ∧ n.name = x.2.name ∧ n.isFile = x.2.isFile ∧
          n.parent = x.2.parent ∧ n.firstChild = x.2.firstChild) ∧
      (∀ x ∈ [((2 : Nat), (⟨nameA, true, some 1, none, none⟩ : Node))],
        ∀ a, Ancestor stDocsA.heap x.1 a → load stDocsAB.heap a = load stDocsA.heap a) ∧
      (∀ pn, load stDocsA.heap 1 = some pn → ∃ pn1, load stDocsAB.heap 1 = some pn1 ∧
        pn1.name = pn.name ∧ pn1.isFile = pn.isFile ∧ pn1.parent = pn.parent ∧
        pn1.nextSibling = pn.nextSibling) ∧
      (∀ a, a ≠ 1 → a ≠ stDocsA.heap.length →
        a ∉ [((2 : Nat), (⟨nameA, true, some 1, none, none⟩ : Node))].map (fun x => x.1) →
        load stDocsAB.heap a = load stDocsA.heap a) ∧
      (∀ x, x ≠ 1 → kidsOf stDocsAB.heap x = kidsOf stDocsA.heap x) ∧
      (∀ n, n ≠ nameB.take (MAX_NAME_LENGTH - 1) →
        findChild stDocsAB.heap (some 1) n = findChild stDocsA.heap (some 1) n) :=
  ⟨reachable_stDocsA, by decide, by decide,
    create_changes_one_sequence stDocsA stDocsAB reachable_stDocsA true 1 nameB
      [(2, ⟨nameA, true, some 1, none, none⟩)] (Or.inr ⟨rfl, by decide⟩) (by decide)⟩

end FileExplorer
